import Mathlib

/-!
# Simple constant propagation (`myConstantPropagation`)

Shallow embedding of `src/ch4/simple_cst_propagation/your_turn/populate_function.cpp`:
the evaluator `evalBinaryInstruction`, the per-opcode switch of the pass, the
rewrite (`replaceAllUsesWith` followed by `eraseFromParent`) and the fixpoint
loop over the reverse post-order of the control-flow graph.

The pass computes with `llvm::APInt`.  The operations it calls are embedded
below on a pair (bit width, unsigned value of the bits), following
`llvm/ADT/APInt.h` and `llvm/lib/Support/APInt.cpp`.
-/

namespace CstProp

/-! ## `llvm::APInt` -/

/-- Arbitrary-precision integer: `BitWidth` bits whose unsigned value is `VAL`.
Every operation leaves the value below `2 ^ BitWidth` (`clearUnusedBits`).  The
binary operations of the source assert that both operands have the same width;
here the result takes the width of the left operand. -/
structure APInt where
  BitWidth : Nat
  VAL : Nat
deriving DecidableEq, Repr

namespace APInt

/-- The source's `clearUnusedBits`: keep the low `w` bits of `v`. -/
def clearUnusedBits (w v : Nat) : APInt := ⟨w, v % 2 ^ w⟩

/-- The source's `operator+`: addition of the words, then `clearUnusedBits`. -/
def add (a b : APInt) : APInt := clearUnusedBits a.BitWidth (a.VAL + b.VAL)

/-- The source's `negate`: `flipAllBits` followed by `++`. -/
def neg (a : APInt) : APInt :=
  clearUnusedBits a.BitWidth ((2 ^ a.BitWidth - 1 - a.VAL % 2 ^ a.BitWidth) + 1)

/-- The source's `operator-`: machine subtraction of the words (adding the two's
complement of the right operand), then `clearUnusedBits`. -/
def sub (a b : APInt) : APInt :=
  clearUnusedBits a.BitWidth (a.VAL + (2 ^ a.BitWidth - b.VAL % 2 ^ a.BitWidth))

/-- The source's `operator*`: product of the words, then `clearUnusedBits`. -/
def mul (a b : APInt) : APInt := clearUnusedBits a.BitWidth (a.VAL * b.VAL)

/-- The source's `operator&`. -/
def and (a b : APInt) : APInt := ⟨a.BitWidth, a.VAL &&& b.VAL⟩

/-- The source's `operator|`. -/
def or (a b : APInt) : APInt := ⟨a.BitWidth, a.VAL ||| b.VAL⟩

/-- The source's `operator^`. -/
def xor (a b : APInt) : APInt := ⟨a.BitWidth, a.VAL ^^^ b.VAL⟩

/-- The source's `operator==(uint64_t)` at the value `0`, as used in `r2 == 0`. -/
def isZero (a : APInt) : Bool := a.VAL == 0

/-- The source's `udiv`: unsigned quotient (the caller excludes a zero divisor). -/
def udiv (a b : APInt) : APInt := ⟨a.BitWidth, a.VAL / b.VAL⟩

/-- The source's `urem`: unsigned remainder (the caller excludes a zero divisor). -/
def urem (a b : APInt) : APInt := ⟨a.BitWidth, a.VAL % b.VAL⟩

/-- The source's `isNegative`: the top bit, bit `BitWidth - 1`. -/
def isNegative (a : APInt) : Bool := a.VAL.testBit (a.BitWidth - 1)

/-- The source's `sdiv`: unsigned division of the magnitudes, negated when the
signs differ. -/
def sdiv (a b : APInt) : APInt :=
  if a.isNegative then
    if b.isNegative then (a.neg).udiv b.neg
    else ((a.neg).udiv b).neg
  else
    if b.isNegative then (a.udiv b.neg).neg
    else a.udiv b

/-- The source's `srem`: unsigned remainder of the magnitudes, negated when the
dividend is negative. -/
def srem (a b : APInt) : APInt :=
  if a.isNegative then
    if b.isNegative then ((a.neg).urem b.neg).neg
    else ((a.neg).urem b).neg
  else
    if b.isNegative then a.urem b.neg
    else a.urem b

/-- The source's `getLimitedValue(Limit)`: the value, saturated at `Limit`. -/
def getLimitedValue (a : APInt) (Limit : Nat) : Nat :=
  if a.VAL > Limit then Limit else a.VAL

/-- The source's `shl(const APInt &)`: the amount is `getLimitedValue(BitWidth)`;
a shift by the whole width gives zero, any other amount shifts the word and
clears the unused bits. -/
def shl (a ShiftAmt : APInt) : APInt :=
  let s := ShiftAmt.getLimitedValue a.BitWidth
  if s = a.BitWidth then clearUnusedBits a.BitWidth 0
  else clearUnusedBits a.BitWidth (a.VAL <<< s)

/-- The source's `lshr(const APInt &)`: the amount is `getLimitedValue(BitWidth)`;
a shift by the whole width gives zero, any other amount shifts the word right. -/
def lshr (a ShiftAmt : APInt) : APInt :=
  let s := ShiftAmt.getLimitedValue a.BitWidth
  if s = a.BitWidth then ⟨a.BitWidth, 0⟩
  else ⟨a.BitWidth, a.VAL >>> s⟩

/-- The source's `SignExtend64(VAL, BitWidth)`, as an integer. -/
def SignExtend (a : APInt) : Int :=
  if a.isNegative then (a.VAL : Int) - 2 ^ a.BitWidth else (a.VAL : Int)

/-- The source's `ashr(const APInt &)`: the amount is `getLimitedValue(BitWidth)`;
the sign-extended word is shifted right arithmetically (a shift by the whole
width leaves only copies of the sign bit), then the unused bits are cleared. -/
def ashr (a ShiftAmt : APInt) : APInt :=
  let s := ShiftAmt.getLimitedValue a.BitWidth
  let SExtVAL := a.SignExtend
  let shifted : Int := if s = a.BitWidth then (if a.isNegative then -1 else 0) else SExtVAL >>> s
  ⟨a.BitWidth, Int.toNat (shifted % 2 ^ a.BitWidth)⟩

end APInt

/-! ## The IR -/

/-- The type of a value: an integer type of some bit width, or any other type. -/
inductive Ty where
  | Integer (BitWidth : Nat)
  | Other (tag : Nat)
deriving DecidableEq, Repr

/-- A value used as an operand.  `Instruction id` is the result of the
instruction whose identity is `id`. -/
inductive Value where
  | ConstantInt (V : APInt)
  | PoisonValue (T : Ty)
  | Argument (n : Nat)
  | Instruction (id : Nat)
  | Other (n : Nat)
deriving DecidableEq, Repr

/-- Instruction opcodes: the integer binary operators the pass folds, the
floating-point binary operators, and every non-binary opcode. -/
inductive Opcode where
  | Add | Sub | And | Or | Xor | Mul | SDiv | UDiv | LShr | Shl | AShr | SRem | URem
  | FAdd | FSub | FMul | FDiv | FRem
  | Other (code : Nat)
deriving DecidableEq, Repr

/-- An instruction: its identity (the value other instructions use), its
opcode, its type and its operands. -/
structure Instruction where
  id : Nat
  Opcode : Opcode
  Ty : Ty
  Operands : List Value
deriving DecidableEq, Repr

namespace Instruction

/-- The source's `isBinaryOp`. -/
def isBinaryOp (instr : Instruction) : Bool :=
  match instr.Opcode with
  | .Other _ => false
  | _ => true

/-- The source's `getOperand(i)`; `none` when the instruction has no operand `i`
(a binary operator always has operands 0 and 1). -/
def getOperand (instr : Instruction) (i : Nat) : Option Value := instr.Operands[i]?

end Instruction

/-- The source's `ConstantInt::get(context, V)`. -/
def ConstantInt.get (V : APInt) : Value := Value.ConstantInt V

/-- The source's `PoisonValue::get(T)`. -/
def PoisonValue.get (T : Ty) : Value := Value.PoisonValue T

/-- The source's `evalBinaryInstruction`: both operands are `dyn_cast` to
`ConstantInt`; when either cast fails the result is null (`none`), otherwise the
evaluator is applied to the two values. -/
def evalBinaryInstruction (instr : Instruction) (eval : APInt → APInt → Value) :
    Option Value :=
  match instr.getOperand 0, instr.getOperand 1 with
  | some (Value.ConstantInt rand1), some (Value.ConstantInt rand2) => some (eval rand1 rand2)
  | _, _ => none

/-- The value of the variable `constant` after the body of the inner loop up to
the end of the `switch`: `none` when the instruction is skipped (`continue`) or
when the evaluator returned null. -/
def constant (instr : Instruction) : Option Value :=
  if !instr.isBinaryOp then none
  else
    match instr.Opcode with
    | .Add => evalBinaryInstruction instr (fun r1 r2 => ConstantInt.get (r1.add r2))
    | .Sub => evalBinaryInstruction instr (fun r1 r2 => ConstantInt.get (r1.sub r2))
    | .And => evalBinaryInstruction instr (fun r1 r2 => ConstantInt.get (r1.and r2))
    | .Or => evalBinaryInstruction instr (fun r1 r2 => ConstantInt.get (r1.or r2))
    | .Xor => evalBinaryInstruction instr (fun r1 r2 => ConstantInt.get (r1.xor r2))
    | .Mul => evalBinaryInstruction instr (fun r1 r2 => ConstantInt.get (r1.mul r2))
    | .SDiv => evalBinaryInstruction instr (fun r1 r2 =>
        if r2.isZero then PoisonValue.get instr.Ty else ConstantInt.get (r1.sdiv r2))
    | .UDiv => evalBinaryInstruction instr (fun r1 r2 =>
        if r2.isZero then PoisonValue.get instr.Ty else ConstantInt.get (r1.udiv r2))
    | .LShr => evalBinaryInstruction instr (fun r1 r2 => ConstantInt.get (r1.lshr r2))
    | .Shl => evalBinaryInstruction instr (fun r1 r2 => ConstantInt.get (r1.shl r2))
    | .AShr => evalBinaryInstruction instr (fun r1 r2 => ConstantInt.get (r1.ashr r2))
    | .SRem => evalBinaryInstruction instr (fun r1 r2 =>
        if r2.isZero then PoisonValue.get instr.Ty else ConstantInt.get (r1.srem r2))
    | .URem => evalBinaryInstruction instr (fun r1 r2 =>
        if r2.isZero then PoisonValue.get instr.Ty else ConstantInt.get (r1.urem r2))
    | _ => none

/-- A basic block: its instructions in order, and its successor blocks (the
targets of its terminator), given by their position in the function. -/
structure BasicBlock where
  Insts : List Instruction
  Succs : List Nat
deriving DecidableEq, Repr

/-- A function body: its basic blocks; the entry block is the first one. -/
structure Function where
  Blocks : List BasicBlock
deriving DecidableEq, Repr

/-- The source's `Value::replaceAllUsesWith`, at one operand: an operand that is
the instruction `id` becomes `New`. -/
def Value.replaceUsesOfWith (id : Nat) (New : Value) (v : Value) : Value :=
  if v = Value.Instruction id then New else v

/-- All operands of one instruction, redirected from `id` to `New`. -/
def Instruction.replaceUsesOfWith (id : Nat) (New : Value) (instr : Instruction) :
    Instruction :=
  { instr with Operands := instr.Operands.map (Value.replaceUsesOfWith id New) }

/-- All operands in one block, redirected from `id` to `New`. -/
def BasicBlock.replaceUsesOfWith (id : Nat) (New : Value) (bb : BasicBlock) : BasicBlock :=
  { bb with Insts := bb.Insts.map (Instruction.replaceUsesOfWith id New) }

namespace Function

/-- The successor blocks of block `b`. -/
def successors (Fn : Function) (b : Nat) : List Nat :=
  match Fn.Blocks[b]? with
  | some bb => bb.Succs
  | none => []

/-- The instructions of block `b`. -/
def instructions (Fn : Function) (b : Nat) : List Instruction :=
  match Fn.Blocks[b]? with
  | some bb => bb.Insts
  | none => []

/-- The instruction at position `i` of block `b`. -/
def getInstruction (Fn : Function) (b i : Nat) : Option Instruction :=
  (Fn.instructions b)[i]?

/-- The number of instructions in the function. -/
def numInstructions (Fn : Function) : Nat :=
  (Fn.Blocks.map (fun bb => bb.Insts.length)).sum

/-- The source's `instr.replaceAllUsesWith(New)` for the instruction `id`: every
use of it, anywhere in the function, is redirected to `New`. -/
def replaceAllUsesWith (Fn : Function) (id : Nat) (New : Value) : Function :=
  ⟨Fn.Blocks.map (BasicBlock.replaceUsesOfWith id New)⟩

/-- The source's `instr.eraseFromParent()` for the instruction at position `i` of
block `b`. -/
def eraseFromParent (Fn : Function) (b i : Nat) : Function :=
  ⟨Fn.Blocks.modify (fun bb => { bb with Insts := bb.Insts.eraseIdx i }) b⟩

end Function

/-! ## The graph walker -/

/-- Depth-first post-order walk behind `ReversePostOrderTraversal`
(`llvm/ADT/PostOrderIterator.h`).  `stack` holds the blocks whose successors are
being walked and `out` the finished blocks, last finished first; together they
are the walk's visited set.  A block is finished once all its successors have
been tried in order. -/
def postOrder (Fn : Function) : Nat → List Nat → Nat → List Nat → List Nat
  | 0, _, _, out => out
  | fuel + 1, stack, n, out =>
    if n ∈ stack ∨ n ∈ out then out
    else n :: (Fn.successors n).foldl (fun o s => postOrder Fn fuel (n :: stack) s o) out

/-- The source's `ReversePostOrderTraversal<Function *>(&Fn)`: the blocks
reached from the entry block, in reverse post-order. -/
def ReversePostOrderTraversal (Fn : Function) : List Nat :=
  if Fn.Blocks = [] then [] else postOrder Fn (Fn.Blocks.length + 1) [] 0 []

/-! ## The pass -/

/-- The state of the pass: the function being rewritten and the two flags of
the source.  `folded` is a ghost record, absent from the source: the folds
of the current sweep, oldest first, each as the identity of the folded
instruction and the value its uses were redirected to. -/
structure PassState where
  Fn : Function
  converged : Bool
  changed : Bool
  folded : List (Nat × Value)
deriving DecidableEq, Repr

/-- Lines 153-158 of the source, for the instruction `instr` at position `i` of
block `b` and a non-null `constant`: redirect the uses, erase the instruction,
clear `converged`, set `changed`. -/
def PassState.fold (st : PassState) (b i : Nat) (instr : Instruction) (c : Value) :
    PassState :=
  { Fn := (st.Fn.replaceAllUsesWith instr.id c).eraseFromParent b i
    converged := false
    changed := true
    folded := st.folded ++ [(instr.id, c)] }

/-- The inner loop `for (Instruction &instr : make_early_inc_range(*bb))`, from
position `i` of block `b` with `n` instructions still to visit.  Erasing the
visited instruction moves the next one to position `i`; otherwise the next one
is at `i + 1`. -/
def forInstructions (b : Nat) : Nat → Nat → PassState → PassState
  | 0, _, st => st
  | n + 1, i, st =>
    match st.Fn.getInstruction b i with
    | none => st
    | some instr =>
      match constant instr with
      | some c => forInstructions b n i (st.fold b i instr c)
      | none => forInstructions b n (i + 1) st

/-- One execution of the body of `for (BasicBlock *bb : rpot)`. -/
def forBlock (st : PassState) (b : Nat) : PassState :=
  forInstructions b (st.Fn.instructions b).length 0 st

/-- The loop `for (BasicBlock *bb : rpot)`. -/
def forBlocks (rpot : List Nat) (st : PassState) : PassState :=
  rpot.foldl forBlock st

/-- One execution of the body of `while (!converged)`. -/
def sweep (Fn : Function) (changed : Bool) : PassState :=
  forBlocks (ReversePostOrderTraversal Fn)
    { Fn := Fn, converged := true, changed := changed, folded := [] }

/-- What the pass returns: the `changed` flag, the rewritten function, and as
a ghost record the folds of every sweep, in order. -/
structure RunResult where
  changed : Bool
  Fn : Function
  trace : List (List (Nat × Value))
deriving DecidableEq, Repr

/-- The loop `while (!converged)`, bounded by `fuel` executions of its body. -/
def whileLoop : Nat → Function → Bool → List (List (Nat × Value)) → Option RunResult
  | 0, _, _, _ => none
  | fuel + 1, Fn, changed, trace =>
    let st := sweep Fn changed
    if st.converged then some ⟨st.changed, st.Fn, trace ++ [st.folded]⟩
    else whileLoop fuel st.Fn st.changed (trace ++ [st.folded])

/-- The source's `myConstantPropagation`.  Every sweep but the last erases an
instruction, so one sweep more than the function has instructions is enough. -/
def myConstantPropagation (Fn : Function) : Option RunResult :=
  whileLoop (Fn.numInstructions + 1) Fn false []

/-! ## Definitions used to state the properties -/

/-- The signed (two's complement) reading of the `w`-bit word `x`. -/
def toSigned (w x : Nat) : Int :=
  if 2 ^ (w - 1) ≤ x then (x : Int) - 2 ^ w else (x : Int)

/-- The `w`-bit two's complement encoding of the integer `z`. -/
def toUnsigned (w : Nat) (z : Int) : Nat := Int.toNat (z % 2 ^ w)

/-- The binary instruction `op(x, y)` of type `iw` on two constants of width `w`. -/
def binop (id : Nat) (op : Opcode) (w x y : Nat) : Instruction :=
  ⟨id, op, Ty.Integer w, [Value.ConstantInt ⟨w, x⟩, Value.ConstantInt ⟨w, y⟩]⟩

/-- Scenario A: one block holding `r = Add(5, 3)` at width 32 and a use of `r`. -/
def scenarioA : Function :=
  ⟨[⟨[binop 1 .Add 32 5 3, ⟨2, .Other 0, .Other 0, [Value.Instruction 1]⟩], []⟩]⟩

/-- Scenario A after the pass: the use holds the constant `8`. -/
def scenarioAFolded : Function :=
  ⟨[⟨[⟨2, .Other 0, .Other 0, [Value.ConstantInt ⟨32, 8⟩]⟩], []⟩]⟩

/-- The thirteen integer binary opcodes the `switch` of the pass handles. -/
def Opcode.isSupported : Opcode → Bool
  | .Add | .Sub | .And | .Or | .Xor | .Mul | .SDiv | .UDiv | .LShr | .Shl | .AShr
  | .SRem | .URem => true
  | _ => false

/-- Whether operand `k` of the instruction is structurally an integer constant. -/
def Instruction.isConstantIntOperand (instr : Instruction) (k : Nat) : Bool :=
  match instr.getOperand k with
  | some (Value.ConstantInt _) => true
  | _ => false

/-- A block is reachable when it is the entry block or a successor of a
reachable block. -/
inductive Reachable (Fn : Function) : Nat → Prop
  | entry : Fn.Blocks ≠ [] → Reachable Fn 0
  | succ {a b : Nat} : Reachable Fn a → b ∈ Fn.successors a → Reachable Fn b

/-- One fold of the pass, as a step on functions: in a block `b` of the walker's
sequence the instruction `instr` at position `i` has the non-null `constant`
value `c`; its uses are redirected to `c` and it is erased.  The label is the
entry the pass records in `folded`. -/
inductive FoldStep : Function → Nat × Value → Function → Prop
  | mk (Fn : Function) (b i : Nat) (instr : Instruction) (c : Value) :
      b ∈ ReversePostOrderTraversal Fn →
      Fn.getInstruction b i = some instr →
      constant instr = some c →
      FoldStep Fn (instr.id, c) ((Fn.replaceAllUsesWith instr.id c).eraseFromParent b i)

/-- A sequence of folds, labelled by the entries recorded, oldest first. -/
inductive Folds : Function → List (Nat × Value) → Function → Prop
  | refl (Fn : Function) : Folds Fn [] Fn
  | step {A B C : Function} {e : Nat × Value} {log : List (Nat × Value)} :
      FoldStep A e B → Folds B log C → Folds A (e :: log) C

/-- The value an operand holds once the folds recorded in `log` have redirected
it: a reference to a folded instruction becomes the value of its first fold. -/
def Value.subst (log : List (Nat × Value)) (v : Value) : Value :=
  match v with
  | Value.Instruction j =>
    match log.lookup j with
    | some c => c
    | none => v
  | _ => v

/-- An instruction with every operand redirected according to `log`. -/
def Instruction.subst (log : List (Nat × Value)) (instr : Instruction) : Instruction :=
  { instr with Operands := instr.Operands.map (Value.subst log) }

/-- Some block of the walker's sequence holds an instruction the pass folds. -/
def Foldable (Fn : Function) : Prop :=
  ∃ b ∈ ReversePostOrderTraversal Fn, ∃ instr ∈ Fn.instructions b, (constant instr).isSome = true

/-- No operand anywhere in the function is the instruction `j`. -/
def NoUse (j : Nat) (Fn : Function) : Prop :=
  ∀ b, ∀ instr ∈ Fn.instructions b, Value.Instruction j ∉ instr.Operands

/-- The identities of the instructions of the function, block by block. -/
def Function.ids (Fn : Function) : List Nat :=
  (Fn.Blocks.map (fun bb => bb.Insts.map (fun instr => instr.id))).flatten

/-- Distinct instructions have distinct identities (each instruction is a value
of its own). -/
def Function.UniqueIds (Fn : Function) : Prop := Fn.ids.Nodup

instance Function.decidableUniqueIds (Fn : Function) : Decidable Fn.UniqueIds :=
  inferInstanceAs (Decidable Fn.ids.Nodup)

/-- Scenario C: one block holding `r = SDiv(7, 0)` at width 32 and a use of `r`. -/
def scenarioC : Function :=
  ⟨[⟨[binop 1 .SDiv 32 7 0, ⟨2, .Other 0, .Other 0, [Value.Instruction 1]⟩], []⟩]⟩

/-- Scenario C after the pass: the use holds the marker. -/
def scenarioCFolded : Function :=
  ⟨[⟨[⟨2, .Other 0, .Other 0, [Value.PoisonValue (Ty.Integer 32)]⟩], []⟩]⟩

/-- The instruction `r = Add(5, %param)` of scenario D. -/
def addParam : Instruction :=
  ⟨1, .Add, Ty.Integer 32, [Value.ConstantInt ⟨32, 5⟩, Value.Argument 0]⟩

/-- Scenario D: one block holding `r = Add(5, %param)` and a use of `r`. -/
def scenarioD : Function :=
  ⟨[⟨[addParam, ⟨2, .Other 0, .Other 0, [Value.Instruction 1]⟩], []⟩]⟩

/-- The instruction `s = Add(d, 1)` using the result `d` of instruction 1. -/
def addOfDiv : Instruction :=
  ⟨2, .Add, Ty.Integer 32, [Value.Instruction 1, Value.ConstantInt ⟨32, 1⟩]⟩

/-- One block holding `d = SDiv(7, 0)`, `s = Add(d, 1)` and a use of `s`. -/
def scenarioMarkerUser : Function :=
  ⟨[⟨[binop 1 .SDiv 32 7 0, addOfDiv, ⟨3, .Other 0, .Other 0, [Value.Instruction 2]⟩], []⟩]⟩

/-- The function `scenarioMarkerUser` after the pass: `s = Add(marker, 1)` is
still there. -/
def scenarioMarkerUserFolded : Function :=
  ⟨[⟨[⟨2, .Add, Ty.Integer 32, [Value.PoisonValue (Ty.Integer 32), Value.ConstantInt ⟨32, 1⟩]⟩,
      ⟨3, .Other 0, .Other 0, [Value.Instruction 2]⟩], []⟩]⟩

/-- Two blocks: the entry block holds `t2 = Mul(t1, 10)` and branches to the
second block, which holds `t1 = Add(2, 2)` and a use of `t2`. -/
def scenarioLater : Function :=
  ⟨[⟨[⟨2, .Mul, Ty.Integer 32, [Value.Instruction 1, Value.ConstantInt ⟨32, 10⟩]⟩,
      ⟨3, .Other 1, .Other 0, []⟩], [1]⟩,
    ⟨[binop 1 .Add 32 2 2, ⟨4, .Other 0, .Other 0, [Value.Instruction 2]⟩], []⟩]⟩

/-- The function `scenarioLater` after the pass. -/
def scenarioLaterFolded : Function :=
  ⟨[⟨[⟨3, .Other 1, .Other 0, []⟩], [1]⟩,
    ⟨[⟨4, .Other 0, .Other 0, [Value.ConstantInt ⟨32, 40⟩]⟩], []⟩]⟩

/-- The number of binary-operator instructions in the function. -/
def Function.numBinaryOps (Fn : Function) : Nat :=
  (Fn.Blocks.map (fun bb => bb.Insts.countP (fun instr => instr.isBinaryOp))).sum

/-- Scenario B: one block holding `t1 = Add(2, 2)`, then `t2 = Mul(t1, 10)`, then
a use of `t2`. -/
def scenarioB : Function :=
  ⟨[⟨[binop 1 .Add 32 2 2,
      ⟨2, .Mul, Ty.Integer 32, [Value.Instruction 1, Value.ConstantInt ⟨32, 10⟩]⟩,
      ⟨3, .Other 0, .Other 0, [Value.Instruction 2]⟩], []⟩]⟩

/-- Scenario B after the pass: the use holds the constant `40`. -/
def scenarioBFolded : Function :=
  ⟨[⟨[⟨3, .Other 0, .Other 0, [Value.ConstantInt ⟨32, 40⟩]⟩], []⟩]⟩

/-- Two blocks: the entry block holds only a terminator without successors; the
second block, not reachable, holds `x = Add(1, 2)` and a use of `x`. -/
def scenarioUnreachable : Function :=
  ⟨[⟨[⟨3, .Other 1, .Other 0, []⟩], []⟩,
    ⟨[binop 1 .Add 32 1 2, ⟨2, .Other 0, .Other 0, [Value.Instruction 1]⟩], []⟩]⟩

/-- The type of a folded value: `iN` for an integer constant of width `N`, and
the type a marker was created at. -/
def Value.getType : Value → Option Ty
  | .ConstantInt V => some (Ty.Integer V.BitWidth)
  | .PoisonValue T => some T
  | _ => none

/-- The value `v` may stand where the function expects a value of type `T`: an
integer constant has the width of `T`, a marker was created at `T`, and an
instruction result refers to instructions of type `T`. -/
def Value.HasType (Fn : Function) (T : Ty) : Value → Prop
  | .ConstantInt V => T = Ty.Integer V.BitWidth
  | .PoisonValue T' => T = T'
  | .Instruction j => ∀ b, ∀ instr ∈ Fn.instructions b, instr.id = j → instr.Ty = T
  | _ => True

/-- The typing rule of the binary operators the pass folds: operands 0 and 1
have the type of the instruction. -/
def Function.WellTyped (Fn : Function) : Prop :=
  ∀ b, ∀ instr ∈ Fn.instructions b, instr.Opcode.isSupported = true →
    ∀ k, k < 2 → ∀ v, instr.getOperand k = some v → Value.HasType Fn instr.Ty v

/-- The least relation "the value resolves to the integer constant `a`": an
integer constant resolves to itself, and the result of an instruction of a
reachable block resolves to `a` when its operands 0 and 1 resolve to integer
constants on which `constant` gives the integer constant `a`. -/
inductive Resolves (Fn : Function) : Value → APInt → Prop
  | const (a : APInt) : Resolves Fn (Value.ConstantInt a) a
  | folded (b : Nat) (instr : Instruction) (v0 v1 : Value) (a0 a1 a : APInt) :
      Reachable Fn b → instr ∈ Fn.instructions b →
      instr.getOperand 0 = some v0 → instr.getOperand 1 = some v1 →
      Resolves Fn v0 a0 → Resolves Fn v1 a1 →
      constant ⟨instr.id, instr.Opcode, instr.Ty,
        [Value.ConstantInt a0, Value.ConstantInt a1]⟩ = some (Value.ConstantInt a) →
      Resolves Fn (Value.Instruction instr.id) a

/-- The least set of folds: the instruction `j` of a reachable block folds to `c`
when its operands 0 and 1 resolve to integer constants on which `constant` gives
`c` (an integer constant or the marker). -/
def FoldsTo (Fn : Function) (j : Nat) (c : Value) : Prop :=
  ∃ b instr v0 v1 a0 a1, Reachable Fn b ∧ instr ∈ Fn.instructions b ∧ instr.id = j
    ∧ instr.getOperand 0 = some v0 ∧ instr.getOperand 1 = some v1
    ∧ Resolves Fn v0 a0 ∧ Resolves Fn v1 a1
    ∧ constant ⟨instr.id, instr.Opcode, instr.Ty,
        [Value.ConstantInt a0, Value.ConstantInt a1]⟩ = some c

/-- One execution of the body of `while (!converged)` with the walker's sequence
replaced by the enumeration `order` of the blocks. -/
def sweepWith (order : List Nat) (Fn : Function) (changed : Bool) : PassState :=
  forBlocks order { Fn := Fn, converged := true, changed := changed, folded := [] }

/-- The loop `while (!converged)` with the walker's sequence of the `k`-th sweep
replaced by the enumeration `walks k` (sweeps counted from `0`). -/
def whileLoopWith (walks : Nat → List Nat) :
    Nat → Function → Bool → List (List (Nat × Value)) → Option RunResult
  | 0, _, _, _ => none
  | fuel + 1, Fn, changed, trace =>
    let st := sweepWith (walks trace.length) Fn changed
    if st.converged then some ⟨st.changed, st.Fn, trace ++ [st.folded]⟩
    else whileLoopWith walks fuel st.Fn st.changed (trace ++ [st.folded])

/-- The instructions of the walker's blocks in the order a sweep visits them. -/
def sweepOrder (Fn : Function) : List Instruction :=
  (ReversePostOrderTraversal Fn).flatMap (fun b => Fn.instructions b)

/-- Every operand that is an instruction result refers to an identity in `seen`
or to an instruction standing earlier in the list. -/
def definedBeforeUse : List Nat → List Instruction → Bool
  | _, [] => true
  | seen, instr :: rest =>
    instr.Operands.all (fun v =>
      match v with
      | Value.Instruction j => decide (j ∈ seen)
      | _ => true)
    && definedBeforeUse (instr.id :: seen) rest

/-- No instruction of the list has an operand referring to itself or to an
instruction standing later in the list. -/
def NoForwardRef : List Instruction → Prop
  | [] => True
  | instr :: rest =>
    (∀ j, Value.Instruction j ∈ instr.Operands → ∀ x ∈ instr :: rest, x.id ≠ j)
    ∧ NoForwardRef rest

/-- The state of a sweep between two visits, with `V` the instructions visited
and kept and `U` those still to visit: no visited instruction can be folded or
refers to an instruction still to visit, and the instructions still to visit are
free of forward references. -/
def SweepInv (V U : List Instruction) : Prop :=
  (∀ x ∈ V, constant x = none
    ∧ ∀ j, Value.Instruction j ∈ x.Operands → ∀ y ∈ U, y.id ≠ j)
  ∧ NoForwardRef U

/-! # Properties -/

/-! ## Arithmetic of the folded values -/

theorem toUnsigned_cast (w : Nat) (z : Int) : ((toUnsigned w z : Nat) : Int) = z % 2 ^ w := by
  unfold toUnsigned
  apply Int.toNat_of_nonneg
  apply Int.emod_nonneg
  positivity

theorem toUnsigned_natCast (w n : Nat) : toUnsigned w (n : Int) = n % 2 ^ w := by
  have h := toUnsigned_cast w (n : Int)
  have : ((n : Int) % 2 ^ w) = ((n % 2 ^ w : Nat) : Int) := by push_cast; rfl
  rw [this] at h
  exact_mod_cast h

theorem toUnsigned_of_lt (w n : Nat) (h : n < 2 ^ w) : toUnsigned w (n : Int) = n := by
  rw [toUnsigned_natCast, Nat.mod_eq_of_lt h]

theorem toUnsigned_lt (w : Nat) (z : Int) : toUnsigned w z < 2 ^ w := by
  have h := toUnsigned_cast w z
  have h2 : z % 2 ^ w < 2 ^ w := Int.emod_lt_of_pos _ (by positivity)
  have : ((toUnsigned w z : Nat) : Int) < ((2 ^ w : Nat) : Int) := by
    rw [h]; push_cast; exact h2
  exact_mod_cast this

theorem toUnsigned_congr (w : Nat) (a b : Int) (h : a % 2 ^ w = b % 2 ^ w) :
    toUnsigned w a = toUnsigned w b := by
  unfold toUnsigned; rw [h]

namespace APInt

theorem sub_VAL (w x y : Nat) :
    (APInt.sub ⟨w, x⟩ ⟨w, y⟩).VAL = toUnsigned w ((x : Int) - (y : Int)) := by
  have hpos : 0 < 2 ^ w := by positivity
  have hle : y % 2 ^ w ≤ 2 ^ w := (Nat.mod_lt y hpos).le
  have key : (((x + (2 ^ w - y % 2 ^ w)) % 2 ^ w : Nat) : Int) = ((x : Int) - y) % 2 ^ w := by
    push_cast [Nat.cast_sub hle]
    have e : (x : Int) + (2 ^ w - (y : Int) % 2 ^ w)
        = ((x : Int) - y) + 2 ^ w * (1 + (y : Int) / 2 ^ w) := by
      have := Int.emod_add_ediv (y : Int) (2 ^ w)
      linarith
    rw [e, Int.add_mul_emod_self_left]
  have h2 := toUnsigned_cast w ((x : Int) - (y : Int))
  show (x + (2 ^ w - y % 2 ^ w)) % 2 ^ w = _
  exact_mod_cast key.trans h2.symm

theorem neg_VAL (w q : Nat) : (APInt.neg ⟨w, q⟩).VAL = toUnsigned w (-(q : Int)) := by
  have hpos : 0 < 2 ^ w := by positivity
  have hlt : q % 2 ^ w < 2 ^ w := Nat.mod_lt q hpos
  have key : (((2 ^ w - 1 - q % 2 ^ w + 1) % 2 ^ w : Nat) : Int) = (-(q : Int)) % 2 ^ w := by
    have e1 : 2 ^ w - 1 - q % 2 ^ w + 1 = 2 ^ w - q % 2 ^ w := by omega
    rw [e1]
    push_cast [Nat.cast_sub hlt.le]
    have e : (2 ^ w - (q : Int) % 2 ^ w)
        = (-(q : Int)) + 2 ^ w * (1 + (q : Int) / 2 ^ w) := by
      have := Int.emod_add_ediv (q : Int) (2 ^ w)
      linarith
    rw [e, Int.add_mul_emod_self_left]
  have h2 := toUnsigned_cast w (-(q : Int))
  show (2 ^ w - 1 - q % 2 ^ w + 1) % 2 ^ w = _
  exact_mod_cast key.trans h2.symm

theorem neg_BitWidth (a : APInt) : a.neg.BitWidth = a.BitWidth := rfl

theorem neg_eq (w q : Nat) : APInt.neg ⟨w, q⟩ = ⟨w, toUnsigned w (-(q : Int))⟩ := by
  have h := neg_VAL w q
  cases hn : APInt.neg ⟨w, q⟩ with
  | mk bw v =>
    have hb : (APInt.neg ⟨w, q⟩).BitWidth = w := rfl
    rw [hn] at h hb
    simp only at h hb
    rw [h, hb]

theorem isNegative_iff (w x : Nat) (hw : 0 < w) (hx : x < 2 ^ w) :
    (APInt.isNegative ⟨w, x⟩ = true) ↔ 2 ^ (w - 1) ≤ x := by
  unfold APInt.isNegative
  simp only
  constructor
  · intro h
    exact Nat.testBit_implies_ge h
  · intro h
    rw [Nat.testBit_to_div_mod]
    have h2 : 2 ^ w = 2 * 2 ^ (w - 1) := by
      rw [← pow_succ']
      congr 1
      omega
    have hpos : 0 < 2 ^ (w - 1) := by positivity
    have hq1 : 1 ≤ x / 2 ^ (w - 1) := (Nat.one_le_div_iff hpos).mpr h
    have hq2 : x / 2 ^ (w - 1) < 2 := by
      rw [Nat.div_lt_iff_lt_mul hpos]
      omega
    have : x / 2 ^ (w - 1) = 1 := by omega
    rw [this]
    decide

theorem neg_of_negative (w x : Nat) (hx : x < 2 ^ w) (h : 2 ^ (w - 1) ≤ x) :
    APInt.neg ⟨w, x⟩ = ⟨w, 2 ^ w - x⟩ := by
  rw [neg_eq]
  congr 1
  have hpos : 0 < 2 ^ (w - 1) := by positivity
  have e : (-(x : Int)) % 2 ^ w = (((2 ^ w - x : Nat) : Int)) % 2 ^ w := by
    push_cast [Nat.cast_sub hx.le]
    have : ((2 : Int) ^ w - x) = -(x : Int) + 2 ^ w * 1 := by ring
    rw [this, Int.add_mul_emod_self_left]
  rw [toUnsigned_congr w _ _ e, toUnsigned_of_lt]
  omega

end APInt

namespace APInt

theorem toSigned_of_negative (w x : Nat) (hx : x < 2 ^ w) (h : 2 ^ (w - 1) ≤ x) :
    toSigned w x = -(((2 ^ w - x : Nat)) : Int) := by
  unfold toSigned
  rw [if_pos h]
  push_cast [Nat.cast_sub hx.le]
  ring

theorem toSigned_of_nonneg (w x : Nat) (h : ¬ 2 ^ (w - 1) ≤ x) :
    toSigned w x = (x : Int) := by
  unfold toSigned
  rw [if_neg h]

theorem isNegative_false (w x : Nat) (hw : 0 < w) (hx : x < 2 ^ w) (h : ¬ 2 ^ (w - 1) ≤ x) :
    APInt.isNegative ⟨w, x⟩ = false := by
  cases hb : APInt.isNegative ⟨w, x⟩ with
  | false => rfl
  | true => exact absurd ((isNegative_iff w x hw hx).mp hb) h

theorem neg_tmod (a b : Int) : (-a).tmod b = -(a.tmod b) := by
  rw [Int.tmod_def, Int.tmod_def, Int.neg_tdiv]
  ring

theorem pos_of_ne_zero_lt (w y : Nat) (hy : y < 2 ^ w) (hy0 : y ≠ 0) : 0 < w := by
  rcases Nat.eq_zero_or_pos w with h | h
  · subst h
    simp at hy
    exact absurd hy hy0
  · exact h

theorem sdiv_eq (w x y : Nat) (hx : x < 2 ^ w) (hy : y < 2 ^ w) (hy0 : y ≠ 0) :
    APInt.sdiv ⟨w, x⟩ ⟨w, y⟩
      = ⟨w, toUnsigned w (Int.tdiv (toSigned w x) (toSigned w y))⟩ := by
  have hw := pos_of_ne_zero_lt w y hy hy0
  unfold APInt.sdiv
  by_cases hxn : 2 ^ (w - 1) ≤ x
  · rw [if_pos ((isNegative_iff w x hw hx).mpr hxn), toSigned_of_negative w x hx hxn,
      neg_of_negative w x hx hxn]
    by_cases hyn : 2 ^ (w - 1) ≤ y
    · rw [if_pos ((isNegative_iff w y hw hy).mpr hyn), toSigned_of_negative w y hy hyn,
        neg_of_negative w y hy hyn, Int.neg_tdiv, Int.tdiv_neg, neg_neg, ← Int.ofNat_tdiv,
        toUnsigned_of_lt]
      · rfl
      · have hp : 0 < 2 ^ (w - 1) := by positivity
        exact lt_of_le_of_lt (Nat.div_le_self _ _) (by omega)
    · rw [if_neg (by rw [isNegative_false w y hw hy hyn]; simp), toSigned_of_nonneg w y hyn,
        Int.neg_tdiv, ← Int.ofNat_tdiv]
      show APInt.neg ⟨w, (2 ^ w - x) / y⟩ = _
      rw [neg_eq]
  · rw [if_neg (by rw [isNegative_false w x hw hx hxn]; simp), toSigned_of_nonneg w x hxn]
    by_cases hyn : 2 ^ (w - 1) ≤ y
    · rw [if_pos ((isNegative_iff w y hw hy).mpr hyn), toSigned_of_negative w y hy hyn,
        neg_of_negative w y hy hyn, Int.tdiv_neg, ← Int.ofNat_tdiv]
      show APInt.neg ⟨w, x / (2 ^ w - y)⟩ = _
      rw [neg_eq]
    · rw [if_neg (by rw [isNegative_false w y hw hy hyn]; simp), toSigned_of_nonneg w y hyn,
        ← Int.ofNat_tdiv, toUnsigned_of_lt]
      · rfl
      · exact lt_of_le_of_lt (Nat.div_le_self _ _) hx

theorem srem_eq (w x y : Nat) (hx : x < 2 ^ w) (hy : y < 2 ^ w) (hy0 : y ≠ 0) :
    APInt.srem ⟨w, x⟩ ⟨w, y⟩
      = ⟨w, toUnsigned w (Int.tmod (toSigned w x) (toSigned w y))⟩ := by
  have hw := pos_of_ne_zero_lt w y hy hy0
  unfold APInt.srem
  by_cases hxn : 2 ^ (w - 1) ≤ x
  · rw [if_pos ((isNegative_iff w x hw hx).mpr hxn), toSigned_of_negative w x hx hxn,
      neg_of_negative w x hx hxn]
    by_cases hyn : 2 ^ (w - 1) ≤ y
    · rw [if_pos ((isNegative_iff w y hw hy).mpr hyn), toSigned_of_negative w y hy hyn,
        neg_of_negative w y hy hyn, neg_tmod, Int.tmod_neg, ← Int.ofNat_tmod]
      show APInt.neg ⟨w, (2 ^ w - x) % (2 ^ w - y)⟩ = _
      rw [neg_eq]
    · rw [if_neg (by rw [isNegative_false w y hw hy hyn]; simp), toSigned_of_nonneg w y hyn,
        neg_tmod, ← Int.ofNat_tmod]
      show APInt.neg ⟨w, (2 ^ w - x) % y⟩ = _
      rw [neg_eq]
  · rw [if_neg (by rw [isNegative_false w x hw hx hxn]; simp), toSigned_of_nonneg w x hxn]
    by_cases hyn : 2 ^ (w - 1) ≤ y
    · rw [if_pos ((isNegative_iff w y hw hy).mpr hyn), toSigned_of_negative w y hy hyn,
        neg_of_negative w y hy hyn, Int.tmod_neg, ← Int.ofNat_tmod, toUnsigned_of_lt]
      · rfl
      · exact lt_of_le_of_lt (Nat.mod_le _ _) hx
    · rw [if_neg (by rw [isNegative_false w y hw hy hyn]; simp), toSigned_of_nonneg w y hyn,
        ← Int.ofNat_tmod, toUnsigned_of_lt]
      · rfl
      · exact lt_of_le_of_lt (Nat.mod_le _ _) hx

theorem toSigned_emod (w x : Nat) : toSigned w x % 2 ^ w = (x : Int) % 2 ^ w := by
  unfold toSigned
  split
  · have : ((x : Int) - 2 ^ w) = x + 2 ^ w * (-1) := by ring
    rw [this, Int.add_mul_emod_self_left]
  · rfl

/-- The division identity `x = q * y + r` holds modulo `2 ^ w` for the encoded
signed quotient and remainder. -/
theorem sdiv_srem_identity (w x y : Nat) (hx : x < 2 ^ w) :
    (toUnsigned w (Int.tdiv (toSigned w x) (toSigned w y)) * y
      + toUnsigned w (Int.tmod (toSigned w x) (toSigned w y))) % 2 ^ w = x := by
  set q := Int.tdiv (toSigned w x) (toSigned w y) with hq
  set r := Int.tmod (toSigned w x) (toSigned w y) with hr
  have hqr : q * toSigned w y + r = toSigned w x := Int.tdiv_add_tmod' _ _
  have key : ((((toUnsigned w q * y + toUnsigned w r) % 2 ^ w : Nat)) : Int) = (x : Int) := by
    push_cast
    rw [toUnsigned_cast, toUnsigned_cast]
    have h1 : (q % 2 ^ w * (y : Int) + r % 2 ^ w) % 2 ^ w
        = (q * toSigned w y + r) % 2 ^ w := by
      rw [Int.add_emod, Int.mul_emod, Int.emod_emod_of_dvd _ (dvd_refl _),
        Int.emod_emod_of_dvd _ (dvd_refl _), ← toSigned_emod w y, ← Int.mul_emod, ← Int.add_emod]
    rw [h1, hqr, toSigned_emod]
    exact Int.emod_eq_of_lt (by positivity) (by exact_mod_cast hx)
  exact_mod_cast key

end APInt

theorem constant_Add (id w x y : Nat) :
    constant (binop id .Add w x y) = some (Value.ConstantInt (APInt.add ⟨w, x⟩ ⟨w, y⟩)) := rfl
theorem constant_Sub (id w x y : Nat) :
    constant (binop id .Sub w x y) = some (Value.ConstantInt (APInt.sub ⟨w, x⟩ ⟨w, y⟩)) := rfl
theorem constant_Mul (id w x y : Nat) :
    constant (binop id .Mul w x y) = some (Value.ConstantInt (APInt.mul ⟨w, x⟩ ⟨w, y⟩)) := rfl
theorem constant_Shl (id w x y : Nat) :
    constant (binop id .Shl w x y) = some (Value.ConstantInt (APInt.shl ⟨w, x⟩ ⟨w, y⟩)) := rfl
theorem constant_LShr (id w x y : Nat) :
    constant (binop id .LShr w x y) = some (Value.ConstantInt (APInt.lshr ⟨w, x⟩ ⟨w, y⟩)) := rfl
theorem constant_AShr (id w x y : Nat) :
    constant (binop id .AShr w x y) = some (Value.ConstantInt (APInt.ashr ⟨w, x⟩ ⟨w, y⟩)) := rfl

theorem constant_SDiv (id w x y : Nat) (hy : y ≠ 0) :
    constant (binop id .SDiv w x y) = some (Value.ConstantInt (APInt.sdiv ⟨w, x⟩ ⟨w, y⟩)) := by
  show (some (if APInt.isZero ⟨w, y⟩ then _ else _) : Option Value) = _
  have : APInt.isZero ⟨w, y⟩ = false := by simp [APInt.isZero, hy]
  rw [this]; rfl
theorem constant_UDiv (id w x y : Nat) (hy : y ≠ 0) :
    constant (binop id .UDiv w x y) = some (Value.ConstantInt (APInt.udiv ⟨w, x⟩ ⟨w, y⟩)) := by
  show (some (if APInt.isZero ⟨w, y⟩ then _ else _) : Option Value) = _
  have : APInt.isZero ⟨w, y⟩ = false := by simp [APInt.isZero, hy]
  rw [this]; rfl
theorem constant_SRem (id w x y : Nat) (hy : y ≠ 0) :
    constant (binop id .SRem w x y) = some (Value.ConstantInt (APInt.srem ⟨w, x⟩ ⟨w, y⟩)) := by
  show (some (if APInt.isZero ⟨w, y⟩ then _ else _) : Option Value) = _
  have : APInt.isZero ⟨w, y⟩ = false := by simp [APInt.isZero, hy]
  rw [this]; rfl
theorem constant_URem (id w x y : Nat) (hy : y ≠ 0) :
    constant (binop id .URem w x y) = some (Value.ConstantInt (APInt.urem ⟨w, x⟩ ⟨w, y⟩)) := by
  show (some (if APInt.isZero ⟨w, y⟩ then _ else _) : Option Value) = _
  have : APInt.isZero ⟨w, y⟩ = false := by simp [APInt.isZero, hy]
  rw [this]; rfl

/-- C1: folding `Add`, `Sub`, `Mul`, `And`, `Or`, `Xor` of two constants of width
`w` gives the constant of width `w` holding the sum, difference and product
modulo `2 ^ w` and the bitwise and, or and xor; `Add(5, 3)` at width 32 folds to
`8`.  The visit of an instruction with a non-null `constant` redirects its uses
to that value and erases it, and the pass run on a function holding
`r = Add(5, 3)` and a use of `r` leaves the use with `8`. -/
theorem C1_fold_wraparound (id w x y : Nat) :
    constant (binop id .Add w x y) = some (Value.ConstantInt ⟨w, (x + y) % 2 ^ w⟩)
    ∧ constant (binop id .Sub w x y)
        = some (Value.ConstantInt ⟨w, Int.toNat (((x : Int) - (y : Int)) % 2 ^ w)⟩)
    ∧ constant (binop id .Mul w x y) = some (Value.ConstantInt ⟨w, (x * y) % 2 ^ w⟩)
    ∧ constant (binop id .And w x y) = some (Value.ConstantInt ⟨w, x &&& y⟩)
    ∧ constant (binop id .Or w x y) = some (Value.ConstantInt ⟨w, x ||| y⟩)
    ∧ constant (binop id .Xor w x y) = some (Value.ConstantInt ⟨w, x ^^^ y⟩)
    ∧ constant (binop id .Add 32 5 3) = some (Value.ConstantInt ⟨32, 8⟩)
    ∧ (∀ (instr : Instruction) (c : Value) (b n i : Nat) (st : PassState),
        constant instr = some c → st.Fn.getInstruction b i = some instr →
          forInstructions b (n + 1) i st = forInstructions b n i (st.fold b i instr c))
    ∧ myConstantPropagation scenarioA
        = some ⟨true, scenarioAFolded, [[(1, Value.ConstantInt ⟨32, 8⟩)], []]⟩ := by
  refine ⟨rfl, ?_, rfl, rfl, rfl, rfl, (constant_Add id 32 5 3).trans (by decide),
    fun instr c b n i st hc hget => by simp only [forInstructions, hget, hc], by decide⟩
  rw [constant_Sub]
  have h := APInt.sub_VAL w x y
  unfold toUnsigned at h
  rw [← h]
  rfl

/-- C3: for a non-zero divisor the four division opcodes fold to a numeric
constant of width `w`: `UDiv` to the unsigned quotient, `URem` to the unsigned
remainder, `SDiv` to the signed quotient rounded toward zero and `SRem` to the
signed remainder with the sign of the dividend, both encoded modulo `2 ^ w`;
quotient times divisor plus remainder gives back the dividend modulo `2 ^ w`;
and `SDiv(-2^(w-1), -1)` folds to the word `2^(w-1)`. -/
theorem C3_fold_division (id w x y : Nat) (hx : x < 2 ^ w) (hy : y < 2 ^ w) (hy0 : y ≠ 0) :
    constant (binop id .UDiv w x y) = some (Value.ConstantInt ⟨w, x / y⟩)
    ∧ constant (binop id .URem w x y) = some (Value.ConstantInt ⟨w, x % y⟩)
    ∧ constant (binop id .SDiv w x y)
        = some (Value.ConstantInt
            ⟨w, Int.toNat (Int.tdiv (toSigned w x) (toSigned w y) % 2 ^ w)⟩)
    ∧ constant (binop id .SRem w x y)
        = some (Value.ConstantInt
            ⟨w, Int.toNat (Int.tmod (toSigned w x) (toSigned w y) % 2 ^ w)⟩)
    ∧ (Int.toNat (Int.tdiv (toSigned w x) (toSigned w y) % 2 ^ w) * y
        + Int.toNat (Int.tmod (toSigned w x) (toSigned w y) % 2 ^ w)) % 2 ^ w = x
    ∧ constant (binop id .SDiv w (2 ^ (w - 1)) (2 ^ w - 1))
        = some (Value.ConstantInt ⟨w, 2 ^ (w - 1)⟩) := by
  have hw := APInt.pos_of_ne_zero_lt w y hy hy0
  refine ⟨?_, ?_, ?_, ?_, ?_, ?_⟩
  · rw [constant_UDiv id w x y hy0]; rfl
  · rw [constant_URem id w x y hy0]; rfl
  · rw [constant_SDiv id w x y hy0, APInt.sdiv_eq w x y hx hy hy0]; rfl
  · rw [constant_SRem id w x y hy0, APInt.srem_eq w x y hx hy hy0]; rfl
  · exact APInt.sdiv_srem_identity w x y hx
  · have h2 : 2 ^ w = 2 * 2 ^ (w - 1) := by
      rw [← pow_succ']; congr 1; omega
    have hp : 0 < 2 ^ (w - 1) := by positivity
    have hm : 2 ^ (w - 1) < 2 ^ w := by omega
    have hy1 : 2 ^ w - 1 < 2 ^ w := by omega
    have hy10 : 2 ^ w - 1 ≠ 0 := by omega
    rw [constant_SDiv id w _ _ hy10, APInt.sdiv_eq w _ _ hm hy1 hy10,
      APInt.toSigned_of_negative w _ hm le_rfl,
      APInt.toSigned_of_negative w _ hy1 (by omega), Int.neg_tdiv, Int.tdiv_neg, neg_neg,
      ← Int.ofNat_tdiv]
    have e1 : 2 ^ w - (2 ^ w - 1) = 1 := by omega
    have e2 : 2 ^ w - 2 ^ (w - 1) = 2 ^ (w - 1) := by omega
    rw [e1, e2, Nat.div_one, toUnsigned_of_lt w _ hm]

theorem C3_fold_division_witness :
    (249 < 2 ^ 8 ∧ 2 < 2 ^ 8 ∧ 2 ≠ 0)
    ∧ constant (binop 1 .SDiv 8 249 2) = some (Value.ConstantInt ⟨8, 253⟩)
    ∧ constant (binop 1 .SRem 8 249 2) = some (Value.ConstantInt ⟨8, 255⟩) := by
  have h := C3_fold_division 1 8 249 2 (by decide) (by decide) (by decide)
  refine ⟨by decide, h.2.2.1.trans ?_, h.2.2.2.1.trans ?_⟩ <;> decide

theorem APInt.getLimitedValue_eq_min (w y : Nat) :
    APInt.getLimitedValue ⟨w, y⟩ w = min y w := by
  unfold APInt.getLimitedValue
  simp only
  split <;> omega

theorem APInt.SignExtend_eq (w x : Nat) (hw : 0 < w) (hx : x < 2 ^ w) :
    APInt.SignExtend ⟨w, x⟩ = toSigned w x := by
  unfold APInt.SignExtend toSigned
  by_cases h : 2 ^ (w - 1) ≤ x
  · rw [if_pos ((APInt.isNegative_iff w x hw hx).mpr h), if_pos h]
  · rw [if_neg (by rw [APInt.isNegative_false w x hw hx h]; simp), if_neg h]

theorem APInt.shl_of_lt (w x y : Nat) (hy : y < w) :
    APInt.shl ⟨w, x⟩ ⟨w, y⟩ = ⟨w, (x * 2 ^ y) % 2 ^ w⟩ := by
  unfold APInt.shl
  simp only [APInt.getLimitedValue_eq_min]
  rw [min_eq_left hy.le, if_neg (by omega), Nat.shiftLeft_eq]
  rfl

theorem APInt.lshr_of_lt (w x y : Nat) (hy : y < w) :
    APInt.lshr ⟨w, x⟩ ⟨w, y⟩ = ⟨w, x / 2 ^ y⟩ := by
  unfold APInt.lshr
  simp only [APInt.getLimitedValue_eq_min]
  rw [min_eq_left hy.le, if_neg (by omega), Nat.shiftRight_eq_div_pow]

theorem APInt.ashr_of_lt (w x y : Nat) (hx : x < 2 ^ w) (hy : y < w) :
    APInt.ashr ⟨w, x⟩ ⟨w, y⟩ = ⟨w, toUnsigned w (Int.fdiv (toSigned w x) (2 ^ y))⟩ := by
  unfold APInt.ashr
  simp only [APInt.getLimitedValue_eq_min]
  rw [min_eq_left hy.le, if_neg (by omega), APInt.SignExtend_eq w x (by omega) hx,
    Int.shiftRight_eq_div_pow, Int.fdiv_eq_ediv _ (by positivity)]
  unfold toUnsigned
  push_cast
  rfl

theorem APInt.shl_of_ge (w x y : Nat) (hy : w ≤ y) :
    APInt.shl ⟨w, x⟩ ⟨w, y⟩ = ⟨w, 0⟩ := by
  unfold APInt.shl
  simp only [APInt.getLimitedValue_eq_min]
  rw [min_eq_right hy, if_pos rfl]
  unfold APInt.clearUnusedBits
  rw [Nat.zero_mod]

theorem APInt.lshr_of_ge (w x y : Nat) (hy : w ≤ y) :
    APInt.lshr ⟨w, x⟩ ⟨w, y⟩ = ⟨w, 0⟩ := by
  unfold APInt.lshr
  simp only [APInt.getLimitedValue_eq_min]
  rw [min_eq_right hy, if_pos rfl]

theorem APInt.ashr_of_ge (w x y : Nat) (hw : 0 < w) (hx : x < 2 ^ w) (hy : w ≤ y) :
    APInt.ashr ⟨w, x⟩ ⟨w, y⟩ = ⟨w, if 2 ^ (w - 1) ≤ x then 2 ^ w - 1 else 0⟩ := by
  unfold APInt.ashr
  simp only [APInt.getLimitedValue_eq_min]
  rw [min_eq_right hy, if_pos rfl]
  have hpos : 0 < 2 ^ w := by positivity
  by_cases h : 2 ^ (w - 1) ≤ x
  · rw [if_pos ((APInt.isNegative_iff w x hw hx).mpr h), if_pos h]
    congr 1
    have e : (-1 : Int) % 2 ^ w = (((2 ^ w - 1 : Nat) : Int)) % 2 ^ w := by
      push_cast [Nat.cast_sub (show 1 ≤ 2 ^ w from hpos)]
      have : ((2 : Int) ^ w - 1) = -1 + 2 ^ w * 1 := by ring
      rw [this, Int.add_mul_emod_self_left]
    have := toUnsigned_congr w _ _ e
    rw [toUnsigned_of_lt w _ (by omega)] at this
    exact this
  · rw [if_neg (by rw [APInt.isNegative_false w x hw hx h]; simp), if_neg h]
    simp

theorem APInt.shl_min (w x y : Nat) :
    APInt.shl ⟨w, x⟩ ⟨w, y⟩ = APInt.shl ⟨w, x⟩ ⟨w, min y w⟩ := by
  unfold APInt.shl
  simp only [APInt.getLimitedValue_eq_min, min_assoc, min_self]

theorem APInt.lshr_min (w x y : Nat) :
    APInt.lshr ⟨w, x⟩ ⟨w, y⟩ = APInt.lshr ⟨w, x⟩ ⟨w, min y w⟩ := by
  unfold APInt.lshr
  simp only [APInt.getLimitedValue_eq_min, min_assoc, min_self]

theorem APInt.ashr_min (w x y : Nat) :
    APInt.ashr ⟨w, x⟩ ⟨w, y⟩ = APInt.ashr ⟨w, x⟩ ⟨w, min y w⟩ := by
  unfold APInt.ashr
  simp only [APInt.getLimitedValue_eq_min, min_assoc, min_self]

theorem APInt.shl_BitWidth (a b : APInt) : (a.shl b).BitWidth = a.BitWidth := by
  unfold APInt.shl
  simp only
  split <;> rfl

theorem APInt.lshr_BitWidth (a b : APInt) : (a.lshr b).BitWidth = a.BitWidth := by
  unfold APInt.lshr
  simp only
  split <;> rfl

theorem APInt.ashr_BitWidth (a b : APInt) : (a.ashr b).BitWidth = a.BitWidth := rfl

theorem APInt.eq_mk_of_BitWidth (a : APInt) (w : Nat) (h : a.BitWidth = w) :
    a = ⟨w, a.VAL⟩ := by
  cases a
  simp only at h
  rw [h]

/-- C4: for a shift amount `y` below the width, `Shl` folds to `x * 2^y` modulo
`2^w`, `LShr` to the floor of `x / 2^y` on the unsigned word, and `AShr` to the
floor of `x / 2^y` on the signed reading of `x`, encoded in two's complement at
width `w`. -/
theorem C4_fold_shift (id w x y : Nat) (hx : x < 2 ^ w) (hy : y < w) :
    constant (binop id .Shl w x y) = some (Value.ConstantInt ⟨w, (x * 2 ^ y) % 2 ^ w⟩)
    ∧ constant (binop id .LShr w x y) = some (Value.ConstantInt ⟨w, x / 2 ^ y⟩)
    ∧ constant (binop id .AShr w x y)
        = some (Value.ConstantInt
            ⟨w, Int.toNat (Int.fdiv (toSigned w x) (2 ^ y) % 2 ^ w)⟩) := by
  refine ⟨?_, ?_, ?_⟩
  · rw [constant_Shl, APInt.shl_of_lt w x y hy]
  · rw [constant_LShr, APInt.lshr_of_lt w x y hy]
  · rw [constant_AShr, APInt.ashr_of_lt w x y hx hy]; rfl

theorem C4_fold_shift_witness :
    (249 < 2 ^ 8 ∧ 1 < 8)
    ∧ constant (binop 1 .Shl 8 249 1) = some (Value.ConstantInt ⟨8, 242⟩)
    ∧ constant (binop 1 .LShr 8 249 1) = some (Value.ConstantInt ⟨8, 124⟩)
    ∧ constant (binop 1 .AShr 8 249 1) = some (Value.ConstantInt ⟨8, 252⟩) := by
  have h := C4_fold_shift 1 8 249 1 (by decide) (by decide)
  refine ⟨by decide, h.1.trans ?_, h.2.1.trans ?_, h.2.2.trans ?_⟩ <;> decide

/-- C5, as stated, fails: at width 32 `Shl(1, 32)` folds to `0`, while
`Shl(1, 32 mod 32)` folds to `1`. -/
theorem C5_shift_modulo_counterexample :
    constant (binop 1 .Shl 32 1 32) = some (Value.ConstantInt ⟨32, 0⟩)
    ∧ constant (binop 1 .Shl 32 1 (32 % 32)) = some (Value.ConstantInt ⟨32, 1⟩)
    ∧ constant (binop 1 .Shl 32 1 32) ≠ constant (binop 1 .Shl 32 1 (32 % 32)) := by
  decide

/-- C5, amended: for every pair of constants of width `w`, shift amounts at or
above the width included, `Shl`, `LShr` and `AShr` fold to a numeric constant of
width `w`; the shift amount is saturated at the width, so `op(x, y)` folds to
what `op(x, min(y, w))` folds to, and for `y ≥ w` that is `0` for `Shl` and
`LShr` and `w` copies of the sign bit of `x` for `AShr`. -/
theorem C5_shift_saturates (id w x y : Nat) (hw : 0 < w) (hx : x < 2 ^ w) :
    (∃ r, constant (binop id .Shl w x y) = some (Value.ConstantInt ⟨w, r⟩))
    ∧ (∃ r, constant (binop id .LShr w x y) = some (Value.ConstantInt ⟨w, r⟩))
    ∧ (∃ r, constant (binop id .AShr w x y) = some (Value.ConstantInt ⟨w, r⟩))
    ∧ constant (binop id .Shl w x y) = constant (binop id .Shl w x (min y w))
    ∧ constant (binop id .LShr w x y) = constant (binop id .LShr w x (min y w))
    ∧ constant (binop id .AShr w x y) = constant (binop id .AShr w x (min y w))
    ∧ (w ≤ y →
        constant (binop id .Shl w x y) = some (Value.ConstantInt ⟨w, 0⟩)
        ∧ constant (binop id .LShr w x y) = some (Value.ConstantInt ⟨w, 0⟩)
        ∧ constant (binop id .AShr w x y)
            = some (Value.ConstantInt ⟨w, if 2 ^ (w - 1) ≤ x then 2 ^ w - 1 else 0⟩)) := by
  refine ⟨⟨(APInt.shl ⟨w, x⟩ ⟨w, y⟩).VAL, ?_⟩, ⟨(APInt.lshr ⟨w, x⟩ ⟨w, y⟩).VAL, ?_⟩,
    ⟨(APInt.ashr ⟨w, x⟩ ⟨w, y⟩).VAL, ?_⟩, ?_, ?_, ?_, ?_⟩
  · rw [constant_Shl, ← APInt.eq_mk_of_BitWidth _ w (APInt.shl_BitWidth _ _)]
  · rw [constant_LShr, ← APInt.eq_mk_of_BitWidth _ w (APInt.lshr_BitWidth _ _)]
  · rw [constant_AShr, ← APInt.eq_mk_of_BitWidth _ w (APInt.ashr_BitWidth _ _)]
  · rw [constant_Shl, constant_Shl, ← APInt.shl_min]
  · rw [constant_LShr, constant_LShr, ← APInt.lshr_min]
  · rw [constant_AShr, constant_AShr, ← APInt.ashr_min]
  · intro hy
    refine ⟨?_, ?_, ?_⟩
    · rw [constant_Shl, APInt.shl_of_ge w x y hy]
    · rw [constant_LShr, APInt.lshr_of_ge w x y hy]
    · rw [constant_AShr, APInt.ashr_of_ge w x y hw hx hy]

theorem C5_shift_saturates_witness :
    (0 < 8 ∧ 249 < 2 ^ 8)
    ∧ constant (binop 1 .AShr 8 249 200) = constant (binop 1 .AShr 8 249 (min 200 8))
    ∧ constant (binop 1 .AShr 8 249 200) = some (Value.ConstantInt ⟨8, 255⟩) := by
  have h := C5_shift_saturates 1 8 249 200 (by decide) (by decide)
  exact ⟨by decide, h.2.2.2.2.2.1, (h.2.2.2.2.2.2 (by decide)).2.2.trans (by decide)⟩

/-! ## The evaluator -/

theorem isConstantIntOperand_iff (instr : Instruction) (k : Nat) :
    instr.isConstantIntOperand k = true ↔ ∃ V, instr.getOperand k = some (Value.ConstantInt V) := by
  unfold Instruction.isConstantIntOperand
  generalize instr.getOperand k = o
  cases o with
  | none => simp
  | some v => cases v <;> simp

theorem evalBinaryInstruction_eq_some (instr : Instruction) (eval : APInt → APInt → Value)
    (c : Value) :
    evalBinaryInstruction instr eval = some c ↔
      ∃ r1 r2, instr.getOperand 0 = some (Value.ConstantInt r1)
        ∧ instr.getOperand 1 = some (Value.ConstantInt r2) ∧ eval r1 r2 = c := by
  unfold evalBinaryInstruction
  generalize instr.getOperand 0 = o0
  generalize instr.getOperand 1 = o1
  cases o0 with
  | none => simp
  | some v0 =>
    cases o1 with
    | none => cases v0 <;> simp
    | some v1 => cases v0 <;> cases v1 <;> simp

theorem evalBinaryInstruction_isSome (instr : Instruction) (eval : APInt → APInt → Value) :
    (evalBinaryInstruction instr eval).isSome = true ↔
      instr.isConstantIntOperand 0 = true ∧ instr.isConstantIntOperand 1 = true := by
  rw [isConstantIntOperand_iff, isConstantIntOperand_iff, Option.isSome_iff_exists]
  constructor
  · rintro ⟨c, hc⟩
    obtain ⟨r1, r2, h0, h1, -⟩ := (evalBinaryInstruction_eq_some instr eval c).mp hc
    exact ⟨⟨r1, h0⟩, ⟨r2, h1⟩⟩
  · rintro ⟨⟨r1, h0⟩, ⟨r2, h1⟩⟩
    exact ⟨eval r1 r2, (evalBinaryInstruction_eq_some instr eval _).mpr ⟨r1, r2, h0, h1, rfl⟩⟩

theorem constant_isSome_iff (instr : Instruction) :
    (constant instr).isSome = true ↔
      instr.Opcode.isSupported = true ∧ instr.isConstantIntOperand 0 = true
        ∧ instr.isConstantIntOperand 1 = true := by
  rcases instr with ⟨id, op, ty, ops⟩
  cases op <;>
    simp [constant, Instruction.isBinaryOp, Opcode.isSupported, evalBinaryInstruction_isSome]

theorem constant_cases (instr : Instruction) (c : Value) (h : constant instr = some c) :
    (∃ V, c = Value.ConstantInt V) ∨ c = Value.PoisonValue instr.Ty := by
  rcases instr with ⟨id, op, ty, ops⟩
  cases op <;>
    simp only [constant, Instruction.isBinaryOp, evalBinaryInstruction_eq_some, ConstantInt.get,
      PoisonValue.get, Bool.not_true, Bool.not_false, if_true, if_false, Bool.false_eq_true,
      reduceCtorEq] at h
  all_goals
    obtain ⟨r1, r2, -, -, rfl⟩ := h
    first
      | exact Or.inl ⟨_, rfl⟩
      | (split
         · exact Or.inr rfl
         · exact Or.inl ⟨_, rfl⟩)

theorem constant_congr (a b : Instruction) (hop : a.Opcode = b.Opcode) (hty : a.Ty = b.Ty)
    (h0 : a.getOperand 0 = b.getOperand 0) (h1 : a.getOperand 1 = b.getOperand 1) :
    constant a = constant b := by
  rcases a with ⟨ida, opa, tya, opsa⟩
  rcases b with ⟨idb, opb, tyb, opsb⟩
  simp only at hop hty
  subst hop hty
  simp only [constant, Instruction.isBinaryOp, evalBinaryInstruction] at *
  simp only [h0, h1]

theorem constant_value_ne_Instruction (instr : Instruction) (c : Value) (j : Nat)
    (h : constant instr = some c) : c ≠ Value.Instruction j := by
  rcases constant_cases instr c h with ⟨V, rfl⟩ | rfl <;> simp

/-! ## The rewrite -/

theorem Value.replaceUsesOfWith_of_ne (id : Nat) (New v : Value) (h : v ≠ Value.Instruction id) :
    Value.replaceUsesOfWith id New v = v := by
  unfold Value.replaceUsesOfWith
  rw [if_neg h]

theorem Value.replaceUsesOfWith_self (id : Nat) (New : Value) :
    Value.replaceUsesOfWith id New (Value.Instruction id) = New := by
  unfold Value.replaceUsesOfWith
  rw [if_pos rfl]

namespace Function

theorem instructions_replaceAllUsesWith (Fn : Function) (id : Nat) (New : Value) (b : Nat) :
    (Fn.replaceAllUsesWith id New).instructions b
      = (Fn.instructions b).map (Instruction.replaceUsesOfWith id New) := by
  unfold instructions replaceAllUsesWith
  simp only [List.getElem?_map]
  cases Fn.Blocks[b]? with
  | none => rfl
  | some bb => rfl

theorem successors_replaceAllUsesWith (Fn : Function) (id : Nat) (New : Value) (b : Nat) :
    (Fn.replaceAllUsesWith id New).successors b = Fn.successors b := by
  unfold successors replaceAllUsesWith
  simp only [List.getElem?_map]
  cases Fn.Blocks[b]? with
  | none => rfl
  | some bb => rfl

theorem instructions_eraseFromParent (Fn : Function) (b i b' : Nat) :
    (Fn.eraseFromParent b i).instructions b'
      = if b = b' then (Fn.instructions b').eraseIdx i else Fn.instructions b' := by
  unfold instructions eraseFromParent
  simp only [List.getElem?_modify]
  cases Fn.Blocks[b']? with
  | none => simp
  | some bb =>
    by_cases h : b = b'
    · simp [h]
    · simp [h]

theorem successors_eraseFromParent (Fn : Function) (b i b' : Nat) :
    (Fn.eraseFromParent b i).successors b' = Fn.successors b' := by
  unfold successors eraseFromParent
  simp only [List.getElem?_modify]
  cases Fn.Blocks[b']? with
  | none => simp
  | some bb =>
    by_cases h : b = b'
    · simp [h]
    · simp [h]

theorem length_replaceAllUsesWith (Fn : Function) (id : Nat) (New : Value) :
    (Fn.replaceAllUsesWith id New).Blocks.length = Fn.Blocks.length := by
  simp [replaceAllUsesWith]

theorem length_eraseFromParent (Fn : Function) (b i : Nat) :
    (Fn.eraseFromParent b i).Blocks.length = Fn.Blocks.length := by
  simp [eraseFromParent]

theorem numInstructions_replaceAllUsesWith (Fn : Function) (id : Nat) (New : Value) :
    (Fn.replaceAllUsesWith id New).numInstructions = Fn.numInstructions := by
  unfold numInstructions replaceAllUsesWith
  simp only [List.map_map]
  congr 1
  apply List.map_congr_left
  intro bb _
  simp [BasicBlock.replaceUsesOfWith]

theorem sum_modify_eraseIdx (l : List BasicBlock) (b i : Nat) (bb : BasicBlock)
    (hb : l[b]? = some bb) (hi : i < bb.Insts.length) :
    ((l.modify (fun x => { x with Insts := x.Insts.eraseIdx i }) b).map
        (fun x => x.Insts.length)).sum + 1
      = (l.map (fun x => x.Insts.length)).sum := by
  induction l generalizing b with
  | nil => simp at hb
  | cons hd tl ih =>
    cases b with
    | zero =>
      simp only [List.getElem?_cons_zero, Option.some.injEq] at hb
      subst hb
      simp only [List.modify_zero_cons, List.map_cons, List.sum_cons, List.length_eraseIdx,
        if_pos hi]
      omega
    | succ b =>
      simp only [List.getElem?_cons_succ] at hb
      have := ih b hb
      simp only [List.modify_succ_cons, List.map_cons, List.sum_cons]
      omega

theorem numInstructions_eraseFromParent (Fn : Function) (b i : Nat) (instr : Instruction)
    (h : Fn.getInstruction b i = some instr) :
    (Fn.eraseFromParent b i).numInstructions + 1 = Fn.numInstructions := by
  unfold getInstruction instructions at h
  cases hb : Fn.Blocks[b]? with
  | none => rw [hb] at h; simp at h
  | some bb =>
    rw [hb] at h
    simp only at h
    have hi : i < bb.Insts.length := by
      rcases List.getElem?_eq_some_iff.mp h with ⟨hlt, -⟩
      exact hlt
    exact sum_modify_eraseIdx Fn.Blocks b i bb hb hi

end Function

/-! ## The graph walker depends on the successors only -/

theorem postOrder_congr (A B : Function) (h : ∀ n, A.successors n = B.successors n)
    (fuel : Nat) (stack : List Nat) (n : Nat) (out : List Nat) :
    postOrder A fuel stack n out = postOrder B fuel stack n out := by
  induction fuel generalizing stack n out with
  | zero => rfl
  | succ fuel ih =>
    simp only [postOrder]
    rw [h n]
    have : (fun o s => postOrder A fuel (n :: stack) s o)
        = (fun o s => postOrder B fuel (n :: stack) s o) := by
      funext o s
      exact ih (n :: stack) s o
    rw [this]

theorem ReversePostOrderTraversal_congr (A B : Function)
    (hlen : A.Blocks.length = B.Blocks.length)
    (h : ∀ n, A.successors n = B.successors n) :
    ReversePostOrderTraversal A = ReversePostOrderTraversal B := by
  unfold ReversePostOrderTraversal
  have e : (A.Blocks = []) ↔ (B.Blocks = []) := by
    rw [← List.length_eq_zero, ← List.length_eq_zero, hlen]
  by_cases hA : A.Blocks = []
  · rw [if_pos hA, if_pos (e.mp hA)]
  · rw [if_neg hA, if_neg (fun hB => hA (e.mpr hB)), hlen, postOrder_congr A B h]

/-! ## Folds as steps -/

theorem FoldStep.step_rpot_eq {A B : Function} {e : Nat × Value} (h : FoldStep A e B) :
    ReversePostOrderTraversal B = ReversePostOrderTraversal A := by
  cases h with
  | mk b i instr c _ _ _ =>
    apply ReversePostOrderTraversal_congr
    · rw [Function.length_eraseFromParent, Function.length_replaceAllUsesWith]
    · intro n
      rw [Function.successors_eraseFromParent, Function.successors_replaceAllUsesWith]

theorem FoldStep.step_numInstructions {A B : Function} {e : Nat × Value} (h : FoldStep A e B) :
    B.numInstructions + 1 = A.numInstructions := by
  cases h with
  | mk b i instr c _ hget _ =>
    rw [← Function.numInstructions_replaceAllUsesWith A instr.id c]
    apply Function.numInstructions_eraseFromParent _ b i (instr.replaceUsesOfWith instr.id c)
    unfold Function.getInstruction at hget ⊢
    rw [Function.instructions_replaceAllUsesWith, List.getElem?_map, hget]
    rfl

theorem FoldStep.step_length_eq {A B : Function} {e : Nat × Value} (h : FoldStep A e B) :
    B.Blocks.length = A.Blocks.length := by
  cases h with
  | mk b i instr c _ _ _ =>
    rw [Function.length_eraseFromParent, Function.length_replaceAllUsesWith]

theorem FoldStep.step_successors_eq {A B : Function} {e : Nat × Value} (h : FoldStep A e B)
    (n : Nat) : B.successors n = A.successors n := by
  cases h with
  | mk b i instr c _ _ _ =>
    rw [Function.successors_eraseFromParent, Function.successors_replaceAllUsesWith]

theorem Folds.rpot_eq {A B : Function} {log : List (Nat × Value)} (h : Folds A log B) :
    ReversePostOrderTraversal B = ReversePostOrderTraversal A := by
  induction h with
  | refl _ => rfl
  | step hs _ ih => rw [ih, hs.step_rpot_eq]

theorem Folds.length_eq {A B : Function} {log : List (Nat × Value)} (h : Folds A log B) :
    B.Blocks.length = A.Blocks.length := by
  induction h with
  | refl _ => rfl
  | step hs _ ih => rw [ih, hs.step_length_eq]

theorem Folds.successors_eq {A B : Function} {log : List (Nat × Value)} (h : Folds A log B)
    (n : Nat) : B.successors n = A.successors n := by
  induction h with
  | refl _ => rfl
  | step hs _ ih => rw [ih, hs.step_successors_eq]

theorem Folds.numInstructions {A B : Function} {log : List (Nat × Value)} (h : Folds A log B) :
    B.numInstructions + log.length = A.numInstructions := by
  induction h with
  | refl _ => rfl
  | step hs _ ih =>
    have := hs.step_numInstructions
    simp only [List.length_cons]
    omega

theorem Folds.nil_eq {A B : Function} (h : Folds A [] B) : B = A := by
  cases h with
  | refl _ => rfl

theorem Folds.append {A B C : Function} {l1 l2 : List (Nat × Value)}
    (h1 : Folds A l1 B) (h2 : Folds B l2 C) : Folds A (l1 ++ l2) C := by
  induction h1 with
  | refl _ => exact h2
  | step hs _ ih => exact Folds.step hs (ih h2)

theorem Folds.foldable_of_ne_nil {A B : Function} {log : List (Nat × Value)}
    (h : Folds A log B) (hne : log ≠ []) : Foldable A := by
  cases h with
  | refl _ => exact absurd rfl hne
  | step hs _ =>
    cases hs with
    | mk b i instr c hb hget hc =>
      refine ⟨b, hb, instr, ?_, ?_⟩
      · exact List.getElem?_mem hget
      · rw [hc]; rfl

/-! ## The loops perform folds -/

theorem forInstructions_none (b n i : Nat) (st : PassState)
    (h : st.Fn.getInstruction b i = none) : forInstructions b (n + 1) i st = st := by
  simp only [forInstructions, h]

theorem forInstructions_fold (b n i : Nat) (st : PassState) (instr : Instruction) (c : Value)
    (h : st.Fn.getInstruction b i = some instr) (hc : constant instr = some c) :
    forInstructions b (n + 1) i st = forInstructions b n i (st.fold b i instr c) := by
  simp only [forInstructions, h, hc]

theorem forInstructions_skip (b n i : Nat) (st : PassState) (instr : Instruction)
    (h : st.Fn.getInstruction b i = some instr) (hc : constant instr = none) :
    forInstructions b (n + 1) i st = forInstructions b n (i + 1) st := by
  simp only [forInstructions, h, hc]

theorem forInstructions_spec (b n i : Nat) (st : PassState)
    (hb : b ∈ ReversePostOrderTraversal st.Fn) :
    ∃ log, Folds st.Fn log (forInstructions b n i st).Fn
      ∧ (forInstructions b n i st).folded = st.folded ++ log
      ∧ (forInstructions b n i st).converged = (st.converged && log.isEmpty)
      ∧ (forInstructions b n i st).changed = (st.changed || !log.isEmpty) := by
  induction n generalizing i st with
  | zero => exact ⟨[], Folds.refl _, by simp [forInstructions], by simp [forInstructions],
      by simp [forInstructions]⟩
  | succ n ih =>
    cases hget : st.Fn.getInstruction b i with
    | none =>
      rw [forInstructions_none b n i st hget]
      exact ⟨[], Folds.refl _, by simp, by simp, by simp⟩
    | some instr =>
      cases hc : constant instr with
      | none =>
        rw [forInstructions_skip b n i st instr hget hc]
        exact ih (i + 1) st hb
      | some c =>
        rw [forInstructions_fold b n i st instr c hget hc]
        have hstep : FoldStep st.Fn (instr.id, c) (st.fold b i instr c).Fn :=
          FoldStep.mk st.Fn b i instr c hb hget hc
        have hb' : b ∈ ReversePostOrderTraversal (st.fold b i instr c).Fn := by
          rw [hstep.step_rpot_eq]; exact hb
        obtain ⟨log, hf, hlog, hconv, hch⟩ := ih i (st.fold b i instr c) hb'
        refine ⟨(instr.id, c) :: log, Folds.step hstep hf, ?_, ?_, ?_⟩
        · rw [hlog]; simp [PassState.fold]
        · rw [hconv]; simp [PassState.fold]
        · rw [hch]; simp [PassState.fold]

theorem forBlocks_spec (rpot : List Nat) (st : PassState)
    (hb : ∀ b ∈ rpot, b ∈ ReversePostOrderTraversal st.Fn) :
    ∃ log, Folds st.Fn log (forBlocks rpot st).Fn
      ∧ (forBlocks rpot st).folded = st.folded ++ log
      ∧ (forBlocks rpot st).converged = (st.converged && log.isEmpty)
      ∧ (forBlocks rpot st).changed = (st.changed || !log.isEmpty) := by
  induction rpot generalizing st with
  | nil => exact ⟨[], Folds.refl _, by simp [forBlocks], by simp [forBlocks],
      by simp [forBlocks]⟩
  | cons b rest ih =>
    obtain ⟨l1, hf1, hlog1, hconv1, hch1⟩ :=
      forInstructions_spec b (st.Fn.instructions b).length 0 st (hb b (List.mem_cons_self _ _))
    have hb' : ∀ b' ∈ rest, b' ∈ ReversePostOrderTraversal (forBlock st b).Fn := by
      intro b' hb'
      unfold forBlock
      rw [hf1.rpot_eq]
      exact hb b' (List.mem_cons_of_mem _ hb')
    obtain ⟨l2, hf2, hlog2, hconv2, hch2⟩ := ih (forBlock st b) hb'
    have e : forBlocks (b :: rest) st = forBlocks rest (forBlock st b) := rfl
    rw [e]
    refine ⟨l1 ++ l2, Folds.append hf1 hf2, ?_, ?_, ?_⟩
    · rw [hlog2]; unfold forBlock; rw [hlog1, List.append_assoc]
    · rw [hconv2]; unfold forBlock; rw [hconv1]
      cases st.converged <;> cases l1 <;> simp
    · rw [hch2]; unfold forBlock; rw [hch1]
      cases st.changed <;> cases l1 <;> simp

theorem sweep_spec (Fn : Function) (changed : Bool) :
    Folds Fn (sweep Fn changed).folded (sweep Fn changed).Fn
      ∧ (sweep Fn changed).converged = (sweep Fn changed).folded.isEmpty
      ∧ (sweep Fn changed).changed = (changed || !(sweep Fn changed).folded.isEmpty) := by
  obtain ⟨log, hf, hlog, hconv, hch⟩ :=
    forBlocks_spec (ReversePostOrderTraversal Fn)
      { Fn := Fn, converged := true, changed := changed, folded := [] } (fun b hb => hb)
  have e : (sweep Fn changed).folded = log := by
    unfold sweep; rw [hlog]; rfl
  rw [e]
  refine ⟨hf, ?_, ?_⟩
  · unfold sweep; rw [hconv]; simp
  · unfold sweep; rw [hch]

/-! ## A sweep that folds nothing found nothing to fold -/

theorem forInstructions_detects (b n i : Nat) (st : PassState)
    (hb : b ∈ ReversePostOrderTraversal st.Fn)
    (h : ∃ k instr, i ≤ k ∧ k < i + n ∧ st.Fn.getInstruction b k = some instr
      ∧ (constant instr).isSome = true) :
    (forInstructions b n i st).converged = false := by
  induction n generalizing i with
  | zero =>
    obtain ⟨k, instr, h1, h2, -, -⟩ := h
    omega
  | succ n ih =>
    obtain ⟨k, instr, h1, h2, hk, hsome⟩ := h
    cases hget : st.Fn.getInstruction b i with
    | none =>
      exfalso
      unfold Function.getInstruction at hget hk
      rw [List.getElem?_eq_none_iff] at hget
      rcases List.getElem?_eq_some_iff.mp hk with ⟨hlt, -⟩
      omega
    | some instr0 =>
      cases hc : constant instr0 with
      | some c =>
        rw [forInstructions_fold b n i st instr0 c hget hc]
        have hstep : FoldStep st.Fn (instr0.id, c) (st.fold b i instr0 c).Fn :=
          FoldStep.mk st.Fn b i instr0 c hb hget hc
        have hb' : b ∈ ReversePostOrderTraversal (st.fold b i instr0 c).Fn := by
          rw [hstep.step_rpot_eq]; exact hb
        obtain ⟨log, -, -, hconv, -⟩ := forInstructions_spec b n i (st.fold b i instr0 c) hb'
        rw [hconv]
        rfl
      | none =>
        rw [forInstructions_skip b n i st instr0 hget hc]
        apply ih (i + 1)
        have hne : k ≠ i := by
          intro e
          subst e
          rw [hget] at hk
          cases hk
          rw [hc] at hsome
          cases hsome
        exact ⟨k, instr, by omega, by omega, hk, hsome⟩

theorem forBlock_detects (b : Nat) (st : PassState)
    (hb : b ∈ ReversePostOrderTraversal st.Fn)
    (h : ∃ instr ∈ st.Fn.instructions b, (constant instr).isSome = true) :
    (forBlock st b).converged = false := by
  obtain ⟨instr, hmem, hsome⟩ := h
  obtain ⟨k, hk⟩ := List.getElem?_of_mem hmem
  rcases List.getElem?_eq_some_iff.mp hk with ⟨hlt, -⟩
  exact forInstructions_detects b _ 0 st hb ⟨k, instr, Nat.zero_le _, by omega, hk, hsome⟩

theorem forBlocks_detects (rpot : List Nat) (st : PassState)
    (hb : ∀ b ∈ rpot, b ∈ ReversePostOrderTraversal st.Fn)
    (h : ∃ b ∈ rpot, ∃ instr ∈ st.Fn.instructions b, (constant instr).isSome = true) :
    (forBlocks rpot st).converged = false := by
  induction rpot generalizing st with
  | nil =>
    obtain ⟨b, hmem, -⟩ := h
    cases hmem
  | cons b0 rest ih =>
    have e : forBlocks (b0 :: rest) st = forBlocks rest (forBlock st b0) := rfl
    rw [e]
    have hb0 := hb b0 (List.mem_cons_self _ _)
    obtain ⟨l1, hf1, -, hconv1, -⟩ :=
      forInstructions_spec b0 (st.Fn.instructions b0).length 0 st hb0
    have hb' : ∀ b' ∈ rest, b' ∈ ReversePostOrderTraversal (forBlock st b0).Fn := by
      intro b' hb'
      unfold forBlock
      rw [hf1.rpot_eq]
      exact hb b' (List.mem_cons_of_mem _ hb')
    have stays : (forBlock st b0).converged = false → (forBlocks rest (forBlock st b0)).converged = false := by
      intro hfalse
      obtain ⟨l2, -, -, hconv2, -⟩ := forBlocks_spec rest (forBlock st b0) hb'
      rw [hconv2, hfalse]
      rfl
    cases l1 with
    | cons e1 l1 =>
      apply stays
      unfold forBlock
      rw [hconv1]
      simp
    | nil =>
      have hFn : (forBlock st b0).Fn = st.Fn := hf1.nil_eq
      obtain ⟨b, hmem, hinstr⟩ := h
      rcases List.mem_cons.mp hmem with rfl | hrest
      · exact stays (forBlock_detects b st hb0 hinstr)
      · apply ih (forBlock st b0) hb'
        rw [hFn]
        exact ⟨b, hrest, hinstr⟩

theorem sweep_converged_iff (Fn : Function) (changed : Bool) :
    (sweep Fn changed).converged = true ↔ ¬ Foldable Fn := by
  constructor
  · intro hconv hfold
    have := forBlocks_detects (ReversePostOrderTraversal Fn)
      { Fn := Fn, converged := true, changed := changed, folded := [] } (fun b hb => hb) hfold
    unfold sweep at hconv
    rw [this] at hconv
    cases hconv
  · intro hnot
    obtain ⟨hf, hconv, -⟩ := sweep_spec Fn changed
    rw [hconv]
    cases hl : (sweep Fn changed).folded with
    | nil => rfl
    | cons e l =>
      exfalso
      apply hnot
      apply hf.foldable_of_ne_nil
      rw [hl]
      simp

/-! ## The fixpoint loop -/

theorem whileLoop_spec (fuel : Nat) (Fn : Function) (changed : Bool)
    (trace : List (List (Nat × Value))) (r : RunResult)
    (h : whileLoop fuel Fn changed trace = some r) :
    ∃ init : List (List (Nat × Value)),
      r.trace = trace ++ (init ++ [[]])
      ∧ (∀ l ∈ init, l ≠ [])
      ∧ Folds Fn init.flatten r.Fn
      ∧ r.changed = (changed || !init.isEmpty)
      ∧ ¬ Foldable r.Fn := by
  induction fuel generalizing Fn changed trace with
  | zero => simp [whileLoop] at h
  | succ fuel ih =>
    obtain ⟨hf, hconv, hch⟩ := sweep_spec Fn changed
    simp only [whileLoop] at h
    by_cases hc : (sweep Fn changed).converged = true
    · rw [if_pos hc] at h
      cases h
      have hnil : (sweep Fn changed).folded = [] := by
        rw [hconv] at hc
        exact List.isEmpty_iff.mp hc
      have hFn : (sweep Fn changed).Fn = Fn := by
        rw [hnil] at hf
        exact hf.nil_eq
      refine ⟨[], ?_, ?_, ?_, ?_, ?_⟩
      · simp [hnil]
      · intro l hl; cases hl
      · simp only [List.flatten_nil, hFn]
        exact Folds.refl _
      · simp [hch, hnil]
      · simp only [hFn]
        exact (sweep_converged_iff Fn changed).mp hc
    · rw [if_neg hc] at h
      obtain ⟨init, htrace, hne, hfolds, hchanged, hfix⟩ := ih _ _ _ h
      have hne0 : (sweep Fn changed).folded ≠ [] := by
        intro e
        apply hc
        rw [hconv, e]
        rfl
      refine ⟨(sweep Fn changed).folded :: init, ?_, ?_, ?_, ?_, hfix⟩
      · rw [htrace]; simp
      · intro l hl
        rcases List.mem_cons.mp hl with rfl | hl
        · exact hne0
        · exact hne l hl
      · simp only [List.flatten_cons]
        exact Folds.append hf hfolds
      · rw [hchanged, hch]
        cases hl : (sweep Fn changed).folded with
        | nil => exact absurd hl hne0
        | cons e l => simp

theorem whileLoop_total (fuel : Nat) (Fn : Function) (changed : Bool)
    (trace : List (List (Nat × Value))) (h : Fn.numInstructions < fuel) :
    ∃ r, whileLoop fuel Fn changed trace = some r := by
  induction fuel generalizing Fn changed trace with
  | zero => omega
  | succ fuel ih =>
    obtain ⟨hf, hconv, -⟩ := sweep_spec Fn changed
    simp only [whileLoop]
    by_cases hc : (sweep Fn changed).converged = true
    · rw [if_pos hc]
      exact ⟨_, rfl⟩
    · rw [if_neg hc]
      apply ih
      have hnum := hf.numInstructions
      have hlen : 0 < (sweep Fn changed).folded.length := by
        cases hl : (sweep Fn changed).folded with
        | nil =>
          exfalso
          apply hc
          rw [hconv, hl]
          rfl
        | cons e l => simp
      omega

/-- More fuel than needed does not change what the loop returns. -/
theorem whileLoop_fuel_mono (fuel k : Nat) (Fn : Function) (changed : Bool)
    (trace : List (List (Nat × Value))) (r : RunResult)
    (h : whileLoop fuel Fn changed trace = some r) :
    whileLoop (fuel + k) Fn changed trace = some r := by
  induction fuel generalizing Fn changed trace with
  | zero => simp [whileLoop] at h
  | succ fuel ih =>
    have e : fuel + 1 + k = (fuel + k) + 1 := by omega
    rw [e]
    simp only [whileLoop] at h ⊢
    by_cases hc : (sweep Fn changed).converged = true
    · rw [if_pos hc] at h ⊢
      exact h
    · rw [if_neg hc] at h ⊢
      exact ih _ _ _ h

/-- The pass returns, and what it returns is the end of a sequence of folds
that leaves nothing to fold in the walker's blocks; `changed` tells whether the
sequence is non-empty.  Every sweep but the last records at least one fold and
the last records none. -/
theorem myConstantPropagation_spec (Fn : Function) :
    ∃ r init, myConstantPropagation Fn = some r
      ∧ r.trace = init ++ [[]]
      ∧ (∀ l ∈ init, l ≠ [])
      ∧ Folds Fn init.flatten r.Fn
      ∧ r.changed = !init.isEmpty
      ∧ ¬ Foldable r.Fn := by
  obtain ⟨r, hr⟩ := whileLoop_total (Fn.numInstructions + 1) Fn false [] (Nat.lt_succ_self _)
  obtain ⟨init, h1, h2, h3, h4, h5⟩ := whileLoop_spec _ _ _ _ _ hr
  exact ⟨r, init, hr, by simpa using h1, h2, h3, by simpa using h4, h5⟩

theorem flatten_append_nil (init : List (List (Nat × Value))) :
    (init ++ [[]]).flatten = init.flatten := by
  simp

/-! ## The walker's sequence is the set of reachable blocks -/


theorem foldl_subset_of_step (f : List Nat → Nat → List Nat)
    (hf : ∀ o s x, x ∈ o → x ∈ f o s) (ss : List Nat) (o : List Nat) :
    ∀ x ∈ o, x ∈ ss.foldl f o := by
  induction ss generalizing o with
  | nil => intro x hx; exact hx
  | cons s rest ihl =>
    intro x hx
    simp only [List.foldl_cons]
    exact ihl _ x (hf o s x hx)

theorem postOrder_subset (Fn : Function) (fuel : Nat) (stack : List Nat) (n : Nat)
    (out : List Nat) : ∀ x ∈ out, x ∈ postOrder Fn fuel stack n out := by
  induction fuel generalizing stack n out with
  | zero => intro x hx; exact hx
  | succ fuel ih =>
    intro x hx
    simp only [postOrder]
    split
    · exact hx
    · apply List.mem_cons_of_mem
      exact foldl_subset_of_step _ (fun o s x hx => ih (n :: stack) s o x hx) _ out x hx

theorem foldl_postOrder_subset (Fn : Function) (fuel : Nat) (S : List Nat) (ss : List Nat)
    (o : List Nat) :
    ∀ x ∈ o, x ∈ ss.foldl (fun o s => postOrder Fn fuel S s o) o :=
  foldl_subset_of_step _ (fun o s x hx => postOrder_subset Fn fuel S s o x hx) ss o

theorem postOrder_sound (Fn : Function) (fuel : Nat) (stack : List Nat) (n : Nat)
    (out : List Nat) :
    ∀ x ∈ postOrder Fn fuel stack n out,
      x ∈ out ∨ Relation.ReflTransGen (fun a b => b ∈ Fn.successors a) n x := by
  induction fuel generalizing stack n out with
  | zero => intro x hx; exact Or.inl hx
  | succ fuel ih =>
    intro x hx
    simp only [postOrder] at hx
    split at hx
    · exact Or.inl hx
    · rcases List.mem_cons.mp hx with rfl | hx
      · exact Or.inr Relation.ReflTransGen.refl
      · have key : ∀ (ss : List Nat) (o : List Nat), (∀ s ∈ ss, s ∈ Fn.successors n) →
            ∀ x ∈ ss.foldl (fun o s => postOrder Fn fuel (n :: stack) s o) o,
              x ∈ o ∨ Relation.ReflTransGen (fun a b => b ∈ Fn.successors a) n x := by
          intro ss
          induction ss with
          | nil => intro o _ x hx; exact Or.inl hx
          | cons s rest ihl =>
            intro o hss x hx
            simp only [List.foldl_cons] at hx
            rcases ihl _ (fun s' hs' => hss s' (List.mem_cons_of_mem _ hs')) x hx with h | h
            · rcases ih (n :: stack) s o x h with h | h
              · exact Or.inl h
              · exact Or.inr (Relation.ReflTransGen.head (hss s (List.mem_cons_self _ _)) h)
            · exact Or.inr h
        exact key _ out (fun s hs => hs) x hx


theorem unvisited_card_lt (N : Nat) (S o : List Nat) (n : Nat) (hn : n < N) (h1 : n ∉ S)
    (h2 : n ∉ o) :
    ((Finset.range N).filter (fun v => v ∉ (n :: S) ∧ v ∉ o)).card
      < ((Finset.range N).filter (fun v => v ∉ S ∧ v ∉ o)).card := by
  apply Finset.card_lt_card
  rw [Finset.ssubset_iff_of_subset]
  · refine ⟨n, ?_, ?_⟩
    · simp [hn, h1, h2]
    · simp
  · intro v hv
    simp only [Finset.mem_filter, Finset.mem_range, List.mem_cons, not_or] at hv ⊢
    tauto

theorem unvisited_card_mono (N : Nat) (S o o' : List Nat) (h : ∀ x ∈ o, x ∈ o') :
    ((Finset.range N).filter (fun v => v ∉ S ∧ v ∉ o')).card
      ≤ ((Finset.range N).filter (fun v => v ∉ S ∧ v ∉ o)).card := by
  apply Finset.card_le_card
  intro v hv
  simp only [Finset.mem_filter, Finset.mem_range] at hv ⊢
  exact ⟨hv.1, hv.2.1, fun hx => hv.2.2 (h v hx)⟩

theorem successors_nil_of_ge (Fn : Function) (n : Nat) (h : Fn.Blocks.length ≤ n) :
    Fn.successors n = [] := by
  unfold Function.successors
  rw [List.getElem?_eq_none_iff.mpr h]

theorem postOrder_complete (Fn : Function) (fuel : Nat) (stack : List Nat) (n : Nat)
    (out : List Nat)
    (hfuel : ((Finset.range Fn.Blocks.length).filter (fun v => v ∉ stack ∧ v ∉ out)).card
      < fuel) :
    (n ∈ stack ∨ n ∈ postOrder Fn fuel stack n out)
    ∧ ∀ x ∈ postOrder Fn fuel stack n out, x ∉ out →
        ∀ y ∈ Fn.successors x, y ∈ stack ∨ y ∈ postOrder Fn fuel stack n out := by
  induction fuel generalizing stack n out with
  | zero => omega
  | succ fuel ih =>
    simp only [postOrder]
    split
    · rename_i hvis
      exact ⟨hvis, fun x hx hnx => absurd hx hnx⟩
    · rename_i hvis
      rw [not_or] at hvis
      have key : ∀ (ss : List Nat) (o : List Nat),
          (∀ s ∈ ss, s ∈ Fn.successors n) →
          ((Finset.range Fn.Blocks.length).filter
            (fun v => v ∉ (n :: stack) ∧ v ∉ o)).card < fuel →
          (∀ s ∈ ss, s ∈ (n :: stack)
              ∨ s ∈ ss.foldl (fun o s => postOrder Fn fuel (n :: stack) s o) o)
          ∧ ∀ x ∈ ss.foldl (fun o s => postOrder Fn fuel (n :: stack) s o) o, x ∉ o →
              ∀ y ∈ Fn.successors x, y ∈ (n :: stack)
                ∨ y ∈ ss.foldl (fun o s => postOrder Fn fuel (n :: stack) s o) o := by
        intro ss
        induction ss with
        | nil =>
          intro o _ _
          exact ⟨fun s hs => absurd hs (List.not_mem_nil s), fun x hx hnx => absurd hx hnx⟩
        | cons s rest ihl =>
          intro o hss hf
          simp only [List.foldl_cons]
          obtain ⟨p2, p3⟩ := ih (n :: stack) s o hf
          have hsub := postOrder_subset Fn fuel (n :: stack) s o
          have hf' : ((Finset.range Fn.Blocks.length).filter
              (fun v => v ∉ (n :: stack) ∧ v ∉ postOrder Fn fuel (n :: stack) s o)).card
                < fuel :=
            lt_of_le_of_lt (unvisited_card_mono _ _ _ _ hsub) hf
          obtain ⟨q2, q3⟩ := ihl (postOrder Fn fuel (n :: stack) s o)
            (fun s' hs' => hss s' (List.mem_cons_of_mem _ hs')) hf'
          have hsub' := foldl_postOrder_subset Fn fuel (n :: stack) rest
            (postOrder Fn fuel (n :: stack) s o)
          refine ⟨?_, ?_⟩
          · intro s' hs'
            rcases List.mem_cons.mp hs' with rfl | hs'
            · rcases p2 with h | h
              · exact Or.inl h
              · exact Or.inr (hsub' _ h)
            · exact q2 s' hs'
          · intro x hx hnx y hy
            by_cases hx1 : x ∈ postOrder Fn fuel (n :: stack) s o
            · rcases p3 x hx1 hnx y hy with h | h
              · exact Or.inl h
              · exact Or.inr (hsub' _ h)
            · exact q3 x hx hx1 y hy
      have hfuel' : ((Finset.range Fn.Blocks.length).filter
          (fun v => v ∉ (n :: stack) ∧ v ∉ out)).card < fuel ∨ Fn.successors n = [] := by
        by_cases hn : n < Fn.Blocks.length
        · left
          have := unvisited_card_lt Fn.Blocks.length stack out n hn hvis.1 hvis.2
          omega
        · right
          exact successors_nil_of_ge Fn n (by omega)
      rcases hfuel' with hf | hnil
      · obtain ⟨k2, k3⟩ := key (Fn.successors n) out (fun s hs => hs) hf
        refine ⟨Or.inr (List.mem_cons_self _ _), ?_⟩
        intro x hx hnx y hy
        have fix : ∀ z, (z ∈ (n :: stack)
            ∨ z ∈ (Fn.successors n).foldl (fun o s => postOrder Fn fuel (n :: stack) s o) out) →
            z ∈ stack ∨ z ∈ n :: (Fn.successors n).foldl
              (fun o s => postOrder Fn fuel (n :: stack) s o) out := by
          intro z hz
          rcases hz with hz | hz
          · rcases List.mem_cons.mp hz with rfl | hz
            · exact Or.inr (List.mem_cons_self _ _)
            · exact Or.inl hz
          · exact Or.inr (List.mem_cons_of_mem _ hz)
        rcases List.mem_cons.mp hx with rfl | hx
        · exact fix y (k2 y hy)
        · exact fix y (k3 x hx hnx y hy)
      · rw [hnil]
        refine ⟨Or.inr (List.mem_cons_self _ _), ?_⟩
        intro x hx hnx y hy
        simp only [List.foldl_nil] at hx
        rcases List.mem_cons.mp hx with rfl | hx
        · rw [hnil] at hy
          cases hy
        · exact absurd hx hnx

theorem Reachable_iff (Fn : Function) (b : Nat) :
    Reachable Fn b ↔
      Fn.Blocks ≠ [] ∧ Relation.ReflTransGen (fun a b => b ∈ Fn.successors a) 0 b := by
  constructor
  · intro h
    induction h with
    | entry hne => exact ⟨hne, Relation.ReflTransGen.refl⟩
    | succ _ hs ih => exact ⟨ih.1, Relation.ReflTransGen.tail ih.2 hs⟩
  · rintro ⟨hne, h⟩
    induction h with
    | refl => exact Reachable.entry hne
    | tail _ hs ih => exact Reachable.succ ih hs

/-- The walker enumerates exactly the blocks reachable from the entry block. -/
theorem mem_ReversePostOrderTraversal_iff (Fn : Function) (b : Nat) :
    b ∈ ReversePostOrderTraversal Fn ↔ Reachable Fn b := by
  rw [Reachable_iff]
  unfold ReversePostOrderTraversal
  by_cases hne : Fn.Blocks = []
  · rw [if_pos hne]
    simp [hne]
  · rw [if_neg hne]
    constructor
    · intro h
      rcases postOrder_sound Fn _ [] 0 [] b h with h | h
      · cases h
      · exact ⟨hne, h⟩
    · rintro ⟨-, h⟩
      have hf : ((Finset.range Fn.Blocks.length).filter
          (fun v => v ∉ ([] : List Nat) ∧ v ∉ ([] : List Nat))).card < Fn.Blocks.length + 1 := by
        have := Finset.card_filter_le (Finset.range Fn.Blocks.length)
          (fun v => v ∉ ([] : List Nat) ∧ v ∉ ([] : List Nat))
        rw [Finset.card_range] at this
        omega
      obtain ⟨c2, c3⟩ := postOrder_complete Fn _ [] 0 [] hf
      induction h with
      | refl =>
        rcases c2 with h | h
        · cases h
        · exact h
      | tail _ hs ih =>
        rcases c3 _ ih (by simp) _ hs with h | h
        · cases h
        · exact h

/-! ## Substitution of the recorded folds -/

theorem Value.subst_nil (v : Value) : Value.subst [] v = v := by
  cases v <;> rfl

theorem Instruction.substInstr_nil (instr : Instruction) : Instruction.subst [] instr = instr := by
  unfold Instruction.subst
  have e : instr.Operands.map (Value.subst []) = instr.Operands.map (fun v => v) :=
    List.map_congr_left (fun v _ => Value.subst_nil v)
  rw [e, List.map_id']

theorem Value.subst_of_not_Instruction (log : List (Nat × Value)) (v : Value)
    (h : ∀ j, v ≠ Value.Instruction j) : Value.subst log v = v := by
  cases v with
  | Instruction j => exact absurd rfl (h j)
  | _ => rfl

theorem Value.subst_cons (j : Nat) (c : Value) (log : List (Nat × Value)) (v : Value)
    (hc : ∀ k, c ≠ Value.Instruction k) :
    Value.subst ((j, c) :: log) v = Value.subst log (Value.replaceUsesOfWith j c v) := by
  by_cases hv : v = Value.Instruction j
  · subst hv
    rw [Value.replaceUsesOfWith_self, Value.subst_of_not_Instruction log c hc]
    simp [Value.subst, List.lookup]
  · rw [Value.replaceUsesOfWith_of_ne j c v hv]
    cases v with
    | Instruction k =>
      have hk : k ≠ j := fun e => hv (by rw [e])
      have hb : (k == j) = false := by simpa using hk
      simp only [Value.subst, List.lookup, hb]
    | _ => rfl

theorem Instruction.substInstr_cons (j : Nat) (c : Value) (log : List (Nat × Value))
    (instr : Instruction) (hc : ∀ k, c ≠ Value.Instruction k) :
    Instruction.subst ((j, c) :: log) instr
      = Instruction.subst log (instr.replaceUsesOfWith j c) := by
  unfold Instruction.subst Instruction.replaceUsesOfWith
  simp only [List.map_map]
  congr 1
  apply List.map_congr_left
  intro v _
  exact Value.subst_cons j c log v hc

theorem Instruction.getOperand_subst (log : List (Nat × Value)) (instr : Instruction) (k : Nat) :
    (Instruction.subst log instr).getOperand k = (instr.getOperand k).map (Value.subst log) := by
  unfold Instruction.subst Instruction.getOperand
  simp only [List.getElem?_map]

theorem lookup_append_of_some (pre rest : List (Nat × Value)) (j : Nat) (c : Value)
    (h : pre.lookup j = some c) : (pre ++ rest).lookup j = some c := by
  induction pre with
  | nil => simp [List.lookup] at h
  | cons e pre ih =>
    rcases e with ⟨k, d⟩
    simp only [List.cons_append, List.lookup] at h ⊢
    cases hb : (j == k) with
    | true => rw [hb] at h; exact h
    | false => rw [hb] at h; exact ih h

theorem Value.subst_append_of_ConstantInt (pre rest : List (Nat × Value)) (v : Value) (V : APInt)
    (h : Value.subst pre v = Value.ConstantInt V) :
    Value.subst (pre ++ rest) v = Value.ConstantInt V := by
  cases v with
  | Instruction j =>
    simp only [Value.subst] at h ⊢
    cases hl : pre.lookup j with
    | none => rw [hl] at h; simp at h
    | some c =>
      rw [hl] at h
      simp only at h
      rw [lookup_append_of_some pre rest j c hl]
      exact h
  | _ => exact h

/-! ## What one fold does to the instructions -/

theorem FoldStep.label_ne_Instruction {A B : Function} {j : Nat} {c : Value}
    (h : FoldStep A (j, c) B) : ∀ k, c ≠ Value.Instruction k := by
  cases h with
  | mk b i instr c _ _ hc => exact fun k => constant_value_ne_Instruction instr c k hc

theorem FoldStep.step_instructions_sublist {A B : Function} {j : Nat} {c : Value}
    (h : FoldStep A (j, c) B) (b : Nat) :
    ∃ l : List Instruction, l.Sublist (A.instructions b)
      ∧ B.instructions b = l.map (Instruction.replaceUsesOfWith j c) := by
  cases h with
  | mk b0 i instr c _ _ _ =>
    rw [Function.instructions_eraseFromParent, Function.instructions_replaceAllUsesWith]
    split
    · refine ⟨(A.instructions b).eraseIdx i, List.eraseIdx_sublist _ _, ?_⟩
      rw [List.eraseIdx_eq_take_drop_succ, List.eraseIdx_eq_take_drop_succ, List.map_append,
        List.map_take, List.map_drop]
    · exact ⟨A.instructions b, List.Sublist.refl _, rfl⟩

theorem FoldStep.step_mem_cases {A B : Function} {j : Nat} {c : Value}
    (h : FoldStep A (j, c) B) (b : Nat) (instr : Instruction) (hmem : instr ∈ A.instructions b) :
    instr.replaceUsesOfWith j c ∈ B.instructions b ∨ (j = instr.id ∧ constant instr = some c) := by
  cases h with
  | mk b0 i instr0 c _ hget hc =>
    obtain ⟨p, hp⟩ := List.getElem?_of_mem hmem
    by_cases hpos : b0 = b ∧ i = p
    · obtain ⟨rfl, rfl⟩ := hpos
      unfold Function.getInstruction at hget
      rw [hp] at hget
      cases hget
      exact Or.inr ⟨rfl, hc⟩
    · left
      rw [Function.instructions_eraseFromParent, Function.instructions_replaceAllUsesWith]
      have hp' : ((A.instructions b).map (Instruction.replaceUsesOfWith instr0.id c))[p]?
          = some (instr.replaceUsesOfWith instr0.id c) := by
        rw [List.getElem?_map, hp]; rfl
      split
      · rename_i hb
        rw [List.mem_eraseIdx_iff_getElem?]
        exact ⟨p, fun e => hpos ⟨hb, e.symm⟩, hp'⟩
      · exact List.getElem?_mem hp'

/-! ## What a sequence of folds does to the instructions -/

/-- Every instruction left in a block is an instruction the block had, with its
operands redirected according to the recorded folds; the order is kept. -/
theorem Folds.instructions_sublist {A B : Function} {log : List (Nat × Value)}
    (h : Folds A log B) (b : Nat) :
    ∃ l : List Instruction, l.Sublist (A.instructions b)
      ∧ B.instructions b = l.map (Instruction.subst log) := by
  induction h with
  | refl Fn =>
    refine ⟨Fn.instructions b, List.Sublist.refl _, ?_⟩
    have e : (Fn.instructions b).map (Instruction.subst [])
        = (Fn.instructions b).map (fun x => x) :=
      List.map_congr_left (fun x _ => Instruction.substInstr_nil x)
    rw [e, List.map_id']
  | @step A A1 B e log hs _ ih =>
    rcases e with ⟨j, c⟩
    obtain ⟨l0, hl0, h0⟩ := hs.step_instructions_sublist b
    obtain ⟨l1, hl1, h1⟩ := ih
    rw [h0] at hl1
    obtain ⟨l2, hl2, rfl⟩ := List.sublist_map_iff.mp hl1
    refine ⟨l2, hl2.trans hl0, ?_⟩
    rw [h1, List.map_map]
    apply List.map_congr_left
    intro x _
    exact (Instruction.substInstr_cons j c log x hs.label_ne_Instruction).symm

/-- An instruction of the input either is still in its block at the end, with
its operands redirected, or was folded: the record then holds an entry with its
identity and the value `constant` gave for it at that moment. -/
theorem Folds.mem_cases {A B : Function} {log : List (Nat × Value)}
    (h : Folds A log B) (b : Nat) (instr : Instruction) (hmem : instr ∈ A.instructions b) :
    Instruction.subst log instr ∈ B.instructions b
      ∨ ∃ pre post c, log = pre ++ (instr.id, c) :: post
          ∧ constant (Instruction.subst pre instr) = some c := by
  induction h generalizing instr with
  | refl Fn =>
    left
    rw [Instruction.substInstr_nil]
    exact hmem
  | @step A A1 B e log hs _ ih =>
    rcases e with ⟨j, c⟩
    rcases hs.step_mem_cases b instr hmem with h1 | ⟨rfl, hc⟩
    · rcases ih (instr.replaceUsesOfWith j c) h1 with h2 | ⟨pre, post, c', hlog, hc'⟩
      · left
        rw [Instruction.substInstr_cons j c log instr hs.label_ne_Instruction]
        exact h2
      · right
        refine ⟨(j, c) :: pre, post, c', ?_, ?_⟩
        · rw [hlog]; rfl
        · rw [Instruction.substInstr_cons j c pre instr hs.label_ne_Instruction]
          exact hc'
    · right
      refine ⟨[], log, c, rfl, ?_⟩
      rw [Instruction.substInstr_nil]
      exact hc

theorem constant_some_operand (instr : Instruction) (c : Value) (k : Nat) (hk : k < 2)
    (h : constant instr = some c) : ∃ V, instr.getOperand k = some (Value.ConstantInt V) := by
  have hs : (constant instr).isSome = true := by rw [h]; rfl
  obtain ⟨-, h0, h1⟩ := (constant_isSome_iff instr).mp hs
  rw [isConstantIntOperand_iff] at h0 h1
  interval_cases k
  · exact h0
  · exact h1

/-- An instruction one of whose two operands never becomes an integer constant
stays in its block through every fold. -/
theorem Folds.user_persists {A B : Function} {log : List (Nat × Value)}
    (h : Folds A log B) (b : Nat) (instr : Instruction) (hmem : instr ∈ A.instructions b)
    (k : Nat) (hk : k < 2) (v : Value) (hop : instr.getOperand k = some v)
    (hv : ∀ V, Value.subst log v ≠ Value.ConstantInt V) :
    Instruction.subst log instr ∈ B.instructions b := by
  rcases h.mem_cases b instr hmem with h1 | ⟨pre, post, c, hlog, hc⟩
  · exact h1
  · exfalso
    obtain ⟨V, hV⟩ := constant_some_operand _ c k hk hc
    rw [Instruction.getOperand_subst, hop] at hV
    simp only [Option.map_some', Option.some.injEq] at hV
    apply hv V
    rw [hlog]
    exact Value.subst_append_of_ConstantInt pre _ v V hV

/-! ## Uses of folded instructions -/

theorem FoldStep.step_noUse {A B : Function} {j : Nat} {c : Value} (h : FoldStep A (j, c) B) :
    NoUse j B := by
  intro b instr hmem hin
  obtain ⟨l, -, hl⟩ := h.step_instructions_sublist b
  rw [hl] at hmem
  obtain ⟨instr0, -, rfl⟩ := List.mem_map.mp hmem
  unfold Instruction.replaceUsesOfWith at hin
  simp only at hin
  obtain ⟨v, -, hv⟩ := List.mem_map.mp hin
  unfold Value.replaceUsesOfWith at hv
  split at hv
  · exact h.label_ne_Instruction j hv
  · rename_i hne
    exact hne hv

theorem FoldStep.step_noUse_preserved {A B : Function} {j : Nat} {c : Value}
    (h : FoldStep A (j, c) B) (j' : Nat) (hA : NoUse j' A) : NoUse j' B := by
  intro b instr hmem hin
  obtain ⟨l, hsub, hl⟩ := h.step_instructions_sublist b
  rw [hl] at hmem
  obtain ⟨instr0, hmem0, rfl⟩ := List.mem_map.mp hmem
  unfold Instruction.replaceUsesOfWith at hin
  simp only at hin
  obtain ⟨v, hvmem, hv⟩ := List.mem_map.mp hin
  unfold Value.replaceUsesOfWith at hv
  split at hv
  · exact h.label_ne_Instruction j' hv
  · subst hv
    exact hA b instr0 (hsub.subset hmem0) hvmem

theorem Folds.noUse_preserved {A B : Function} {log : List (Nat × Value)}
    (h : Folds A log B) (j : Nat) (hA : NoUse j A) : NoUse j B := by
  induction h with
  | refl _ => exact hA
  | @step A A1 B e log hs _ ih =>
    rcases e with ⟨j0, c⟩
    exact ih (hs.step_noUse_preserved j hA)

/-- No operand is left that refers to an instruction recorded as folded. -/
theorem Folds.noUse {A B : Function} {log : List (Nat × Value)}
    (h : Folds A log B) (j : Nat) (c : Value) (hmem : (j, c) ∈ log) : NoUse j B := by
  induction h with
  | refl _ => cases hmem
  | @step A A1 B e log hs hrest ih =>
    rcases e with ⟨j0, c0⟩
    rcases List.mem_cons.mp hmem with heq | hmem
    · cases heq
      exact hrest.noUse_preserved j hs.step_noUse
    · exact ih hmem

/-! ## Identities -/

theorem Function.ids_replaceAllUsesWith (Fn : Function) (id : Nat) (New : Value) :
    (Fn.replaceAllUsesWith id New).ids = Fn.ids := by
  unfold Function.ids Function.replaceAllUsesWith
  simp only [List.map_map]
  congr 1
  apply List.map_congr_left
  intro bb _
  simp [BasicBlock.replaceUsesOfWith, Instruction.replaceUsesOfWith, Function.comp_def]

theorem ids_eraseIdx_aux (l : List BasicBlock) (b i : Nat) (bb : BasicBlock)
    (instr : Instruction) (hb : l[b]? = some bb) (hi : bb.Insts[i]? = some instr) :
    ∃ pre post : List Nat,
      (l.map (fun bb => bb.Insts.map (fun instr => instr.id))).flatten
        = pre ++ instr.id :: post
      ∧ ((l.modify (fun x => { x with Insts := x.Insts.eraseIdx i }) b).map
          (fun bb => bb.Insts.map (fun instr => instr.id))).flatten = pre ++ post := by
  induction l generalizing b with
  | nil => simp at hb
  | cons hd tl ih =>
    cases b with
    | zero =>
      simp only [List.getElem?_cons_zero, Option.some.injEq] at hb
      subst hb
      rcases List.getElem?_eq_some_iff.mp hi with ⟨hlt, hget⟩
      refine ⟨(hd.Insts.take i).map (fun instr => instr.id),
        (hd.Insts.drop (i + 1)).map (fun instr => instr.id)
          ++ (tl.map (fun bb => bb.Insts.map (fun instr => instr.id))).flatten, ?_, ?_⟩
      · simp only [List.map_cons, List.flatten_cons]
        conv_lhs => rw [← List.take_append_drop i hd.Insts, List.drop_eq_getElem_cons hlt, hget]
        simp
      · simp only [List.modify_zero_cons, List.map_cons, List.flatten_cons,
          List.eraseIdx_eq_take_drop_succ]
        simp
    | succ b =>
      simp only [List.getElem?_cons_succ] at hb
      obtain ⟨pre, post, h1, h2⟩ := ih b hb
      refine ⟨hd.Insts.map (fun instr => instr.id) ++ pre, post, ?_, ?_⟩
      · simp only [List.map_cons, List.flatten_cons, h1, List.append_assoc]
      · simp only [List.modify_succ_cons, List.map_cons, List.flatten_cons, h2,
          List.append_assoc]

theorem FoldStep.ids {A B : Function} {j : Nat} {c : Value} (h : FoldStep A (j, c) B) :
    ∃ pre post : List Nat, A.ids = pre ++ j :: post ∧ B.ids = pre ++ post := by
  cases h with
  | mk b i instr c _ hget _ =>
    rw [← Function.ids_replaceAllUsesWith A instr.id c]
    have hget' : (A.replaceAllUsesWith instr.id c).getInstruction b i
        = some (instr.replaceUsesOfWith instr.id c) := by
      unfold Function.getInstruction at hget ⊢
      rw [Function.instructions_replaceAllUsesWith, List.getElem?_map, hget]
      rfl
    generalize A.replaceAllUsesWith instr.id c = A' at hget'
    unfold Function.getInstruction Function.instructions at hget'
    cases hb : A'.Blocks[b]? with
    | none => rw [hb] at hget'; simp at hget'
    | some bb =>
      rw [hb] at hget'
      simp only at hget'
      exact ids_eraseIdx_aux A'.Blocks b i bb (instr.replaceUsesOfWith instr.id c) hb hget'

theorem Folds.ids_perm {A B : Function} {log : List (Nat × Value)} (h : Folds A log B) :
    List.Perm A.ids (log.map Prod.fst ++ B.ids) := by
  induction h with
  | refl _ => exact List.Perm.refl _
  | @step A A1 B e log hs _ ih =>
    rcases e with ⟨j, c⟩
    obtain ⟨pre, post, h1, h2⟩ := hs.ids
    rw [h1]
    simp only [List.map_cons, List.cons_append]
    refine List.Perm.trans List.perm_middle (List.Perm.cons j ?_)
    rw [← h2]
    exact ih

theorem Folds.ids_subset {A B : Function} {log : List (Nat × Value)} (h : Folds A log B)
    (j : Nat) (hj : j ∈ B.ids) : j ∈ A.ids :=
  h.ids_perm.symm.subset (List.mem_append_right _ hj)

theorem Folds.keys_subset {A B : Function} {log : List (Nat × Value)} (h : Folds A log B)
    (j : Nat) (hj : j ∈ log.map Prod.fst) : j ∈ A.ids :=
  h.ids_perm.symm.subset (List.mem_append_left _ hj)

/-- An instruction of the input that is gone at the end was recorded as folded. -/
theorem Folds.removed_mem_keys {A B : Function} {log : List (Nat × Value)} (h : Folds A log B)
    (j : Nat) (hA : j ∈ A.ids) (hB : j ∉ B.ids) : j ∈ log.map Prod.fst := by
  rcases List.mem_append.mp (h.ids_perm.subset hA) with h1 | h1
  · exact h1
  · exact absurd h1 hB

theorem Folds.nodup {A B : Function} {log : List (Nat × Value)} (h : Folds A log B)
    (hA : A.UniqueIds) :
    (log.map Prod.fst).Nodup ∧ B.UniqueIds ∧ ∀ j ∈ log.map Prod.fst, j ∉ B.ids := by
  have hn : (log.map Prod.fst ++ B.ids).Nodup := h.ids_perm.nodup_iff.mp hA
  rw [List.nodup_append] at hn
  exact ⟨hn.1, hn.2.1, fun j hj hj' => hn.2.2 hj hj'⟩

theorem lookup_of_mem_of_nodup (log : List (Nat × Value)) (hn : (log.map Prod.fst).Nodup)
    (j : Nat) (c : Value) (hmem : (j, c) ∈ log) : log.lookup j = some c := by
  induction log with
  | nil => cases hmem
  | cons e log ih =>
    rcases e with ⟨k, d⟩
    simp only [List.map_cons, List.nodup_cons] at hn
    rcases List.mem_cons.mp hmem with heq | htl
    · cases heq
      simp [List.lookup]
    · have hne : j ≠ k := by
        intro e
        subst e
        exact hn.1 (List.mem_map.mpr ⟨(j, c), htl, rfl⟩)
      have hb : (j == k) = false := by simpa using hne
      simp only [List.lookup, hb]
      exact ih hn.2 htl

theorem lookup_none_of_not_mem (log : List (Nat × Value)) (j : Nat)
    (h : ∀ c, (j, c) ∉ log) : log.lookup j = none := by
  induction log with
  | nil => rfl
  | cons e log ih =>
    rcases e with ⟨k, d⟩
    have hne : j ≠ k := by
      intro e
      subst e
      exact h d (List.mem_cons_self _ _)
    have hb : (j == k) = false := by simpa using hne
    simp only [List.lookup, hb]
    exact ih (fun c hc => h c (List.mem_cons_of_mem _ hc))

theorem mem_ids_of_mem_instructions (Fn : Function) (b : Nat) (instr : Instruction)
    (h : instr ∈ Fn.instructions b) : instr.id ∈ Fn.ids := by
  unfold Function.instructions at h
  cases hb : Fn.Blocks[b]? with
  | none => rw [hb] at h; cases h
  | some bb =>
    rw [hb] at h
    simp only at h
    unfold Function.ids
    rw [List.mem_flatten]
    exact ⟨bb.Insts.map (fun instr => instr.id),
      List.mem_map.mpr ⟨bb, List.getElem?_mem hb, rfl⟩, List.mem_map.mpr ⟨instr, h, rfl⟩⟩

/-! ## The claims about the pass -/

theorem constant_div_zero (instr : Instruction) (x : APInt) (w : Nat)
    (hop : instr.Opcode = .SDiv ∨ instr.Opcode = .UDiv ∨ instr.Opcode = .SRem
      ∨ instr.Opcode = .URem)
    (h0 : instr.getOperand 0 = some (Value.ConstantInt x))
    (h1 : instr.getOperand 1 = some (Value.ConstantInt ⟨w, 0⟩)) :
    constant instr = some (Value.PoisonValue instr.Ty) := by
  rcases instr with ⟨id, op, ty, ops⟩
  simp only at hop
  rcases hop with rfl | rfl | rfl | rfl <;>
    simp [constant, Instruction.isBinaryOp, evalBinaryInstruction, h0, h1, APInt.isZero,
      PoisonValue.get]

theorem constant_subst_of_constants (log : List (Nat × Value)) (instr : Instruction)
    (V0 V1 : APInt) (h0 : instr.getOperand 0 = some (Value.ConstantInt V0))
    (h1 : instr.getOperand 1 = some (Value.ConstantInt V1)) :
    constant (Instruction.subst log instr) = constant instr := by
  apply constant_congr
  · rfl
  · rfl
  · rw [Instruction.getOperand_subst, h0]; rfl
  · rw [Instruction.getOperand_subst, h1]; rfl

theorem Reachable_of_Folds {A B : Function} {log : List (Nat × Value)} (h : Folds A log B)
    (b : Nat) (hb : Reachable A b) : b ∈ ReversePostOrderTraversal B := by
  rw [h.rpot_eq]
  exact (mem_ReversePostOrderTraversal_iff A b).mpr hb

/-- An instruction of a reachable block whose two operands are integer constants
is folded by the run: the record holds its identity with the value `constant`
gives for it. -/
theorem folded_of_constants (Fn : Function) (r : RunResult) (init : List (List (Nat × Value)))
    (hfolds : Folds Fn init.flatten r.Fn) (hfix : ¬ Foldable r.Fn)
    (b : Nat) (hb : Reachable Fn b) (instr : Instruction) (hmem : instr ∈ Fn.instructions b)
    (V0 V1 : APInt) (h0 : instr.getOperand 0 = some (Value.ConstantInt V0))
    (h1 : instr.getOperand 1 = some (Value.ConstantInt V1))
    (c : Value) (hc : constant instr = some c) :
    (instr.id, c) ∈ init.flatten := by
  rcases hfolds.mem_cases b instr hmem with hin | ⟨pre, post, c', hlog, hc'⟩
  · exfalso
    apply hfix
    refine ⟨b, Reachable_of_Folds hfolds b hb, _, hin, ?_⟩
    rw [constant_subst_of_constants _ instr V0 V1 h0 h1, hc]
    rfl
  · rw [constant_subst_of_constants _ instr V0 V1 h0 h1, hc] at hc'
    cases hc'
    rw [hlog]
    simp

/-- An instruction of a reachable block whose operands 0 and 1 are integer
constants once the recorded folds have redirected them was folded by the run. -/
theorem folded_of_eventually_constant (Fn : Function) (r : RunResult)
    (log : List (Nat × Value)) (hfolds : Folds Fn log r.Fn) (hfix : ¬ Foldable r.Fn)
    (b : Nat) (hb : Reachable Fn b) (instr : Instruction) (hmem : instr ∈ Fn.instructions b)
    (hsup : instr.Opcode.isSupported = true)
    (h0 : (Instruction.subst log instr).isConstantIntOperand 0 = true)
    (h1 : (Instruction.subst log instr).isConstantIntOperand 1 = true) :
    ∃ c, (instr.id, c) ∈ log := by
  rcases hfolds.mem_cases b instr hmem with hin | ⟨pre, post, c', hlog, -⟩
  · exfalso
    apply hfix
    exact ⟨b, Reachable_of_Folds hfolds b hb, _, hin,
      (constant_isSome_iff _).mpr ⟨hsup, h0, h1⟩⟩
  · exact ⟨c', by rw [hlog]; simp⟩

/-- Every recorded value is an integer constant or a marker. -/
theorem Folds.label_cases {A B : Function} {log : List (Nat × Value)} (h : Folds A log B)
    (j : Nat) (c : Value) (hmem : (j, c) ∈ log) :
    (∃ V, c = Value.ConstantInt V) ∨ ∃ T, c = Value.PoisonValue T := by
  induction h with
  | refl _ => cases hmem
  | @step A A1 B e log hs _ ih =>
    rcases List.mem_cons.mp hmem with heq | htl
    · subst heq
      cases hs with
      | mk b i instr c _ _ hc =>
        rcases constant_cases instr c hc with h | h
        · exact Or.inl h
        · exact Or.inr ⟨_, h⟩
    · exact ih htl

/-- C2: a reachable `SDiv`, `UDiv`, `SRem` or `URem` whose divisor is the
constant `0` is folded to the marker of its own type, never to a numeric
constant and never left in place: the run records the fold with the marker, the
instruction is gone from the function, no operand refers to it any more, and
every operand that referred to it holds the marker.  `SDiv(7, 0)` at width 32
folds to the marker. -/
theorem C2_division_by_zero_folds_to_marker (Fn : Function) (b : Nat) (instr : Instruction)
    (x : APInt) (w : Nat) (hU : Fn.UniqueIds) (hb : Reachable Fn b)
    (hmem : instr ∈ Fn.instructions b)
    (hop : instr.Opcode = .SDiv ∨ instr.Opcode = .UDiv ∨ instr.Opcode = .SRem
      ∨ instr.Opcode = .URem)
    (h0 : instr.getOperand 0 = some (Value.ConstantInt x))
    (h1 : instr.getOperand 1 = some (Value.ConstantInt ⟨w, 0⟩)) :
    constant instr = some (Value.PoisonValue instr.Ty)
    ∧ (∃ r, myConstantPropagation Fn = some r
        ∧ (instr.id, Value.PoisonValue instr.Ty) ∈ r.trace.flatten
        ∧ (∀ c, (instr.id, c) ∈ r.trace.flatten → c = Value.PoisonValue instr.Ty)
        ∧ instr.id ∉ r.Fn.ids
        ∧ NoUse instr.id r.Fn
        ∧ (∀ b', ∃ l : List Instruction, l.Sublist (Fn.instructions b')
            ∧ r.Fn.instructions b' = l.map (Instruction.subst r.trace.flatten))
        ∧ Value.subst r.trace.flatten (Value.Instruction instr.id)
            = Value.PoisonValue instr.Ty)
    ∧ constant (binop 1 .SDiv 32 7 0) = some (Value.PoisonValue (Ty.Integer 32))
    ∧ myConstantPropagation scenarioC
        = some ⟨true, scenarioCFolded, [[(1, Value.PoisonValue (Ty.Integer 32))], []]⟩ := by
  have hc := constant_div_zero instr x w hop h0 h1
  refine ⟨hc, ?_, by decide, by decide⟩
  obtain ⟨r, init, hr, htrace, -, hfolds, -, hfix⟩ := myConstantPropagation_spec Fn
  have hlog : r.trace.flatten = init.flatten := by rw [htrace]; exact flatten_append_nil init
  have hin := folded_of_constants Fn r init hfolds hfix b hb instr hmem x _ h0 h1 _ hc
  obtain ⟨hk, -, hgone⟩ := hfolds.nodup hU
  have hlook := lookup_of_mem_of_nodup _ hk _ _ hin
  refine ⟨r, hr, ?_⟩
  rw [hlog]
  refine ⟨hin, ?_, ?_, ?_, ?_, ?_⟩
  · intro c hcin
    have := lookup_of_mem_of_nodup _ hk _ _ hcin
    rw [hlook] at this
    cases this
    rfl
  · exact hgone _ (List.mem_map.mpr ⟨_, hin, rfl⟩)
  · exact hfolds.noUse _ _ hin
  · exact fun b' => hfolds.instructions_sublist b'
  · simp only [Value.subst, hlook]

theorem C2_division_by_zero_folds_to_marker_witness :
    ∃ r, myConstantPropagation scenarioC = some r
      ∧ (1, Value.PoisonValue (Ty.Integer 32)) ∈ r.trace.flatten
      ∧ 1 ∉ r.Fn.ids
      ∧ NoUse 1 r.Fn := by
  have h := C2_division_by_zero_folds_to_marker scenarioC 0 (binop 1 .SDiv 32 7 0) ⟨32, 7⟩ 32
    (by decide) (Reachable.entry (by decide)) (by decide) (Or.inl rfl) rfl rfl
  obtain ⟨r, hr, h1, -, h3, h4, -, -⟩ := h.2.1
  exact ⟨r, hr, h1, h3, h4⟩

theorem evalBinaryInstruction_eq_none (instr : Instruction) (eval : APInt → APInt → Value) :
    evalBinaryInstruction instr eval = none ↔
      (instr.isConstantIntOperand 0 = false ∨ instr.isConstantIntOperand 1 = false) := by
  have h := evalBinaryInstruction_isSome instr eval
  cases he : evalBinaryInstruction instr eval with
  | none =>
    rw [he] at h
    simp only [Option.isSome_none, Bool.false_eq_true, false_iff, not_and_or] at h
    simpa using h
  | some c =>
    rw [he] at h
    simp only [Option.isSome_some, true_iff] at h
    simp [h.1, h.2]

theorem constant_eq_none_iff (instr : Instruction) (hsup : instr.Opcode.isSupported = true) :
    constant instr = none ↔
      (instr.isConstantIntOperand 0 = false ∨ instr.isConstantIntOperand 1 = false) := by
  have h := constant_isSome_iff instr
  cases he : constant instr with
  | none =>
    rw [he] at h
    simp only [Option.isSome_none, Bool.false_eq_true, false_iff, hsup, true_and,
      not_and_or] at h
    simpa using h
  | some c =>
    rw [he] at h
    simp only [Option.isSome_some, true_iff] at h
    simp [h.2.1, h.2.2]

/-- C6: for an instruction of a supported opcode the evaluator returns no
result exactly when operand 0 or operand 1 is not structurally an integer
constant; the visit then hands the state on unchanged (function, `converged`,
`changed` and record) and moves to the next instruction.  When both operands are
integer constants the visit folds the instruction, and an instruction of a
reachable block whose operands 0 and 1 have become integer constants through
the folds of the run is itself folded by the run: in `scenarioLater` the first
sweep folds only `t1` and the second folds `t2`. -/
theorem C6_non_constant_operand_skip (instr : Instruction)
    (hsup : instr.Opcode.isSupported = true) :
    (∀ eval, evalBinaryInstruction instr eval = none ↔
        (instr.isConstantIntOperand 0 = false ∨ instr.isConstantIntOperand 1 = false))
    ∧ (constant instr = none ↔
        (instr.isConstantIntOperand 0 = false ∨ instr.isConstantIntOperand 1 = false))
    ∧ ((instr.isConstantIntOperand 0 = false ∨ instr.isConstantIntOperand 1 = false) →
        ∀ (b n i : Nat) (st : PassState), st.Fn.getInstruction b i = some instr →
          forInstructions b (n + 1) i st = forInstructions b n (i + 1) st)
    ∧ ((instr.isConstantIntOperand 0 = true ∧ instr.isConstantIntOperand 1 = true) →
        ∃ c, constant instr = some c
          ∧ ∀ (b n i : Nat) (st : PassState), st.Fn.getInstruction b i = some instr →
              forInstructions b (n + 1) i st = forInstructions b n i (st.fold b i instr c))
    ∧ (∀ (Fn : Function) (b : Nat), Reachable Fn b → instr ∈ Fn.instructions b →
        ∃ r, myConstantPropagation Fn = some r
          ∧ ((Instruction.subst r.trace.flatten instr).isConstantIntOperand 0 = true
              ∧ (Instruction.subst r.trace.flatten instr).isConstantIntOperand 1 = true →
              ∃ c, (instr.id, c) ∈ r.trace.flatten))
    ∧ myConstantPropagation scenarioLater
        = some ⟨true, scenarioLaterFolded,
            [[(1, Value.ConstantInt ⟨32, 4⟩)], [(2, Value.ConstantInt ⟨32, 40⟩)], []]⟩ := by
  refine ⟨fun eval => evalBinaryInstruction_eq_none instr eval,
    constant_eq_none_iff instr hsup, ?_, ?_, ?_, by decide⟩
  rotate_left 2
  · intro Fn b hb hmem
    obtain ⟨r, init, hr, htrace, -, hfolds, -, hfix⟩ := myConstantPropagation_spec Fn
    have hlog : r.trace.flatten = init.flatten := by rw [htrace]; exact flatten_append_nil init
    refine ⟨r, hr, ?_⟩
    rw [hlog]
    rintro ⟨h0, h1⟩
    exact folded_of_eventually_constant Fn r _ hfolds hfix b hb instr hmem hsup h0 h1
  · intro hnc b n i st hget
    exact forInstructions_skip b n i st instr hget ((constant_eq_none_iff instr hsup).mpr hnc)
  · intro hboth
    have hs : (constant instr).isSome = true :=
      (constant_isSome_iff instr).mpr ⟨hsup, hboth.1, hboth.2⟩
    obtain ⟨c, hc⟩ := Option.isSome_iff_exists.mp hs
    exact ⟨c, hc, fun b n i st hget => forInstructions_fold b n i st instr c hget hc⟩

theorem C6_non_constant_operand_skip_witness :
    addParam.Opcode.isSupported = true
    ∧ constant addParam = none
    ∧ forInstructions 0 2 0 ⟨scenarioD, true, false, []⟩
        = forInstructions 0 1 1 ⟨scenarioD, true, false, []⟩ := by
  have h := C6_non_constant_operand_skip addParam (by decide)
  exact ⟨by decide, h.2.1.mpr (Or.inr (by decide)),
    h.2.2.1 (Or.inr (by decide)) 0 1 0 ⟨scenarioD, true, false, []⟩ (by decide)⟩

/-- C7: a binary instruction with an operand that is neither an integer
constant nor the result of an instruction the pass folds (a function parameter
in particular) is never folded: when the run returns it is still in its block
with the same identity, opcode, type and that same operand, and with distinct
identities the record holds no fold of it.  `r = Add(5, %param)` survives the
pass unchanged. -/
theorem C7_non_constant_operand_never_folded (Fn : Function) (b : Nat) (instr : Instruction)
    (k : Nat) (v : Value) (hmem : instr ∈ Fn.instructions b) (hk : k < 2)
    (hop : instr.getOperand k = some v) (hv : ∀ V, v ≠ Value.ConstantInt V) :
    (∃ r, myConstantPropagation Fn = some r
      ∧ ((∀ j c, v = Value.Instruction j → (j, c) ∉ r.trace.flatten) →
          (∃ instr' ∈ r.Fn.instructions b, instr'.id = instr.id
            ∧ instr'.Opcode = instr.Opcode ∧ instr'.Ty = instr.Ty
            ∧ instr'.getOperand k = some v)
          ∧ (Fn.UniqueIds → ∀ c, (instr.id, c) ∉ r.trace.flatten)))
    ∧ myConstantPropagation scenarioD = some ⟨false, scenarioD, [[]]⟩ := by
  refine ⟨?_, by decide⟩
  obtain ⟨r, init, hr, htrace, -, hfolds, -, -⟩ := myConstantPropagation_spec Fn
  have hlog : r.trace.flatten = init.flatten := by rw [htrace]; exact flatten_append_nil init
  refine ⟨r, hr, ?_⟩
  rw [hlog]
  intro hnot
  have hsub : Value.subst init.flatten v = v := by
    cases v with
    | Instruction j =>
      simp only [Value.subst, lookup_none_of_not_mem _ j (fun c => hnot j c rfl)]
    | _ => rfl
  have hin := hfolds.user_persists b instr hmem k hk v hop (by rw [hsub]; exact hv)
  have hget : (Instruction.subst init.flatten instr).getOperand k = some v := by
    rw [Instruction.getOperand_subst, hop]
    simp only [Option.map_some', hsub]
  refine ⟨⟨_, hin, rfl, rfl, rfl, hget⟩, ?_⟩
  intro hU c hc
  obtain ⟨-, -, hgone⟩ := hfolds.nodup hU
  exact hgone _ (List.mem_map.mpr ⟨_, hc, rfl⟩)
    (mem_ids_of_mem_instructions r.Fn b (Instruction.subst init.flatten instr) hin)

theorem C7_non_constant_operand_never_folded_witness :
    ∃ r, myConstantPropagation scenarioD = some r
      ∧ ∃ instr' ∈ r.Fn.instructions 0, instr'.id = 1 ∧ instr'.Opcode = Opcode.Add
          ∧ instr'.getOperand 1 = some (Value.Argument 0) := by
  have h := C7_non_constant_operand_never_folded scenarioD 0 addParam 1 (Value.Argument 0)
    (by decide) (by decide) rfl (by intro V; exact Value.noConfusion)
  obtain ⟨r, hr, hrest⟩ := h.1
  obtain ⟨⟨instr', hin, h1, h2, -, h4⟩, -⟩ := hrest (fun j c hj => Value.noConfusion hj)
  exact ⟨r, hr, instr', hin, h1, h2, h4⟩

/-- C8: the marker is never treated as an integer constant operand.  A binary
instruction that has the marker as operand 0 or 1, either from the start or
because the pass folded the instruction it referred to into the marker, is
never folded: when the run returns it is still in its block with the marker as
that operand, and the record holds no fold of it.  In `scenarioMarkerUser` the
division by zero is folded to the marker and its user `Add(marker, 1)` stays. -/
theorem C8_marker_operand_never_folded (Fn : Function) (b : Nat) (instr : Instruction)
    (k : Nat) (T : Ty) (hU : Fn.UniqueIds) (hmem : instr ∈ Fn.instructions b) (hk : k < 2) :
    (∃ r, myConstantPropagation Fn = some r
      ∧ ((instr.getOperand k = some (Value.PoisonValue T)
            ∨ ∃ j, instr.getOperand k = some (Value.Instruction j)
                ∧ (j, Value.PoisonValue T) ∈ r.trace.flatten) →
          (∃ instr' ∈ r.Fn.instructions b, instr'.id = instr.id
            ∧ instr'.Opcode = instr.Opcode ∧ instr'.Ty = instr.Ty
            ∧ instr'.getOperand k = some (Value.PoisonValue T))
          ∧ ∀ c, (instr.id, c) ∉ r.trace.flatten))
    ∧ constant ⟨2, .Add, Ty.Integer 32,
        [Value.PoisonValue (Ty.Integer 32), Value.ConstantInt ⟨32, 1⟩]⟩ = none
    ∧ myConstantPropagation scenarioMarkerUser
        = some ⟨true, scenarioMarkerUserFolded,
            [[(1, Value.PoisonValue (Ty.Integer 32))], []]⟩ := by
  refine ⟨?_, by decide, by decide⟩
  obtain ⟨r, init, hr, htrace, -, hfolds, -, -⟩ := myConstantPropagation_spec Fn
  have hlog : r.trace.flatten = init.flatten := by rw [htrace]; exact flatten_append_nil init
  obtain ⟨hkeys, -, hgone⟩ := hfolds.nodup hU
  refine ⟨r, hr, ?_⟩
  rw [hlog]
  intro hcase
  have key : ∃ v, instr.getOperand k = some v
      ∧ Value.subst init.flatten v = Value.PoisonValue T := by
    rcases hcase with h | ⟨j, hj, hin⟩
    · exact ⟨_, h, rfl⟩
    · refine ⟨_, hj, ?_⟩
      simp only [Value.subst, lookup_of_mem_of_nodup _ hkeys _ _ hin]
  obtain ⟨v, hop, hsub⟩ := key
  have hin := hfolds.user_persists b instr hmem k hk v hop
    (by rw [hsub]; intro V; exact Value.noConfusion)
  have hget : (Instruction.subst init.flatten instr).getOperand k
      = some (Value.PoisonValue T) := by
    rw [Instruction.getOperand_subst, hop]
    simp only [Option.map_some', hsub]
  refine ⟨⟨_, hin, rfl, rfl, rfl, hget⟩, ?_⟩
  intro c hc
  exact hgone _ (List.mem_map.mpr ⟨_, hc, rfl⟩)
    (mem_ids_of_mem_instructions r.Fn b (Instruction.subst init.flatten instr) hin)

theorem C8_marker_operand_never_folded_witness :
    ∃ r, myConstantPropagation scenarioMarkerUser = some r
      ∧ (1, Value.PoisonValue (Ty.Integer 32)) ∈ r.trace.flatten
      ∧ (∃ instr' ∈ r.Fn.instructions 0, instr'.id = 2 ∧ instr'.Opcode = Opcode.Add
          ∧ instr'.getOperand 0 = some (Value.PoisonValue (Ty.Integer 32)))
      ∧ (2, Value.ConstantInt ⟨32, 8⟩) ∉ r.trace.flatten := by
  have h := C8_marker_operand_never_folded scenarioMarkerUser 0 addOfDiv 0 (Ty.Integer 32)
    (by decide) (by decide) (by decide)
  obtain ⟨r, hr, hrest⟩ := h.1
  have hrun : myConstantPropagation scenarioMarkerUser
      = some ⟨true, scenarioMarkerUserFolded,
          [[(1, Value.PoisonValue (Ty.Integer 32))], []]⟩ := h.2.2
  have hin : (1, Value.PoisonValue (Ty.Integer 32)) ∈ r.trace.flatten := by
    rw [hr] at hrun
    cases hrun
    decide
  obtain ⟨⟨instr', hmem, h1, h2, -, h4⟩, h5⟩ := hrest (Or.inr ⟨1, rfl, hin⟩)
  exact ⟨r, hr, hin, ⟨instr', hmem, h1, h2, h4⟩, h5 _⟩

/-- C9: after each fold, and so when the run returns, no operand anywhere in the
function refers to an instruction the pass removed; every instruction left in a
block is an instruction the block had, in the same order, with each operand that
referred to a folded instruction holding exactly the value recorded for that
fold (an integer constant or the marker) and every other operand unchanged. -/
theorem C9_use_redirection_complete (Fn : Function) :
    (∀ (A B : Function) (j : Nat) (c : Value), FoldStep A (j, c) B →
        NoUse j B ∧ ∀ j', NoUse j' A → NoUse j' B)
    ∧ ∃ r, myConstantPropagation Fn = some r
      ∧ Folds Fn r.trace.flatten r.Fn
      ∧ (∀ j c, (j, c) ∈ r.trace.flatten → NoUse j r.Fn)
      ∧ (∀ j, j ∈ Fn.ids → j ∉ r.Fn.ids → NoUse j r.Fn)
      ∧ (∀ b, ∃ l : List Instruction, l.Sublist (Fn.instructions b)
          ∧ r.Fn.instructions b = l.map (Instruction.subst r.trace.flatten))
      ∧ (Fn.UniqueIds → ∀ j c, (j, c) ∈ r.trace.flatten →
          Value.subst r.trace.flatten (Value.Instruction j) = c)
      ∧ (∀ j, (∀ c, (j, c) ∉ r.trace.flatten) →
          Value.subst r.trace.flatten (Value.Instruction j) = Value.Instruction j)
      ∧ (∀ v, (∀ j, v ≠ Value.Instruction j) → Value.subst r.trace.flatten v = v)
      ∧ (∀ j c, (j, c) ∈ r.trace.flatten →
          (∃ V, c = Value.ConstantInt V) ∨ ∃ T, c = Value.PoisonValue T) := by
  refine ⟨fun A B j c h => ⟨h.step_noUse, fun j' hA => h.step_noUse_preserved j' hA⟩, ?_⟩
  obtain ⟨r, init, hr, htrace, -, hfolds, -, -⟩ := myConstantPropagation_spec Fn
  have hlog : r.trace.flatten = init.flatten := by rw [htrace]; exact flatten_append_nil init
  refine ⟨r, hr, ?_⟩
  rw [hlog]
  refine ⟨hfolds, fun j c h => hfolds.noUse j c h, ?_, fun b => hfolds.instructions_sublist b,
    ?_, ?_, fun v hv => Value.subst_of_not_Instruction _ v hv,
    fun j c h => hfolds.label_cases j c h⟩
  · intro j hA hB
    obtain ⟨⟨j', c⟩, hin, rfl⟩ := List.mem_map.mp (hfolds.removed_mem_keys j hA hB)
    exact hfolds.noUse j' c hin
  · intro hU j c hin
    obtain ⟨hkeys, -, -⟩ := hfolds.nodup hU
    simp only [Value.subst, lookup_of_mem_of_nodup _ hkeys _ _ hin]
  · intro j hnot
    simp only [Value.subst, lookup_none_of_not_mem _ j hnot]

theorem flatten_eq_nil_iff_of_ne_nil (init : List (List (Nat × Value)))
    (hne : ∀ l ∈ init, l ≠ []) : init.flatten = [] ↔ init = [] := by
  constructor
  · intro h
    cases init with
    | nil => rfl
    | cons l rest =>
      exfalso
      have hl : l ≠ [] := hne l (List.mem_cons_self _ _)
      simp only [List.flatten_cons, List.append_eq_nil] at h
      exact hl h.1
  · intro h
    rw [h]
    rfl

theorem Foldable_iff (Fn : Function) :
    Foldable Fn ↔ ∃ b instr, Reachable Fn b ∧ instr ∈ Fn.instructions b
      ∧ instr.Opcode.isSupported = true ∧ instr.isConstantIntOperand 0 = true
      ∧ instr.isConstantIntOperand 1 = true := by
  unfold Foldable
  constructor
  · rintro ⟨b, hb, instr, hmem, hs⟩
    exact ⟨b, instr, (mem_ReversePostOrderTraversal_iff Fn b).mp hb, hmem,
      (constant_isSome_iff instr).mp hs⟩
  · rintro ⟨b, instr, hb, hmem, hs⟩
    exact ⟨b, (mem_ReversePostOrderTraversal_iff Fn b).mpr hb, instr, hmem,
      (constant_isSome_iff instr).mpr hs⟩

/-- C10: the run returns `true` exactly when it folded at least one
instruction, which is exactly when the function was modified; it returns
`false` exactly when the function is identical to its input, which is exactly
when no reachable block of the input holds an instruction of a supported opcode
whose operands 0 and 1 are both integer constants.  Each fold removed one
instruction. -/
theorem C10_changed_iff_folded (Fn : Function) :
    ∃ r, myConstantPropagation Fn = some r
      ∧ (r.changed = true ↔ r.trace.flatten ≠ [])
      ∧ (r.changed = true ↔ r.Fn ≠ Fn)
      ∧ (r.changed = false ↔ r.Fn = Fn)
      ∧ (r.changed = false ↔
          ¬ ∃ b instr, Reachable Fn b ∧ instr ∈ Fn.instructions b
            ∧ instr.Opcode.isSupported = true ∧ instr.isConstantIntOperand 0 = true
            ∧ instr.isConstantIntOperand 1 = true)
      ∧ r.Fn.numInstructions + r.trace.flatten.length = Fn.numInstructions := by
  obtain ⟨r, init, hr, htrace, hne, hfolds, hch, hfix⟩ := myConstantPropagation_spec Fn
  have hlog : r.trace.flatten = init.flatten := by rw [htrace]; exact flatten_append_nil init
  have hnil := flatten_eq_nil_iff_of_ne_nil init hne
  have h1 : r.changed = true ↔ init.flatten ≠ [] := by
    rw [hch, Ne, hnil]
    cases init <;> simp
  have h2 : init.flatten ≠ [] ↔ r.Fn ≠ Fn := by
    constructor
    · intro hl e
      have hnum := hfolds.numInstructions
      rw [e] at hnum
      have : 0 < init.flatten.length := List.length_pos.mpr hl
      omega
    · intro hF hl
      apply hF
      rw [hl] at hfolds
      exact hfolds.nil_eq
  have h3 : r.changed = false ↔ r.Fn = Fn := by
    rw [← Bool.not_eq_true, h1, h2, not_not]
  refine ⟨r, hr, ?_⟩
  rw [hlog]
  refine ⟨h1, h1.trans h2, h3, ?_, hfolds.numInstructions⟩
  rw [← Foldable_iff]
  constructor
  · intro hc hF
    rw [h3.mp hc] at hfix
    exact hfix hF
  · intro hF
    rw [← Bool.not_eq_true, h1, not_not]
    by_contra hl
    exact hF (hfolds.foldable_of_ne_nil hl)

/-! ## Idempotence, termination and the fixpoint -/

theorem myConstantPropagation_of_not_Foldable (Fn : Function) (h : ¬ Foldable Fn) :
    myConstantPropagation Fn = some ⟨false, Fn, [[]]⟩ := by
  obtain ⟨hf, hconv, hch⟩ := sweep_spec Fn false
  have hc : (sweep Fn false).converged = true := (sweep_converged_iff Fn false).mpr h
  have hnil : (sweep Fn false).folded = [] := by
    rw [hconv] at hc
    exact List.isEmpty_iff.mp hc
  have hFn : (sweep Fn false).Fn = Fn := by
    rw [hnil] at hf
    exact hf.nil_eq
  have hch' : (sweep Fn false).changed = false := by
    rw [hch, hnil]
    rfl
  unfold myConstantPropagation
  simp only [whileLoop, hc, if_true, hnil, hFn, hch', List.nil_append]

/-- C11: running the pass on the function a first run produced returns
`changed = false` after one sweep that folds nothing and leaves that function
identical. -/
theorem C11_idempotent (Fn : Function) :
    ∃ r, myConstantPropagation Fn = some r
      ∧ myConstantPropagation r.Fn = some ⟨false, r.Fn, [[]]⟩ := by
  obtain ⟨r, init, hr, -, -, -, -, hfix⟩ := myConstantPropagation_spec Fn
  exact ⟨r, hr, myConstantPropagation_of_not_Foldable r.Fn hfix⟩

theorem Instruction.isBinaryOp_replaceUsesOfWith (id : Nat) (New : Value) (instr : Instruction) :
    (instr.replaceUsesOfWith id New).isBinaryOp = instr.isBinaryOp := rfl

theorem Function.numBinaryOps_replaceAllUsesWith (Fn : Function) (id : Nat) (New : Value) :
    (Fn.replaceAllUsesWith id New).numBinaryOps = Fn.numBinaryOps := by
  unfold Function.numBinaryOps Function.replaceAllUsesWith
  simp only [List.map_map]
  congr 1
  apply List.map_congr_left
  intro bb _
  simp only [Function.comp_apply, BasicBlock.replaceUsesOfWith, List.countP_map]
  congr 1

theorem countP_eraseIdx_of_pos (p : Instruction → Bool) (l : List Instruction) (i : Nat)
    (x : Instruction) (hi : l[i]? = some x) (hp : p x = true) :
    (l.eraseIdx i).countP p + 1 = l.countP p := by
  rcases List.getElem?_eq_some_iff.mp hi with ⟨hlt, hget⟩
  have e : l = l.take i ++ x :: l.drop (i + 1) := by
    conv_lhs => rw [← List.take_append_drop i l, List.drop_eq_getElem_cons hlt, hget]
  rw [List.eraseIdx_eq_take_drop_succ]
  conv_rhs => rw [e]
  simp only [List.countP_append, List.countP_cons, hp, if_true]
  omega

theorem countP_eraseIdx_of_neg (p : Instruction → Bool) (l : List Instruction) (i : Nat)
    (x : Instruction) (hi : l[i]? = some x) (hp : p x = false) :
    (l.eraseIdx i).countP p = l.countP p := by
  rcases List.getElem?_eq_some_iff.mp hi with ⟨hlt, hget⟩
  have e : l = l.take i ++ x :: l.drop (i + 1) := by
    conv_lhs => rw [← List.take_append_drop i l, List.drop_eq_getElem_cons hlt, hget]
  rw [List.eraseIdx_eq_take_drop_succ]
  conv_rhs => rw [e]
  simp [List.countP_append, List.countP_cons, hp]

theorem sum_modify_countP (p : Instruction → Bool) (l : List BasicBlock) (b i : Nat)
    (bb : BasicBlock) (x : Instruction) (hb : l[b]? = some bb) (hi : bb.Insts[i]? = some x)
    (hp : p x = true) :
    ((l.modify (fun y => { y with Insts := y.Insts.eraseIdx i }) b).map
        (fun y => y.Insts.countP p)).sum + 1
      = (l.map (fun y => y.Insts.countP p)).sum := by
  induction l generalizing b with
  | nil => simp at hb
  | cons hd tl ih =>
    cases b with
    | zero =>
      simp only [List.getElem?_cons_zero, Option.some.injEq] at hb
      subst hb
      have := countP_eraseIdx_of_pos p hd.Insts i x hi hp
      simp only [List.modify_zero_cons, List.map_cons, List.sum_cons]
      omega
    | succ b =>
      simp only [List.getElem?_cons_succ] at hb
      have := ih b hb
      simp only [List.modify_succ_cons, List.map_cons, List.sum_cons]
      omega

theorem isBinaryOp_of_isSupported (instr : Instruction)
    (h : instr.Opcode.isSupported = true) : instr.isBinaryOp = true := by
  rcases instr with ⟨id, op, ty, ops⟩
  cases op <;> simp_all [Opcode.isSupported, Instruction.isBinaryOp]

theorem FoldStep.step_numBinaryOps {A B : Function} {e : Nat × Value} (h : FoldStep A e B) :
    B.numBinaryOps + 1 = A.numBinaryOps := by
  cases h with
  | mk b i instr c _ hget hc =>
    rw [← Function.numBinaryOps_replaceAllUsesWith A instr.id c]
    have hget' : (A.replaceAllUsesWith instr.id c).getInstruction b i
        = some (instr.replaceUsesOfWith instr.id c) := by
      unfold Function.getInstruction at hget ⊢
      rw [Function.instructions_replaceAllUsesWith, List.getElem?_map, hget]
      rfl
    have hbin : (instr.replaceUsesOfWith instr.id c).isBinaryOp = true := by
      rw [Instruction.isBinaryOp_replaceUsesOfWith]
      apply isBinaryOp_of_isSupported
      have hs : (constant instr).isSome = true := by rw [hc]; rfl
      exact ((constant_isSome_iff instr).mp hs).1
    generalize A.replaceAllUsesWith instr.id c = A' at hget'
    unfold Function.getInstruction Function.instructions at hget'
    cases hb : A'.Blocks[b]? with
    | none => rw [hb] at hget'; simp at hget'
    | some bb =>
      rw [hb] at hget'
      simp only at hget'
      exact sum_modify_countP _ A'.Blocks b i bb _ hb hget' hbin

theorem Folds.numBinaryOps {A B : Function} {log : List (Nat × Value)} (h : Folds A log B) :
    B.numBinaryOps + log.length = A.numBinaryOps := by
  induction h with
  | refl _ => rfl
  | step hs _ ih =>
    have := hs.step_numBinaryOps
    simp only [List.length_cons]
    omega

theorem length_le_length_flatten (init : List (List (Nat × Value)))
    (hne : ∀ l ∈ init, l ≠ []) : init.length ≤ init.flatten.length := by
  induction init with
  | nil => simp
  | cons l rest ih =>
    have hl : 0 < l.length := List.length_pos.mpr (hne l (List.mem_cons_self _ _))
    have := ih (fun l' hl' => hne l' (List.mem_cons_of_mem _ hl'))
    simp only [List.length_cons, List.flatten_cons, List.length_append]
    omega

theorem whileLoop_total_of_numBinaryOps (fuel : Nat) (Fn : Function) (changed : Bool)
    (trace : List (List (Nat × Value))) (h : Fn.numBinaryOps < fuel) :
    ∃ r, whileLoop fuel Fn changed trace = some r := by
  induction fuel generalizing Fn changed trace with
  | zero => omega
  | succ fuel ih =>
    obtain ⟨hf, hconv, -⟩ := sweep_spec Fn changed
    simp only [whileLoop]
    by_cases hc : (sweep Fn changed).converged = true
    · rw [if_pos hc]
      exact ⟨_, rfl⟩
    · rw [if_neg hc]
      apply ih
      have hnum := hf.numBinaryOps
      have hlen : 0 < (sweep Fn changed).folded.length := by
        cases hl : (sweep Fn changed).folded with
        | nil =>
          exfalso
          apply hc
          rw [hconv, hl]
          rfl
        | cons e l => simp
      omega

theorem numBinaryOps_le_numInstructions (Fn : Function) :
    Fn.numBinaryOps ≤ Fn.numInstructions := by
  unfold Function.numBinaryOps Function.numInstructions
  induction Fn.Blocks with
  | nil => simp
  | cons hd tl ih =>
    simp only [List.map_cons, List.sum_cons]
    have := List.countP_le_length (fun instr : Instruction => instr.isBinaryOp) (l := hd.Insts)
    omega

theorem whileLoop_exact (fuel : Nat) (Fn : Function) (changed : Bool)
    (trace : List (List (Nat × Value))) (r : RunResult)
    (h : whileLoop fuel Fn changed trace = some r) :
    ∃ k, r.trace.length = trace.length + k ∧ whileLoop k Fn changed trace = some r
      ∧ ∀ k', k' < k → whileLoop k' Fn changed trace = none := by
  induction fuel generalizing Fn changed trace with
  | zero => simp [whileLoop] at h
  | succ fuel ih =>
    simp only [whileLoop] at h
    by_cases hc : (sweep Fn changed).converged = true
    · rw [if_pos hc] at h
      refine ⟨1, ?_, ?_, ?_⟩
      · cases h; simp
      · simp only [whileLoop, if_pos hc]; exact h
      · intro k' hk'
        have : k' = 0 := by omega
        subst this
        rfl
    · rw [if_neg hc] at h
      obtain ⟨k, h1, h2, h3⟩ := ih _ _ _ h
      refine ⟨k + 1, ?_, ?_, ?_⟩
      · rw [h1]; simp; omega
      · simp only [whileLoop, if_neg hc]; exact h2
      · intro k' hk'
        cases k' with
        | zero => rfl
        | succ k' =>
          simp only [whileLoop, if_neg hc]
          exact h3 k' (by omega)

/-- C12: the run terminates.  Every fold removes exactly one binary-operator
instruction and none is added, so with `N` binary-operator instructions in the
input the run performs at most `N` folds in at most `N + 1` sweeps: the number
of sweeps is the number of executions of the loop body the run needs, and a
loop bounded by `N + 1` executions of its body returns the same result. -/
theorem C12_terminates (Fn : Function) :
    (∀ (A B : Function) (e : Nat × Value), FoldStep A e B →
        B.numBinaryOps + 1 = A.numBinaryOps ∧ B.numInstructions + 1 = A.numInstructions)
    ∧ ∃ r, myConstantPropagation Fn = some r
      ∧ r.Fn.numBinaryOps + r.trace.flatten.length = Fn.numBinaryOps
      ∧ r.Fn.numInstructions + r.trace.flatten.length = Fn.numInstructions
      ∧ r.trace.flatten.length ≤ Fn.numBinaryOps
      ∧ r.trace.length ≤ Fn.numBinaryOps + 1
      ∧ whileLoop (Fn.numBinaryOps + 1) Fn false [] = some r
      ∧ whileLoop r.trace.length Fn false [] = some r
      ∧ (∀ k, k < r.trace.length → whileLoop k Fn false [] = none) := by
  refine ⟨fun A B e h => ⟨h.step_numBinaryOps, h.step_numInstructions⟩, ?_⟩
  obtain ⟨r, init, hr, htrace, hne, hfolds, -, -⟩ := myConstantPropagation_spec Fn
  have hlog : r.trace.flatten = init.flatten := by rw [htrace]; exact flatten_append_nil init
  have hnb := hfolds.numBinaryOps
  have hlen := length_le_length_flatten init hne
  have hsweeps : r.trace.length = init.length + 1 := by rw [htrace]; simp
  obtain ⟨r', hr'⟩ := whileLoop_total_of_numBinaryOps (Fn.numBinaryOps + 1) Fn false []
    (Nat.lt_succ_self _)
  have hle := numBinaryOps_le_numInstructions Fn
  have hsame : r' = r := by
    have h1 := whileLoop_fuel_mono (Fn.numBinaryOps + 1) (Fn.numInstructions - Fn.numBinaryOps)
      Fn false [] r' hr'
    have e : Fn.numBinaryOps + 1 + (Fn.numInstructions - Fn.numBinaryOps)
        = Fn.numInstructions + 1 := by omega
    rw [e] at h1
    unfold myConstantPropagation at hr
    rw [hr] at h1
    cases h1
    rfl
  subst hsame
  obtain ⟨k, hk1, hk2, hk3⟩ := whileLoop_exact _ _ _ _ _ hr'
  have hk : r'.trace.length = k := by simpa using hk1
  refine ⟨r', hr, ?_, ?_, ?_, ?_, hr', ?_, ?_⟩
  · rw [hlog]; exact hnb
  · rw [hlog]; exact hfolds.numInstructions
  · rw [hlog]; omega
  · omega
  · rw [hk]; exact hk2
  · rw [hk]; exact hk3

/-- C13, as stated, fails: on `scenarioB` the first sweep folds `t1` to `4` and, in
the same sweep, `t2` to `40`; `t2` is not left in place, a single sweep leaves the
function fully folded, and the second sweep folds nothing. -/
theorem C13_two_iterations_counterexample :
    (sweep scenarioB false).folded
        = [(1, Value.ConstantInt ⟨32, 4⟩), (2, Value.ConstantInt ⟨32, 40⟩)]
    ∧ (sweep scenarioB false).Fn = scenarioBFolded
    ∧ (∀ instr ∈ (sweep scenarioB false).Fn.instructions 0, instr.id ≠ 2)
    ∧ (sweep (sweep scenarioB false).Fn true).folded = []
    ∧ ¬ (∃ r l1 l2 rest, myConstantPropagation scenarioB = some r
          ∧ r.trace = l1 :: l2 :: rest ∧ l1 ≠ [] ∧ l2 ≠ []) := by
  refine ⟨by decide, by decide, by decide, by decide, ?_⟩
  rintro ⟨r, l1, l2, rest, hr, htrace, -, h2⟩
  have hrun : myConstantPropagation scenarioB
      = some ⟨true, scenarioBFolded,
          [[(1, Value.ConstantInt ⟨32, 4⟩), (2, Value.ConstantInt ⟨32, 40⟩)], []]⟩ := by
    decide
  rw [hrun] at hr
  cases hr
  simp only [List.cons.injEq] at htrace
  exact h2 htrace.2.1.symm

/-- C13, amended: on `scenarioB` the run performs both folds in its first
fixpoint iteration, `t1` to `4` and then, its operand already redirected, `t2` to
`40`; the second iteration folds nothing and ends the loop; the result of the
first sweep alone is already the fully folded function. -/
theorem C13_chain_folds_in_one_sweep :
    myConstantPropagation scenarioB
        = some ⟨true, scenarioBFolded,
            [[(1, Value.ConstantInt ⟨32, 4⟩), (2, Value.ConstantInt ⟨32, 40⟩)], []]⟩
    ∧ (sweep scenarioB false).Fn = scenarioBFolded
    ∧ (sweep scenarioB false).converged = false
    ∧ (sweep scenarioB false).changed = true
    ∧ (forInstructions 0 3 0 ⟨scenarioB, true, false, []⟩)
        = forInstructions 0 2 0
            ⟨⟨[⟨[⟨2, .Mul, Ty.Integer 32,
                    [Value.ConstantInt ⟨32, 4⟩, Value.ConstantInt ⟨32, 10⟩]⟩,
                  ⟨3, .Other 0, .Other 0, [Value.Instruction 2]⟩], []⟩]⟩,
              false, true, [(1, Value.ConstantInt ⟨32, 4⟩)]⟩
    ∧ (sweep scenarioBFolded true).converged = true
    ∧ (sweep scenarioBFolded true).Fn = scenarioBFolded := by
  decide

/-- C14: when the run returns, no block reachable from the entry block holds an
instruction of one of the thirteen supported opcodes whose operands 0 and 1 are
both integer constants; the reachable blocks are those of the input. -/
theorem C14_fixpoint_postcondition (Fn : Function) :
    ∃ r, myConstantPropagation Fn = some r
      ∧ (∀ b, Reachable r.Fn b ↔ Reachable Fn b)
      ∧ (∀ b instr, Reachable r.Fn b → instr ∈ r.Fn.instructions b →
          instr.Opcode.isSupported = true →
          ¬ (instr.isConstantIntOperand 0 = true ∧ instr.isConstantIntOperand 1 = true))
      ∧ (∀ b instr, Reachable r.Fn b → instr ∈ r.Fn.instructions b → constant instr = none)
      ∧ (sweep r.Fn r.changed).converged = true := by
  obtain ⟨r, init, hr, -, -, hfolds, -, hfix⟩ := myConstantPropagation_spec Fn
  have hreach : ∀ b, Reachable r.Fn b ↔ Reachable Fn b := by
    intro b
    rw [← mem_ReversePostOrderTraversal_iff, ← mem_ReversePostOrderTraversal_iff, hfolds.rpot_eq]
  refine ⟨r, hr, hreach, ?_, ?_, (sweep_converged_iff r.Fn r.changed).mpr hfix⟩
  · intro b instr hb hmem hsup hboth
    exact hfix ((Foldable_iff r.Fn).mpr ⟨b, instr, hb, hmem, hsup, hboth.1, hboth.2⟩)
  · intro b instr hb hmem
    cases hc : constant instr with
    | none => rfl
    | some c =>
      exfalso
      apply hfix
      exact ⟨b, (mem_ReversePostOrderTraversal_iff r.Fn b).mpr hb, instr, hmem, by rw [hc]; rfl⟩

/-! ## Frame -/

theorem map_modify_of_eq {α β : Type} (g : α → β) (f : α → α) (h : ∀ x, g (f x) = g x)
    (l : List α) (n : Nat) : (l.modify f n).map g = l.map g := by
  induction l generalizing n with
  | nil => simp
  | cons hd tl ih =>
    cases n with
    | zero => simp [h]
    | succ n => simp [ih]

theorem FoldStep.step_succs_eq {A B : Function} {e : Nat × Value} (h : FoldStep A e B) :
    B.Blocks.map (fun bb => bb.Succs) = A.Blocks.map (fun bb => bb.Succs) := by
  cases h with
  | mk b i instr c _ _ _ =>
    unfold Function.eraseFromParent Function.replaceAllUsesWith
    simp only
    rw [map_modify_of_eq (fun bb : BasicBlock => bb.Succs)
      (fun bb => { bb with Insts := bb.Insts.eraseIdx i }) (fun x => rfl), List.map_map]
    apply List.map_congr_left
    intro bb _
    rfl

theorem Folds.succs_eq {A B : Function} {log : List (Nat × Value)} (h : Folds A log B) :
    B.Blocks.map (fun bb => bb.Succs) = A.Blocks.map (fun bb => bb.Succs) := by
  induction h with
  | refl _ => rfl
  | step hs _ ih => rw [ih, hs.step_succs_eq]

theorem filter_eraseIdx_of_neg (p : Instruction → Bool) (l : List Instruction) (i : Nat)
    (x : Instruction) (hi : l[i]? = some x) (hp : p x = false) :
    (l.eraseIdx i).filter p = l.filter p := by
  rcases List.getElem?_eq_some_iff.mp hi with ⟨hlt, hget⟩
  have e : l = l.take i ++ x :: l.drop (i + 1) := by
    conv_lhs => rw [← List.take_append_drop i l, List.drop_eq_getElem_cons hlt, hget]
  rw [List.eraseIdx_eq_take_drop_succ]
  conv_rhs => rw [e]
  simp [List.filter_append, List.filter_cons, hp]

/-- One fold leaves the instructions of unsupported opcode of every block in
place and in order. -/
theorem FoldStep.step_filter_unsupported {A B : Function} {j : Nat} {c : Value}
    (h : FoldStep A (j, c) B) (b : Nat) :
    (B.instructions b).filter (fun instr => !instr.Opcode.isSupported)
      = ((A.instructions b).filter (fun instr => !instr.Opcode.isSupported)).map
          (Instruction.replaceUsesOfWith j c) := by
  have hmap : ((A.instructions b).map (Instruction.replaceUsesOfWith j c)).filter
      (fun instr => !instr.Opcode.isSupported)
      = ((A.instructions b).filter (fun instr => !instr.Opcode.isSupported)).map
          (Instruction.replaceUsesOfWith j c) := by
    rw [List.filter_map]
    rfl
  cases h with
  | mk b0 i instr c _ hget hc =>
    rw [Function.instructions_eraseFromParent, Function.instructions_replaceAllUsesWith]
    split
    · rename_i hb
      subst hb
      rw [← hmap]
      apply filter_eraseIdx_of_neg _ _ i (instr.replaceUsesOfWith instr.id c)
      · unfold Function.getInstruction at hget
        rw [List.getElem?_map, hget]
        rfl
      · have hs : (constant instr).isSome = true := by rw [hc]; rfl
        have := ((constant_isSome_iff instr).mp hs).1
        show (!instr.Opcode.isSupported) = false
        rw [this]
        rfl
    · exact hmap

theorem Folds.filter_unsupported {A B : Function} {log : List (Nat × Value)}
    (h : Folds A log B) (b : Nat) :
    (B.instructions b).filter (fun instr => !instr.Opcode.isSupported)
      = ((A.instructions b).filter (fun instr => !instr.Opcode.isSupported)).map
          (Instruction.subst log) := by
  induction h with
  | refl Fn =>
    have e : ((Fn.instructions b).filter (fun instr => !instr.Opcode.isSupported)).map
        (Instruction.subst [])
        = ((Fn.instructions b).filter (fun instr => !instr.Opcode.isSupported)).map
            (fun x => x) :=
      List.map_congr_left (fun x _ => Instruction.substInstr_nil x)
    rw [e, List.map_id']
  | @step A A1 B e log hs _ ih =>
    rcases e with ⟨j, c⟩
    rw [ih, hs.step_filter_unsupported b, List.map_map]
    apply List.map_congr_left
    intro x _
    exact (Instruction.substInstr_cons j c log x hs.label_ne_Instruction).symm

theorem FoldStep.step_removed {A B : Function} {e : Nat × Value} (h : FoldStep A e B) :
    ∃ b i instr, Reachable A b ∧ A.getInstruction b i = some instr ∧ instr.id = e.1
      ∧ instr.Opcode.isSupported = true ∧ instr.isConstantIntOperand 0 = true
      ∧ instr.isConstantIntOperand 1 = true ∧ constant instr = some e.2
      ∧ B = (A.replaceAllUsesWith instr.id e.2).eraseFromParent b i := by
  cases h with
  | mk b i instr c hb hget hc =>
    have hs : (constant instr).isSome = true := by rw [hc]; rfl
    obtain ⟨h1, h2, h3⟩ := (constant_isSome_iff instr).mp hs
    exact ⟨b, i, instr, (mem_ReversePostOrderTraversal_iff A b).mp hb, hget, rfl, h1, h2, h3,
      hc, rfl⟩

/-- C15: the run is a sequence of folds, each of which erases one instruction of
a supported opcode whose operands 0 and 1 are integer constants at that moment
and redirects its uses.  The blocks and their successors are those of the input;
each block keeps a subsequence of its instructions, in order, with the same
identity, opcode and type and with operands changed only where they referred to
a folded instruction; and every instruction of another opcode stays. -/
theorem C15_frame (Fn : Function) :
    (∀ (A B : Function) (e : Nat × Value), FoldStep A e B →
        ∃ b i instr, Reachable A b ∧ A.getInstruction b i = some instr ∧ instr.id = e.1
          ∧ instr.Opcode.isSupported = true ∧ instr.isConstantIntOperand 0 = true
          ∧ instr.isConstantIntOperand 1 = true ∧ constant instr = some e.2
          ∧ B = (A.replaceAllUsesWith instr.id e.2).eraseFromParent b i)
    ∧ ∃ r, myConstantPropagation Fn = some r
      ∧ Folds Fn r.trace.flatten r.Fn
      ∧ r.Fn.Blocks.length = Fn.Blocks.length
      ∧ r.Fn.Blocks.map (fun bb => bb.Succs) = Fn.Blocks.map (fun bb => bb.Succs)
      ∧ (∀ b, ∃ l : List Instruction, l.Sublist (Fn.instructions b)
          ∧ r.Fn.instructions b = l.map (Instruction.subst r.trace.flatten))
      ∧ (∀ b, (r.Fn.instructions b).filter (fun instr => !instr.Opcode.isSupported)
          = ((Fn.instructions b).filter (fun instr => !instr.Opcode.isSupported)).map
              (Instruction.subst r.trace.flatten))
      ∧ (∀ instr : Instruction,
          (Instruction.subst r.trace.flatten instr).id = instr.id
          ∧ (Instruction.subst r.trace.flatten instr).Opcode = instr.Opcode
          ∧ (Instruction.subst r.trace.flatten instr).Ty = instr.Ty
          ∧ (Instruction.subst r.trace.flatten instr).Operands
              = instr.Operands.map (Value.subst r.trace.flatten))
      ∧ (∀ v : Value, (∀ j c, v = Value.Instruction j → (j, c) ∉ r.trace.flatten) →
          Value.subst r.trace.flatten v = v) := by
  refine ⟨fun A B e h => h.step_removed, ?_⟩
  obtain ⟨r, init, hr, htrace, -, hfolds, -, -⟩ := myConstantPropagation_spec Fn
  have hlog : r.trace.flatten = init.flatten := by rw [htrace]; exact flatten_append_nil init
  refine ⟨r, hr, ?_⟩
  rw [hlog]
  refine ⟨hfolds, hfolds.length_eq, hfolds.succs_eq, fun b => hfolds.instructions_sublist b,
    fun b => hfolds.filter_unsupported b, fun instr => ⟨rfl, rfl, rfl, rfl⟩, ?_⟩
  intro v hv
  cases v with
  | Instruction j =>
    simp only [Value.subst, lookup_none_of_not_mem _ j (fun c => hv j c rfl)]
  | _ => rfl

/-! ## Unreachable blocks -/

theorem FoldStep.step_instructions_of_not_mem {A B : Function} {j : Nat} {c : Value}
    (h : FoldStep A (j, c) B) (b : Nat) (hb : b ∉ ReversePostOrderTraversal A) :
    B.instructions b = (A.instructions b).map (Instruction.replaceUsesOfWith j c) := by
  cases h with
  | mk b0 i instr c hb0 _ _ =>
    rw [Function.instructions_eraseFromParent, Function.instructions_replaceAllUsesWith]
    have hne : b0 ≠ b := fun e => hb (e ▸ hb0)
    rw [if_neg hne]

theorem Folds.instructions_of_not_mem {A B : Function} {log : List (Nat × Value)}
    (h : Folds A log B) (b : Nat) (hb : b ∉ ReversePostOrderTraversal A) :
    B.instructions b = (A.instructions b).map (Instruction.subst log) := by
  induction h with
  | refl Fn =>
    have e : (Fn.instructions b).map (Instruction.subst [])
        = (Fn.instructions b).map (fun x => x) :=
      List.map_congr_left (fun x _ => Instruction.substInstr_nil x)
    rw [e, List.map_id']
  | @step A A1 B e log hs _ ih =>
    rcases e with ⟨j, c⟩
    rw [ih (by rw [hs.step_rpot_eq]; exact hb), hs.step_instructions_of_not_mem b hb,
      List.map_map]
    apply List.map_congr_left
    intro x _
    exact (Instruction.substInstr_cons j c log x hs.label_ne_Instruction).symm

/-- C16: a block that is not reachable from the entry block is not traversed: the
run folds and removes none of its instructions, also not a supported binary
instruction with two integer-constant operands; the block keeps exactly its
instructions, in order, with operands changed only where they referred to a
folded instruction.  Every fold happens in a reachable block. -/
theorem C16_unreachable_blocks_excluded (Fn : Function) (b : Nat) (hb : ¬ Reachable Fn b) :
    (∃ r, myConstantPropagation Fn = some r
      ∧ r.Fn.instructions b = (Fn.instructions b).map (Instruction.subst r.trace.flatten)
      ∧ (r.Fn.instructions b).map (fun instr => (instr.id, instr.Opcode, instr.Ty))
          = (Fn.instructions b).map (fun instr => (instr.id, instr.Opcode, instr.Ty))
      ∧ (Fn.UniqueIds → ∀ instr ∈ Fn.instructions b, ∀ c, (instr.id, c) ∉ r.trace.flatten))
    ∧ (∀ (A B : Function) (e : Nat × Value), FoldStep A e B →
        ∃ b' i instr, Reachable A b' ∧ A.getInstruction b' i = some instr ∧ instr.id = e.1
          ∧ B = (A.replaceAllUsesWith instr.id e.2).eraseFromParent b' i)
    ∧ constant (binop 1 .Add 32 1 2) = some (Value.ConstantInt ⟨32, 3⟩)
    ∧ myConstantPropagation scenarioUnreachable = some ⟨false, scenarioUnreachable, [[]]⟩ := by
  refine ⟨?_, ?_, by decide, by decide⟩
  · obtain ⟨r, init, hr, htrace, -, hfolds, -, -⟩ := myConstantPropagation_spec Fn
    have hlog : r.trace.flatten = init.flatten := by rw [htrace]; exact flatten_append_nil init
    have hnot : b ∉ ReversePostOrderTraversal Fn :=
      fun h => hb ((mem_ReversePostOrderTraversal_iff Fn b).mp h)
    have hinstr := hfolds.instructions_of_not_mem b hnot
    refine ⟨r, hr, ?_⟩
    rw [hlog]
    refine ⟨hinstr, ?_, ?_⟩
    · rw [hinstr, List.map_map]
      rfl
    · intro hU instr hmem c hc
      obtain ⟨-, -, hgone⟩ := hfolds.nodup hU
      apply hgone _ (List.mem_map.mpr ⟨_, hc, rfl⟩)
      apply mem_ids_of_mem_instructions r.Fn b (Instruction.subst init.flatten instr)
      rw [hinstr]
      exact List.mem_map.mpr ⟨instr, hmem, rfl⟩
  · intro A B e h
    obtain ⟨b', i, instr, h1, h2, h3, -, -, -, -, h4⟩ := h.step_removed
    exact ⟨b', i, instr, h1, h2, h3, h4⟩

theorem C16_unreachable_blocks_excluded_witness :
    ∃ r, myConstantPropagation scenarioUnreachable = some r
      ∧ r.Fn.instructions 1
          = (scenarioUnreachable.instructions 1).map (Instruction.subst r.trace.flatten) := by
  have h := C16_unreachable_blocks_excluded scenarioUnreachable 1
    (fun hr => absurd ((mem_ReversePostOrderTraversal_iff scenarioUnreachable 1).mpr hr)
      (by decide))
  obtain ⟨r, hr, h1, -, -⟩ := h.1
  exact ⟨r, hr, h1⟩

/-! ## Widths -/

theorem APInt.clearUnusedBits_lt (w v : Nat) :
    (APInt.clearUnusedBits w v).VAL < 2 ^ (APInt.clearUnusedBits w v).BitWidth :=
  Nat.mod_lt _ (by positivity)

theorem APInt.neg_lt (a : APInt) : a.neg.VAL < 2 ^ a.neg.BitWidth :=
  APInt.clearUnusedBits_lt _ _

theorem APInt.sdiv_BitWidth (a b : APInt) : (a.sdiv b).BitWidth = a.BitWidth := by
  unfold APInt.sdiv
  split <;> split <;> rfl

theorem APInt.srem_BitWidth (a b : APInt) : (a.srem b).BitWidth = a.BitWidth := by
  unfold APInt.srem
  split <;> split <;> rfl

theorem APInt.sdiv_lt (a b : APInt) (ha : a.VAL < 2 ^ a.BitWidth) :
    (a.sdiv b).VAL < 2 ^ (a.sdiv b).BitWidth := by
  unfold APInt.sdiv
  split
  · split
    · exact lt_of_le_of_lt (Nat.div_le_self _ _) (APInt.neg_lt a)
    · exact APInt.neg_lt _
  · split
    · exact APInt.neg_lt _
    · exact lt_of_le_of_lt (Nat.div_le_self _ _) ha

theorem APInt.srem_lt (a b : APInt) (ha : a.VAL < 2 ^ a.BitWidth) :
    (a.srem b).VAL < 2 ^ (a.srem b).BitWidth := by
  unfold APInt.srem
  split
  · split
    · exact APInt.neg_lt _
    · exact APInt.neg_lt _
  · split
    · exact lt_of_le_of_lt (Nat.mod_le _ _) ha
    · exact lt_of_le_of_lt (Nat.mod_le _ _) ha

theorem APInt.shl_lt (a b : APInt) : (a.shl b).VAL < 2 ^ (a.shl b).BitWidth := by
  unfold APInt.shl
  simp only
  split <;> exact APInt.clearUnusedBits_lt _ _

theorem APInt.lshr_lt (a b : APInt) (ha : a.VAL < 2 ^ a.BitWidth) :
    (a.lshr b).VAL < 2 ^ (a.lshr b).BitWidth := by
  unfold APInt.lshr
  simp only
  split
  · show 0 < 2 ^ a.BitWidth
    positivity
  · show a.VAL >>> _ < 2 ^ a.BitWidth
    rw [Nat.shiftRight_eq_div_pow]
    exact lt_of_le_of_lt (Nat.div_le_self _ _) ha

theorem APInt.ashr_lt (a b : APInt) : (a.ashr b).VAL < 2 ^ (a.ashr b).BitWidth := by
  unfold APInt.ashr
  simp only
  exact toUnsigned_lt a.BitWidth _

/-- What `constant` gives for two integer-constant operands: the marker at the
type of the instruction, or an integer constant of the width of operand 0 whose
value fits that width when both operands fit it. -/
theorem constant_width (instr : Instruction) (c : Value) (a b : APInt)
    (hc : constant instr = some c)
    (h0 : instr.getOperand 0 = some (Value.ConstantInt a))
    (h1 : instr.getOperand 1 = some (Value.ConstantInt b)) :
    c = Value.PoisonValue instr.Ty
    ∨ ∃ V, c = Value.ConstantInt V ∧ V.BitWidth = a.BitWidth
        ∧ (a.VAL < 2 ^ a.BitWidth → b.VAL < 2 ^ a.BitWidth → V.VAL < 2 ^ a.BitWidth) := by
  rcases instr with ⟨id, op, ty, ops⟩
  cases op <;>
    simp only [constant, Instruction.isBinaryOp, evalBinaryInstruction_eq_some, ConstantInt.get,
      PoisonValue.get, Bool.not_true, Bool.not_false, if_true, if_false, Bool.false_eq_true,
      reduceCtorEq] at hc
  all_goals
    obtain ⟨r1, r2, e0, e1, rfl⟩ := hc
    rw [h0] at e0
    rw [h1] at e1
    cases e0
    cases e1
  · exact Or.inr ⟨_, rfl, rfl, fun _ _ => APInt.clearUnusedBits_lt _ _⟩
  · exact Or.inr ⟨_, rfl, rfl, fun _ _ => APInt.clearUnusedBits_lt _ _⟩
  · exact Or.inr ⟨_, rfl, rfl, fun _ hb => Nat.and_lt_two_pow _ hb⟩
  · exact Or.inr ⟨_, rfl, rfl, fun ha hb => Nat.or_lt_two_pow ha hb⟩
  · exact Or.inr ⟨_, rfl, rfl, fun ha hb => Nat.xor_lt_two_pow ha hb⟩
  · exact Or.inr ⟨_, rfl, rfl, fun _ _ => APInt.clearUnusedBits_lt _ _⟩
  · split
    · exact Or.inl rfl
    · exact Or.inr ⟨_, rfl, APInt.sdiv_BitWidth _ _, fun ha _ => by
        have := APInt.sdiv_lt a b ha
        rwa [APInt.sdiv_BitWidth] at this⟩
  · split
    · exact Or.inl rfl
    · exact Or.inr ⟨_, rfl, rfl, fun ha _ => lt_of_le_of_lt (Nat.div_le_self _ _) ha⟩
  · exact Or.inr ⟨_, rfl, APInt.lshr_BitWidth _ _, fun ha _ => by
      have := APInt.lshr_lt a b ha
      rwa [APInt.lshr_BitWidth] at this⟩
  · exact Or.inr ⟨_, rfl, APInt.shl_BitWidth _ _, fun _ _ => by
      have := APInt.shl_lt a b
      rwa [APInt.shl_BitWidth] at this⟩
  · exact Or.inr ⟨_, rfl, APInt.ashr_BitWidth _ _, fun _ _ => by
      have := APInt.ashr_lt a b
      rwa [APInt.ashr_BitWidth] at this⟩
  · split
    · exact Or.inl rfl
    · exact Or.inr ⟨_, rfl, APInt.srem_BitWidth _ _, fun ha _ => by
        have := APInt.srem_lt a b ha
        rwa [APInt.srem_BitWidth] at this⟩
  · split
    · exact Or.inl rfl
    · exact Or.inr ⟨_, rfl, rfl, fun ha _ => lt_of_le_of_lt (Nat.mod_le _ _) ha⟩
theorem Value.HasType_replace {A B : Function} (T : Ty) (v : Value)
    (hsub : ∀ b, ∀ instr ∈ B.instructions b, ∃ instr0 ∈ A.instructions b,
      instr0.id = instr.id ∧ instr0.Ty = instr.Ty)
    (h : Value.HasType A T v) : Value.HasType B T v := by
  cases v with
  | Instruction j =>
    intro b instr hmem hid
    obtain ⟨instr0, hmem0, hid0, hty0⟩ := hsub b instr hmem
    rw [← hty0]
    exact h b instr0 hmem0 (hid0.trans hid)
  | ConstantInt V => exact h
  | PoisonValue T' => exact h
  | Argument n => trivial
  | Other n => trivial

theorem FoldStep.step_origin {A B : Function} {j : Nat} {c : Value} (h : FoldStep A (j, c) B)
    (b : Nat) (instr : Instruction) (hmem : instr ∈ B.instructions b) :
    ∃ instr0 ∈ A.instructions b, instr = instr0.replaceUsesOfWith j c := by
  obtain ⟨l, hl, he⟩ := h.step_instructions_sublist b
  rw [he] at hmem
  obtain ⟨instr0, hmem0, rfl⟩ := List.mem_map.mp hmem
  exact ⟨instr0, hl.subset hmem0, rfl⟩

/-- At a fold of a well-typed function the folded instruction has an integer
type `iw`, both operands are integer constants of width `w`, and the value it is
folded to has type `iw`. -/
theorem FoldStep.step_typed {A B : Function} {j : Nat} {c : Value} (h : FoldStep A (j, c) B)
    (hA : A.WellTyped) :
    ∃ b i instr w a0 a1, A.getInstruction b i = some instr ∧ instr.id = j
      ∧ instr.Ty = Ty.Integer w
      ∧ instr.getOperand 0 = some (Value.ConstantInt a0)
      ∧ instr.getOperand 1 = some (Value.ConstantInt a1)
      ∧ a0.BitWidth = w ∧ a1.BitWidth = w
      ∧ c.getType = some (Ty.Integer w) := by
  have hstep := h
  cases h with
  | mk b i instr c _ hget hc =>
    have hs : (constant instr).isSome = true := by rw [hc]; rfl
    obtain ⟨hsup, h0, h1⟩ := (constant_isSome_iff instr).mp hs
    obtain ⟨a0, e0⟩ := (isConstantIntOperand_iff instr 0).mp h0
    obtain ⟨a1, e1⟩ := (isConstantIntOperand_iff instr 1).mp h1
    have hmem : instr ∈ A.instructions b := List.getElem?_mem hget
    have t0 : instr.Ty = Ty.Integer a0.BitWidth := hA b instr hmem hsup 0 (by omega) _ e0
    have t1 : instr.Ty = Ty.Integer a1.BitWidth := hA b instr hmem hsup 1 (by omega) _ e1
    have hw : a1.BitWidth = a0.BitWidth := by
      rw [t0] at t1
      exact (Ty.Integer.inj t1).symm
    refine ⟨b, i, instr, a0.BitWidth, a0, a1, hget, rfl, t0, e0, e1, rfl, hw, ?_⟩
    rcases constant_width instr c a0 a1 hc e0 e1 with rfl | ⟨V, rfl, hV, -⟩
    · show some instr.Ty = _
      rw [t0]
    · show some (Ty.Integer V.BitWidth) = _
      rw [hV]

theorem FoldStep.step_WellTyped {A B : Function} {j : Nat} {c : Value}
    (h : FoldStep A (j, c) B) (hA : A.WellTyped) : B.WellTyped := by
  obtain ⟨b0, i0, instr0, w, a0, a1, hget0, hid0, hty0, -, -, -, -, hct⟩ := h.step_typed hA
  have hmem0 : instr0 ∈ A.instructions b0 := List.getElem?_mem hget0
  have hsub : ∀ b, ∀ instr ∈ B.instructions b, ∃ x ∈ A.instructions b,
      x.id = instr.id ∧ x.Ty = instr.Ty := by
    intro b instr hmem
    obtain ⟨x, hx, rfl⟩ := h.step_origin b instr hmem
    exact ⟨x, hx, rfl, rfl⟩
  intro b instr hmem hsup k hk v hv
  obtain ⟨x, hx, rfl⟩ := h.step_origin b instr hmem
  have hget : (x.replaceUsesOfWith j c).getOperand k
      = (x.getOperand k).map (Value.replaceUsesOfWith j c) := by
    unfold Instruction.replaceUsesOfWith Instruction.getOperand
    simp only [List.getElem?_map]
  rw [hget] at hv
  cases hxo : x.getOperand k with
  | none => rw [hxo] at hv; cases hv
  | some v0 =>
    rw [hxo] at hv
    simp only [Option.map_some', Option.some.injEq] at hv
    subst hv
    have hT : Value.HasType A x.Ty v0 := hA b x hx hsup k hk v0 hxo
    show Value.HasType B x.Ty (Value.replaceUsesOfWith j c v0)
    by_cases hv0 : v0 = Value.Instruction j
    · subst hv0
      rw [Value.replaceUsesOfWith_self]
      have hx0 : instr0.Ty = x.Ty := hT b0 instr0 hmem0 hid0
      rw [hty0] at hx0
      cases c with
      | ConstantInt V =>
        simp only [Value.getType, Option.some.injEq] at hct
        show x.Ty = Ty.Integer V.BitWidth
        rw [hct, hx0]
      | PoisonValue T =>
        simp only [Value.getType, Option.some.injEq] at hct
        show x.Ty = T
        rw [hct, hx0]
      | Argument n => trivial
      | Instruction n => simp [Value.getType] at hct
      | Other n => trivial
    · rw [Value.replaceUsesOfWith_of_ne j c v0 hv0]
      exact Value.HasType_replace x.Ty v0 hsub hT

/-- A run from a well-typed function ends in a well-typed function, and every
recorded value has the type of the instruction it replaced. -/
theorem Folds.WellTyped {A B : Function} {log : List (Nat × Value)} (h : Folds A log B)
    (hA : A.WellTyped) :
    B.WellTyped ∧ ∀ j c, (j, c) ∈ log →
      ∃ b instr, instr ∈ A.instructions b ∧ instr.id = j ∧ c.getType = some instr.Ty := by
  induction h with
  | refl _ => exact ⟨hA, fun j c hmem => by cases hmem⟩
  | @step A A1 B e log hs _ ih =>
    rcases e with ⟨j0, c0⟩
    obtain ⟨hB, hlog⟩ := ih (hs.step_WellTyped hA)
    refine ⟨hB, ?_⟩
    intro j c hmem
    rcases List.mem_cons.mp hmem with heq | htl
    · cases heq
      obtain ⟨b, i, instr, w, a0, a1, hget, hid, hty, -, -, -, -, hct⟩ := hs.step_typed hA
      exact ⟨b, instr, List.getElem?_mem hget, hid, by rw [hct, hty]⟩
    · obtain ⟨b, instr, hmem1, hid, hct⟩ := hlog j c htl
      obtain ⟨x, hx, rfl⟩ := hs.step_origin b instr hmem1
      exact ⟨b, x, hx, hid, hct⟩

/-- C18: a supported binary instruction of type `iw` whose operands are two
integer constants of width `w` folds to a value of type `iw`: a numeric result
is an integer constant of width exactly `w` (with a value that fits when the
operands fit), and the marker is created at the type of the instruction.  So at
every fold of a well-typed function the operands of the folded instruction have
the width of the instruction, the value recorded has the type of the
instruction it replaces, and the function stays well-typed. -/
theorem C18_width_preserved (instr : Instruction) (w : Nat) (a b : APInt)
    (hsup : instr.Opcode.isSupported = true) (hty : instr.Ty = Ty.Integer w)
    (h0 : instr.getOperand 0 = some (Value.ConstantInt a))
    (h1 : instr.getOperand 1 = some (Value.ConstantInt b))
    (ha : a.BitWidth = w) (hb : b.BitWidth = w) :
    (∃ c, constant instr = some c
      ∧ c.getType = some (Ty.Integer w)
      ∧ (c = Value.PoisonValue (Ty.Integer w)
          ∨ ∃ V, c = Value.ConstantInt V ∧ V.BitWidth = w
              ∧ (a.VAL < 2 ^ a.BitWidth → b.VAL < 2 ^ b.BitWidth →
                  V.VAL < 2 ^ V.BitWidth)))
    ∧ (∀ (A B : Function) (j : Nat) (c : Value), FoldStep A (j, c) B → A.WellTyped →
        B.WellTyped
        ∧ ∃ b' i instr' w' a0 a1, A.getInstruction b' i = some instr' ∧ instr'.id = j
            ∧ instr'.Ty = Ty.Integer w'
            ∧ instr'.getOperand 0 = some (Value.ConstantInt a0)
            ∧ instr'.getOperand 1 = some (Value.ConstantInt a1)
            ∧ a0.BitWidth = w' ∧ a1.BitWidth = w'
            ∧ c.getType = some (Ty.Integer w'))
    ∧ (∀ Fn : Function, Fn.WellTyped →
        ∃ r, myConstantPropagation Fn = some r ∧ r.Fn.WellTyped
          ∧ ∀ j c, (j, c) ∈ r.trace.flatten →
              ∃ b' instr', instr' ∈ Fn.instructions b' ∧ instr'.id = j
                ∧ c.getType = some instr'.Ty) := by
  refine ⟨?_, fun A B j c h hA => ⟨h.step_WellTyped hA, h.step_typed hA⟩, ?_⟩
  · have hs : (constant instr).isSome = true :=
      (constant_isSome_iff instr).mpr
        ⟨hsup, (isConstantIntOperand_iff instr 0).mpr ⟨a, h0⟩,
          (isConstantIntOperand_iff instr 1).mpr ⟨b, h1⟩⟩
    obtain ⟨c, hc⟩ := Option.isSome_iff_exists.mp hs
    refine ⟨c, hc, ?_⟩
    rcases constant_width instr c a b hc h0 h1 with rfl | ⟨V, rfl, hV, hfit⟩
    · rw [hty]
      exact ⟨rfl, Or.inl rfl⟩
    · have hVw : V.BitWidth = w := hV.trans ha
      refine ⟨?_, Or.inr ⟨V, rfl, hVw, ?_⟩⟩
      · show some (Ty.Integer V.BitWidth) = _
        rw [hVw]
      · intro hfa hfb
        rw [hV]
        apply hfit hfa
        rw [ha, ← hb]
        exact hfb
  · intro Fn hFn
    obtain ⟨r, init, hr, htrace, -, hfolds, -, -⟩ := myConstantPropagation_spec Fn
    have hlog : r.trace.flatten = init.flatten := by rw [htrace]; exact flatten_append_nil init
    obtain ⟨hB, hl⟩ := hfolds.WellTyped hFn
    refine ⟨r, hr, hB, ?_⟩
    rw [hlog]
    exact hl

theorem C18_width_preserved_witness :
    ∃ c, constant (binop 1 .SDiv 8 249 2) = some c ∧ c.getType = some (Ty.Integer 8) := by
  have h := C18_width_preserved (binop 1 .SDiv 8 249 2) 8 ⟨8, 249⟩ ⟨8, 2⟩ (by decide) rfl rfl rfl
    rfl rfl
  obtain ⟨c, hc, ht, -⟩ := h.1
  exact ⟨c, hc, ht⟩

/-! ## With distinct identities the folds decide the result -/

theorem Function.instructions_eq_of_getElem? (Fn : Function) (b : Nat) (bb : BasicBlock)
    (h : Fn.Blocks[b]? = some bb) : Fn.instructions b = bb.Insts := by
  unfold Function.instructions
  rw [h]

theorem exists_block_of_mem_instructions (Fn : Function) (b : Nat) (instr : Instruction)
    (h : instr ∈ Fn.instructions b) :
    ∃ bb, Fn.Blocks[b]? = some bb ∧ instr ∈ bb.Insts := by
  unfold Function.instructions at h
  cases hb : Fn.Blocks[b]? with
  | none => rw [hb] at h; cases h
  | some bb =>
    rw [hb] at h
    exact ⟨bb, rfl, h⟩

theorem block_ids_nodup (Fn : Function) (hU : Fn.UniqueIds) (b : Nat) :
    ((Fn.instructions b).map (fun instr => instr.id)).Nodup := by
  unfold Function.UniqueIds Function.ids at hU
  rw [List.nodup_flatten] at hU
  unfold Function.instructions
  cases hb : Fn.Blocks[b]? with
  | none => exact List.nodup_nil
  | some bb =>
    exact hU.1 _ (List.mem_map.mpr ⟨bb, List.getElem?_mem hb, rfl⟩)

theorem ids_disjoint_of_lt (Fn : Function) (hU : Fn.UniqueIds) (b b' : Nat) (hlt : b < b')
    (x y : Instruction) (hx : x ∈ Fn.instructions b) (hy : y ∈ Fn.instructions b') :
    x.id ≠ y.id := by
  unfold Function.UniqueIds Function.ids at hU
  rw [List.nodup_flatten] at hU
  obtain ⟨bb, hbb, hxin⟩ := exists_block_of_mem_instructions Fn b x hx
  obtain ⟨bb', hbb', hyin⟩ := exists_block_of_mem_instructions Fn b' y hy
  rcases List.getElem?_eq_some_iff.mp hbb with ⟨h1, e1⟩
  rcases List.getElem?_eq_some_iff.mp hbb' with ⟨h2, e2⟩
  have hp := List.pairwise_iff_getElem.mp hU.2 b b' (by simpa using h1) (by simpa using h2) hlt
  simp only [List.getElem_map, e1, e2] at hp
  intro e
  exact (List.disjoint_left.mp hp) (List.mem_map.mpr ⟨x, hxin, rfl⟩)
    (List.mem_map.mpr ⟨y, hyin, e.symm⟩)

theorem ids_disjoint_of_ne (Fn : Function) (hU : Fn.UniqueIds) (b b' : Nat) (hne : b ≠ b')
    (x y : Instruction) (hx : x ∈ Fn.instructions b) (hy : y ∈ Fn.instructions b') :
    x.id ≠ y.id := by
  rcases Nat.lt_or_gt_of_ne hne with h | h
  · exact ids_disjoint_of_lt Fn hU b b' h x y hx hy
  · exact fun e => ids_disjoint_of_lt Fn hU b' b h y x hy hx e.symm

theorem eraseIdx_eq_filter (l : List Instruction)
    (hn : (l.map (fun instr => instr.id)).Nodup) (i : Nat) (x : Instruction)
    (hi : l[i]? = some x) :
    l.eraseIdx i = l.filter (fun y => decide (y.id ≠ x.id)) := by
  induction l generalizing i with
  | nil => simp at hi
  | cons hd tl ih =>
    simp only [List.map_cons, List.nodup_cons] at hn
    cases i with
    | zero =>
      simp only [List.getElem?_cons_zero, Option.some.injEq] at hi
      subst hi
      simp only [List.eraseIdx_cons_zero, List.filter_cons, ne_eq, not_true_eq_false,
        decide_False, Bool.false_eq_true, if_false]
      symm
      rw [List.filter_eq_self]
      intro y hy
      simp only [ne_eq, decide_eq_true_eq]
      intro e
      exact hn.1 (List.mem_map.mpr ⟨y, hy, e⟩)
    | succ i =>
      simp only [List.getElem?_cons_succ] at hi
      have hne : hd.id ≠ x.id := by
        intro e
        exact hn.1 (List.mem_map.mpr ⟨x, List.getElem?_mem hi, e.symm⟩)
      simp only [List.eraseIdx_cons_succ, List.filter_cons, ne_eq, hne, not_false_eq_true,
        decide_True, if_true]
      rw [ih hn.2 i hi]

theorem FoldStep.step_UniqueIds {A B : Function} {e : Nat × Value} (h : FoldStep A e B)
    (hA : A.UniqueIds) : B.UniqueIds := by
  rcases e with ⟨j, c⟩
  obtain ⟨pre, post, h1, h2⟩ := h.ids
  unfold Function.UniqueIds at hA ⊢
  rw [h1] at hA
  rw [h2]
  exact List.Nodup.sublist (List.Sublist.append_left (List.sublist_cons_self _ _) pre) hA

/-- With distinct identities a fold removes from each block exactly the
instructions with the folded identity. -/
theorem FoldStep.step_instructions_filter {A B : Function} {j : Nat} {c : Value}
    (h : FoldStep A (j, c) B) (hA : A.UniqueIds) (b : Nat) :
    B.instructions b
      = ((A.instructions b).filter (fun y => decide (y.id ≠ j))).map
          (Instruction.replaceUsesOfWith j c) := by
  cases h with
  | mk b0 i instr c _ hget _ =>
    rw [Function.instructions_eraseFromParent, Function.instructions_replaceAllUsesWith]
    unfold Function.getInstruction at hget
    split
    · rename_i hb
      subst hb
      rw [← eraseIdx_eq_filter (A.instructions b0) (block_ids_nodup A hA b0) i instr hget,
        List.eraseIdx_eq_take_drop_succ, List.eraseIdx_eq_take_drop_succ, List.map_append,
        List.map_take, List.map_drop]
    · rename_i hb
      congr 1
      symm
      rw [List.filter_eq_self]
      intro y hy
      simp only [ne_eq, decide_eq_true_eq]
      exact ids_disjoint_of_ne A hA b b0 (fun e => hb e.symm) y instr hy
        (List.getElem?_mem hget)

/-- With distinct identities the run leaves in each block exactly the
instructions whose identity is not recorded as folded, with their operands
redirected according to the record. -/
theorem Folds.instructions_filter {A B : Function} {log : List (Nat × Value)}
    (h : Folds A log B) (hA : A.UniqueIds) (b : Nat) :
    B.instructions b
      = ((A.instructions b).filter (fun y => decide (y.id ∉ log.map Prod.fst))).map
          (Instruction.subst log) := by
  induction h with
  | refl Fn =>
    have e : (Fn.instructions b).filter (fun y => decide (y.id ∉ ([] : List (Nat × Value)).map
        Prod.fst)) = Fn.instructions b := by
      rw [List.filter_eq_self]
      intro y _
      simp
    rw [e]
    have e2 : (Fn.instructions b).map (Instruction.subst [])
        = (Fn.instructions b).map (fun x => x) :=
      List.map_congr_left (fun x _ => Instruction.substInstr_nil x)
    rw [e2, List.map_id']
  | @step A A1 B e log hs _ ih =>
    rcases e with ⟨j, c⟩
    rw [ih (hs.step_UniqueIds hA), hs.step_instructions_filter hA b, List.filter_map,
      List.filter_filter, List.map_map]
    have e1 : (A.instructions b).filter
        (fun a => ((fun y => decide (y.id ∉ log.map Prod.fst))
          ∘ Instruction.replaceUsesOfWith j c) a && decide (a.id ≠ j))
        = (A.instructions b).filter
            (fun y => decide (y.id ∉ ((j, c) :: log).map Prod.fst)) := by
      apply List.filter_congr
      intro y _
      show (decide (y.id ∉ log.map Prod.fst) && decide (y.id ≠ j)) = _
      by_cases h1 : y.id = j <;> by_cases h2 : y.id ∈ log.map Prod.fst <;> simp [h1, h2]
    rw [e1]
    apply List.map_congr_left
    intro x _
    exact (Instruction.substInstr_cons j c log x hs.label_ne_Instruction).symm

theorem mem_of_lookup_eq_some (log : List (Nat × Value)) (j : Nat) (c : Value)
    (h : log.lookup j = some c) : (j, c) ∈ log := by
  induction log with
  | nil => simp [List.lookup] at h
  | cons e log ih =>
    rcases e with ⟨k, d⟩
    simp only [List.lookup] at h
    cases hb : (j == k) with
    | true =>
      rw [hb] at h
      simp only [Option.some.injEq] at h
      have : j = k := by simpa using hb
      subst this
      subst h
      exact List.mem_cons_self _ _
    | false =>
      rw [hb] at h
      exact List.mem_cons_of_mem _ (ih h)

/-- Every recorded fold is the fold of an instruction of a reachable block of the
input, on the operands the earlier folds had given it. -/
theorem Folds.entry_origin {A B : Function} {log : List (Nat × Value)} (h : Folds A log B)
    (pre post : List (Nat × Value)) (j : Nat) (c : Value)
    (hlog : log = pre ++ (j, c) :: post) :
    ∃ b instr, Reachable A b ∧ instr ∈ A.instructions b ∧ instr.id = j
      ∧ constant (Instruction.subst pre instr) = some c := by
  induction h generalizing pre with
  | refl _ =>
    exfalso
    have := congrArg List.length hlog
    simp at this
    omega
  | @step A A1 B e log hs hrest ih =>
    rcases e with ⟨j0, c0⟩
    cases pre with
    | nil =>
      simp only [List.nil_append, List.cons.injEq, Prod.mk.injEq] at hlog
      obtain ⟨⟨rfl, rfl⟩, -⟩ := hlog
      obtain ⟨b, i, instr, hb, hget, hid, -, -, -, hc, -⟩ := hs.step_removed
      refine ⟨b, instr, hb, List.getElem?_mem hget, hid, ?_⟩
      rw [Instruction.substInstr_nil]
      exact hc
    | cons e0 pre =>
      simp only [List.cons_append, List.cons.injEq] at hlog
      obtain ⟨rfl, hlog⟩ := hlog
      obtain ⟨b, instr1, hb, hmem1, hid, hc⟩ := ih pre hlog
      obtain ⟨x, hx, rfl⟩ := hs.step_origin b instr1 hmem1
      refine ⟨b, x, ?_, hx, hid, ?_⟩
      · rw [← mem_ReversePostOrderTraversal_iff] at hb ⊢
        rw [← hs.step_rpot_eq]
        exact hb
      · rw [Instruction.substInstr_cons j0 c0 pre x hs.label_ne_Instruction]
        exact hc

theorem constant_of_operands (instr : Instruction) (a0 a1 : APInt)
    (h0 : instr.getOperand 0 = some (Value.ConstantInt a0))
    (h1 : instr.getOperand 1 = some (Value.ConstantInt a1)) :
    constant instr
      = constant ⟨instr.id, instr.Opcode, instr.Ty,
          [Value.ConstantInt a0, Value.ConstantInt a1]⟩ := by
  apply constant_congr
  · rfl
  · rfl
  · rw [h0]; rfl
  · rw [h1]; rfl

/-- Soundness of the record: every recorded fold belongs to the least set. -/
theorem Folds.entry_FoldsTo {A B : Function} {log : List (Nat × Value)} (h : Folds A log B)
    (n : Nat) :
    ∀ (pre post : List (Nat × Value)) (j : Nat) (c : Value), pre.length = n →
      log = pre ++ (j, c) :: post → FoldsTo A j c := by
  induction n using Nat.strong_induction_on with
  | _ n ih =>
    intro pre post j c hlen hlog
    obtain ⟨b, instr, hb, hmem, hid, hc⟩ := h.entry_origin pre post j c hlog
    obtain ⟨V0, e0⟩ := constant_some_operand _ c 0 (by omega) hc
    obtain ⟨V1, e1⟩ := constant_some_operand _ c 1 (by omega) hc
    have hc' := hc
    rw [constant_of_operands _ V0 V1 e0 e1] at hc'
    rw [Instruction.getOperand_subst] at e0 e1
    have resolve : ∀ (v : Value) (V : APInt), Value.subst pre v = Value.ConstantInt V →
        Resolves A v V := by
      intro v V hv
      cases v with
      | ConstantInt W =>
        simp only [Value.subst, Value.ConstantInt.injEq] at hv
        subst hv
        exact Resolves.const W
      | Instruction j' =>
        simp only [Value.subst] at hv
        cases hl : pre.lookup j' with
        | none => rw [hl] at hv; simp at hv
        | some d =>
          rw [hl] at hv
          simp only at hv
          subst hv
          have hin := mem_of_lookup_eq_some pre j' _ hl
          obtain ⟨p1, p2, hp⟩ := List.append_of_mem hin
          have hlt : p1.length < n := by
            rw [← hlen, hp]
            simp
          have hlog' : log = p1 ++ (j', Value.ConstantInt V) :: (p2 ++ (j, c) :: post) := by
            rw [hlog, hp]
            simp
          obtain ⟨b', instr', v0, v1, a0, a1, hb', hmem', hid', g0, g1, r0, r1, hcc⟩ :=
            ih p1.length hlt p1 _ j' _ rfl hlog'
          rw [← hid']
          exact Resolves.folded b' instr' v0 v1 a0 a1 V hb' hmem' g0 g1 r0 r1 hcc
      | PoisonValue T => simp [Value.subst] at hv
      | Argument k => simp [Value.subst] at hv
      | Other k => simp [Value.subst] at hv
    cases g0 : instr.getOperand 0 with
    | none => rw [g0] at e0; cases e0
    | some v0 =>
      cases g1 : instr.getOperand 1 with
      | none => rw [g1] at e1; cases e1
      | some v1 =>
        rw [g0] at e0
        rw [g1] at e1
        simp only [Option.map_some', Option.some.injEq] at e0 e1
        exact ⟨b, instr, v0, v1, V0, V1, hb, hmem, hid, g0, g1, resolve v0 V0 e0,
          resolve v1 V1 e1, hc'⟩

theorem Folds.mem_FoldsTo {A B : Function} {log : List (Nat × Value)} (h : Folds A log B)
    (j : Nat) (c : Value) (hmem : (j, c) ∈ log) : FoldsTo A j c := by
  obtain ⟨pre, post, hlog⟩ := List.append_of_mem hmem
  exact h.entry_FoldsTo pre.length pre post j c rfl hlog

/-- With distinct identities and nothing left to fold, an instruction of a
reachable block whose operands 0 and 1 have become integer constants on which
`constant` gives `c` is recorded as folded to `c`. -/
theorem Folds.folded_of_subst {A B : Function} {log : List (Nat × Value)} (h : Folds A log B)
    (hfix : ¬ Foldable B) (b : Nat) (hb : Reachable A b) (instr : Instruction)
    (hmem : instr ∈ A.instructions b) (v0 v1 : Value) (a0 a1 : APInt)
    (g0 : instr.getOperand 0 = some v0) (g1 : instr.getOperand 1 = some v1)
    (s0 : Value.subst log v0 = Value.ConstantInt a0)
    (s1 : Value.subst log v1 = Value.ConstantInt a1) (c : Value)
    (hc : constant ⟨instr.id, instr.Opcode, instr.Ty,
        [Value.ConstantInt a0, Value.ConstantInt a1]⟩ = some c) :
    (instr.id, c) ∈ log := by
  have o0 : (Instruction.subst log instr).getOperand 0 = some (Value.ConstantInt a0) := by
    rw [Instruction.getOperand_subst, g0]
    simp only [Option.map_some', s0]
  have o1 : (Instruction.subst log instr).getOperand 1 = some (Value.ConstantInt a1) := by
    rw [Instruction.getOperand_subst, g1]
    simp only [Option.map_some', s1]
  rcases h.mem_cases b instr hmem with hin | ⟨pre, post, c', hlog, hc'⟩
  · exfalso
    apply hfix
    refine ⟨b, Reachable_of_Folds h b hb, _, hin, ?_⟩
    rw [constant_of_operands _ a0 a1 o0 o1]
    show (constant ⟨instr.id, instr.Opcode, instr.Ty, _⟩).isSome = true
    rw [hc]
    rfl
  · obtain ⟨V0, e0⟩ := constant_some_operand _ c' 0 (by omega) hc'
    obtain ⟨V1, e1⟩ := constant_some_operand _ c' 1 (by omega) hc'
    have hc2 := hc'
    rw [constant_of_operands _ V0 V1 e0 e1] at hc2
    rw [Instruction.getOperand_subst, g0] at e0
    rw [Instruction.getOperand_subst, g1] at e1
    simp only [Option.map_some', Option.some.injEq] at e0 e1
    have f0 := Value.subst_append_of_ConstantInt pre ((instr.id, c') :: post) v0 V0 e0
    have f1 := Value.subst_append_of_ConstantInt pre ((instr.id, c') :: post) v1 V1 e1
    rw [← hlog, s0] at f0
    rw [← hlog, s1] at f1
    cases f0
    cases f1
    have : c' = c := by
      have hc3 : constant ⟨instr.id, instr.Opcode, instr.Ty,
          [Value.ConstantInt a0, Value.ConstantInt a1]⟩ = some c' := hc2
      rw [hc] at hc3
      exact (Option.some.inj hc3).symm
    subst this
    rw [hlog]
    simp

theorem Folds.subst_of_Resolves {A B : Function} {log : List (Nat × Value)} (h : Folds A log B)
    (hA : A.UniqueIds) (hfix : ¬ Foldable B) (v : Value) (a : APInt) (hr : Resolves A v a) :
    Value.subst log v = Value.ConstantInt a := by
  induction hr with
  | const a => rfl
  | folded b instr v0 v1 a0 a1 a hb hmem g0 g1 _ _ hc ih0 ih1 =>
    have hin := h.folded_of_subst hfix b hb instr hmem v0 v1 a0 a1 g0 g1 ih0 ih1 _ hc
    obtain ⟨hk, -, -⟩ := h.nodup hA
    simp only [Value.subst, lookup_of_mem_of_nodup _ hk _ _ hin]

/-- Completeness of the record: with distinct identities and nothing left to
fold, every fold of the least set is recorded. -/
theorem Folds.mem_of_FoldsTo {A B : Function} {log : List (Nat × Value)} (h : Folds A log B)
    (hA : A.UniqueIds) (hfix : ¬ Foldable B) (j : Nat) (c : Value) (hf : FoldsTo A j c) :
    (j, c) ∈ log := by
  obtain ⟨b, instr, v0, v1, a0, a1, hb, hmem, hid, g0, g1, r0, r1, hc⟩ := hf
  rw [← hid]
  exact h.folded_of_subst hfix b hb instr hmem v0 v1 a0 a1 g0 g1
    (h.subst_of_Resolves hA hfix v0 a0 r0) (h.subst_of_Resolves hA hfix v1 a1 r1) c hc

/-! ## Any enumeration of the reachable blocks -/

theorem sweepWith_spec (order : List Nat) (Fn : Function) (changed : Bool)
    (h : ∀ b ∈ order, b ∈ ReversePostOrderTraversal Fn) :
    Folds Fn (sweepWith order Fn changed).folded (sweepWith order Fn changed).Fn
      ∧ (sweepWith order Fn changed).converged = (sweepWith order Fn changed).folded.isEmpty
      ∧ (sweepWith order Fn changed).changed
          = (changed || !(sweepWith order Fn changed).folded.isEmpty) := by
  obtain ⟨log, hf, hlog, hconv, hch⟩ :=
    forBlocks_spec order { Fn := Fn, converged := true, changed := changed, folded := [] } h
  have e : (sweepWith order Fn changed).folded = log := by
    unfold sweepWith; rw [hlog]; rfl
  rw [e]
  refine ⟨hf, ?_, ?_⟩
  · unfold sweepWith; rw [hconv]; simp
  · unfold sweepWith; rw [hch]

theorem sweepWith_converged_iff (order : List Nat) (Fn : Function) (changed : Bool)
    (h : ∀ b, b ∈ order ↔ b ∈ ReversePostOrderTraversal Fn) :
    (sweepWith order Fn changed).converged = true ↔ ¬ Foldable Fn := by
  constructor
  · intro hconv hfold
    obtain ⟨b, hb, hrest⟩ := hfold
    have := forBlocks_detects order
      { Fn := Fn, converged := true, changed := changed, folded := [] }
      (fun b hb => (h b).mp hb) ⟨b, (h b).mpr hb, hrest⟩
    unfold sweepWith at hconv
    rw [this] at hconv
    cases hconv
  · intro hnot
    obtain ⟨hf, hconv, -⟩ := sweepWith_spec order Fn changed (fun b hb => (h b).mp hb)
    rw [hconv]
    cases hl : (sweepWith order Fn changed).folded with
    | nil => rfl
    | cons e l =>
      exfalso
      apply hnot
      apply hf.foldable_of_ne_nil
      rw [hl]
      simp

theorem whileLoopWith_spec (walks : Nat → List Nat) (fuel : Nat) (Fn : Function)
    (changed : Bool) (trace : List (List (Nat × Value))) (r : RunResult)
    (hw : ∀ k b, b ∈ walks k ↔ b ∈ ReversePostOrderTraversal Fn)
    (h : whileLoopWith walks fuel Fn changed trace = some r) :
    ∃ init : List (List (Nat × Value)),
      r.trace = trace ++ (init ++ [[]])
      ∧ (∀ l ∈ init, l ≠ [])
      ∧ Folds Fn init.flatten r.Fn
      ∧ r.changed = (changed || !init.isEmpty)
      ∧ ¬ Foldable r.Fn := by
  induction fuel generalizing Fn changed trace with
  | zero => simp [whileLoopWith] at h
  | succ fuel ih =>
    obtain ⟨hf, hconv, hch⟩ :=
      sweepWith_spec (walks trace.length) Fn changed (fun b hb => (hw _ b).mp hb)
    simp only [whileLoopWith] at h
    by_cases hc : (sweepWith (walks trace.length) Fn changed).converged = true
    · rw [if_pos hc] at h
      cases h
      have hnil : (sweepWith (walks trace.length) Fn changed).folded = [] := by
        rw [hconv] at hc
        exact List.isEmpty_iff.mp hc
      have hFn : (sweepWith (walks trace.length) Fn changed).Fn = Fn := by
        rw [hnil] at hf
        exact hf.nil_eq
      refine ⟨[], ?_, ?_, ?_, ?_, ?_⟩
      · simp [hnil]
      · intro l hl; cases hl
      · simp only [List.flatten_nil, hFn]
        exact Folds.refl _
      · simp [hch, hnil]
      · simp only [hFn]
        exact (sweepWith_converged_iff _ Fn changed (hw _)).mp hc
    · rw [if_neg hc] at h
      have hw' : ∀ k b, b ∈ walks k
          ↔ b ∈ ReversePostOrderTraversal (sweepWith (walks trace.length) Fn changed).Fn := by
        intro k b
        rw [hf.rpot_eq]
        exact hw k b
      obtain ⟨init, htrace, hne, hfolds, hchanged, hfix⟩ := ih _ _ _ hw' h
      have hne0 : (sweepWith (walks trace.length) Fn changed).folded ≠ [] := by
        intro e
        apply hc
        rw [hconv, e]
        rfl
      refine ⟨(sweepWith (walks trace.length) Fn changed).folded :: init, ?_, ?_, ?_, ?_, hfix⟩
      · rw [htrace]; simp
      · intro l hl
        rcases List.mem_cons.mp hl with rfl | hl
        · exact hne0
        · exact hne l hl
      · simp only [List.flatten_cons]
        exact Folds.append hf hfolds
      · rw [hchanged, hch]
        cases hl : (sweepWith (walks trace.length) Fn changed).folded with
        | nil => exact absurd hl hne0
        | cons e l => simp

theorem whileLoopWith_total (walks : Nat → List Nat) (fuel : Nat) (Fn : Function)
    (changed : Bool) (trace : List (List (Nat × Value)))
    (hw : ∀ k b, b ∈ walks k ↔ b ∈ ReversePostOrderTraversal Fn)
    (h : Fn.numInstructions < fuel) :
    ∃ r, whileLoopWith walks fuel Fn changed trace = some r := by
  induction fuel generalizing Fn changed trace with
  | zero => omega
  | succ fuel ih =>
    obtain ⟨hf, hconv, -⟩ :=
      sweepWith_spec (walks trace.length) Fn changed (fun b hb => (hw _ b).mp hb)
    simp only [whileLoopWith]
    by_cases hc : (sweepWith (walks trace.length) Fn changed).converged = true
    · rw [if_pos hc]
      exact ⟨_, rfl⟩
    · rw [if_neg hc]
      apply ih
      · intro k b
        rw [hf.rpot_eq]
        exact hw k b
      · have hnum := hf.numInstructions
        have hlen : 0 < (sweepWith (walks trace.length) Fn changed).folded.length := by
          cases hl : (sweepWith (walks trace.length) Fn changed).folded with
          | nil =>
            exfalso
            apply hc
            rw [hconv, hl]
            rfl
          | cons e l => simp
        omega

theorem Function.eq_of_blocks (A B : Function) (hlen : A.Blocks.length = B.Blocks.length)
    (hi : ∀ b, A.instructions b = B.instructions b)
    (hs : ∀ b, A.successors b = B.successors b) : A = B := by
  rcases A with ⟨la⟩
  rcases B with ⟨lb⟩
  simp only at hlen
  congr 1
  apply List.ext_getElem?
  intro n
  have h1 := hi n
  have h2 := hs n
  unfold Function.instructions at h1
  unfold Function.successors at h2
  simp only at h1 h2
  cases ha : la[n]? with
  | none =>
    have : la.length ≤ n := List.getElem?_eq_none_iff.mp ha
    symm
    rw [List.getElem?_eq_none_iff]
    omega
  | some x =>
    cases hb : lb[n]? with
    | none =>
      exfalso
      have : lb.length ≤ n := List.getElem?_eq_none_iff.mp hb
      rcases List.getElem?_eq_some_iff.mp ha with ⟨hlt, -⟩
      omega
    | some y =>
      rw [ha, hb] at h1 h2
      simp only at h1 h2
      rcases x with ⟨xi, xs⟩
      rcases y with ⟨yi, ys⟩
      simp only at h1 h2
      rw [h1, h2]

theorem Value.subst_congr (l1 l2 : List (Nat × Value)) (n1 : (l1.map Prod.fst).Nodup)
    (n2 : (l2.map Prod.fst).Nodup) (h : ∀ j c, (j, c) ∈ l1 ↔ (j, c) ∈ l2) (v : Value) :
    Value.subst l1 v = Value.subst l2 v := by
  cases v with
  | Instruction j =>
    simp only [Value.subst]
    cases hl : l1.lookup j with
    | some c =>
      have hin := (h j c).mp (mem_of_lookup_eq_some l1 j c hl)
      rw [lookup_of_mem_of_nodup l2 n2 j c hin]
    | none =>
      have hnot : ∀ c, (j, c) ∉ l2 := by
        intro c hc
        have := lookup_of_mem_of_nodup l1 n1 j c ((h j c).mpr hc)
        rw [hl] at this
        cases this
      rw [lookup_none_of_not_mem l2 j hnot]
  | _ => rfl

/-- With distinct identities, two sequences of folds from the same function that
both leave nothing to fold record the same folds and end in the same
function. -/
theorem Folds.maximal_unique {A B1 B2 : Function} {l1 l2 : List (Nat × Value)}
    (hA : A.UniqueIds) (h1 : Folds A l1 B1) (f1 : ¬ Foldable B1) (h2 : Folds A l2 B2)
    (f2 : ¬ Foldable B2) :
    B1 = B2 ∧ ∀ j c, (j, c) ∈ l1 ↔ (j, c) ∈ l2 := by
  have hmem : ∀ j c, (j, c) ∈ l1 ↔ (j, c) ∈ l2 := by
    intro j c
    constructor
    · exact fun h => h2.mem_of_FoldsTo hA f2 j c (h1.mem_FoldsTo j c h)
    · exact fun h => h1.mem_of_FoldsTo hA f1 j c (h2.mem_FoldsTo j c h)
  refine ⟨?_, hmem⟩
  obtain ⟨n1, -, -⟩ := h1.nodup hA
  obtain ⟨n2, -, -⟩ := h2.nodup hA
  apply Function.eq_of_blocks
  · rw [h1.length_eq, h2.length_eq]
  · intro b
    rw [h1.instructions_filter hA b, h2.instructions_filter hA b]
    have hkeys : ∀ j, j ∈ l1.map Prod.fst ↔ j ∈ l2.map Prod.fst := by
      intro j
      constructor
      · intro hj
        obtain ⟨⟨j', c⟩, hin, rfl⟩ := List.mem_map.mp hj
        exact List.mem_map.mpr ⟨(j', c), (hmem j' c).mp hin, rfl⟩
      · intro hj
        obtain ⟨⟨j', c⟩, hin, rfl⟩ := List.mem_map.mp hj
        exact List.mem_map.mpr ⟨(j', c), (hmem j' c).mpr hin, rfl⟩
    have e1 : (A.instructions b).filter (fun y => decide (y.id ∉ l1.map Prod.fst))
        = (A.instructions b).filter (fun y => decide (y.id ∉ l2.map Prod.fst)) := by
      apply List.filter_congr
      intro y _
      simp only [hkeys y.id]
    rw [e1]
    apply List.map_congr_left
    intro x _
    unfold Instruction.subst
    congr 1
    apply List.map_congr_left
    intro v _
    exact Value.subst_congr l1 l2 n1 n2 hmem v
  · intro b
    rw [h1.successors_eq, h2.successors_eq]

theorem changed_iff_exists_FoldsTo (Fn : Function) (r : RunResult)
    (init : List (List (Nat × Value))) (hne : ∀ l ∈ init, l ≠ [])
    (hch : r.changed = !init.isEmpty)
    (hmem : ∀ j c, (j, c) ∈ init.flatten ↔ FoldsTo Fn j c) :
    r.changed = true ↔ ∃ j c, FoldsTo Fn j c := by
  have hnil := flatten_eq_nil_iff_of_ne_nil init hne
  constructor
  · intro h
    rw [hch] at h
    have hinit : init ≠ [] := by
      intro e
      rw [e] at h
      simp at h
    have hfl : init.flatten ≠ [] := fun e => hinit (hnil.mp e)
    obtain ⟨⟨j, c⟩, hin⟩ := List.exists_mem_of_ne_nil _ hfl
    exact ⟨j, c, (hmem j c).mp hin⟩
  · rintro ⟨j, c, hf⟩
    have hin := (hmem j c).mpr hf
    rw [hch]
    cases init with
    | nil => cases hin
    | cons l rest => rfl

/-- C19: with distinct identities the function the pass produces and the flag it
returns do not depend on the enumeration of the reachable blocks used in each
sweep: any two families of enumerations of the set of reachable blocks give the
same function and flag, those of the pass itself.  The folds performed are
exactly the least set `FoldsTo`, and the result is the input with exactly the
instructions of that set removed from their blocks and every operand that
referred to one of them replaced by the value it folds to. -/
theorem C19_order_independent (Fn : Function) (hU : Fn.UniqueIds)
    (walks1 walks2 : Nat → List Nat)
    (h1 : ∀ k b, b ∈ walks1 k ↔ Reachable Fn b)
    (h2 : ∀ k b, b ∈ walks2 k ↔ Reachable Fn b) :
    ∃ r r1 r2, myConstantPropagation Fn = some r
      ∧ whileLoopWith walks1 (Fn.numInstructions + 1) Fn false [] = some r1
      ∧ whileLoopWith walks2 (Fn.numInstructions + 1) Fn false [] = some r2
      ∧ r1.Fn = r2.Fn ∧ r1.changed = r2.changed
      ∧ r1.Fn = r.Fn ∧ r1.changed = r.changed
      ∧ (∀ j c, (j, c) ∈ r.trace.flatten ↔ FoldsTo Fn j c)
      ∧ (∀ j c, (j, c) ∈ r1.trace.flatten ↔ FoldsTo Fn j c)
      ∧ (∀ j c, (j, c) ∈ r2.trace.flatten ↔ FoldsTo Fn j c)
      ∧ (r.changed = true ↔ ∃ j c, FoldsTo Fn j c)
      ∧ r.Fn.Blocks.length = Fn.Blocks.length
      ∧ r.Fn.Blocks.map (fun bb => bb.Succs) = Fn.Blocks.map (fun bb => bb.Succs)
      ∧ (∀ b, r.Fn.instructions b
          = ((Fn.instructions b).filter
              (fun y => decide (y.id ∉ r.trace.flatten.map Prod.fst))).map
              (Instruction.subst r.trace.flatten))
      ∧ (∀ j, j ∈ r.trace.flatten.map Prod.fst ↔ ∃ c, FoldsTo Fn j c)
      ∧ (∀ j c, FoldsTo Fn j c →
          Value.subst r.trace.flatten (Value.Instruction j) = c)
      ∧ (∀ j, (¬ ∃ c, FoldsTo Fn j c) →
          Value.subst r.trace.flatten (Value.Instruction j) = Value.Instruction j) := by
  have hw1 : ∀ k b, b ∈ walks1 k ↔ b ∈ ReversePostOrderTraversal Fn := by
    intro k b
    rw [h1 k b, mem_ReversePostOrderTraversal_iff]
  have hw2 : ∀ k b, b ∈ walks2 k ↔ b ∈ ReversePostOrderTraversal Fn := by
    intro k b
    rw [h2 k b, mem_ReversePostOrderTraversal_iff]
  obtain ⟨r, init, hr, htrace, hne, hfolds, hch, hfix⟩ := myConstantPropagation_spec Fn
  obtain ⟨r1, hr1⟩ := whileLoopWith_total walks1 (Fn.numInstructions + 1) Fn false [] hw1
    (Nat.lt_succ_self _)
  obtain ⟨r2, hr2⟩ := whileLoopWith_total walks2 (Fn.numInstructions + 1) Fn false [] hw2
    (Nat.lt_succ_self _)
  obtain ⟨i1, t1, n1, f1, c1, x1⟩ := whileLoopWith_spec walks1 _ Fn false [] r1 hw1 hr1
  obtain ⟨i2, t2, n2, f2, c2, x2⟩ := whileLoopWith_spec walks2 _ Fn false [] r2 hw2 hr2
  have hlog : r.trace.flatten = init.flatten := by rw [htrace]; exact flatten_append_nil init
  have hlog1 : r1.trace.flatten = i1.flatten := by
    rw [t1, List.nil_append]; exact flatten_append_nil i1
  have hlog2 : r2.trace.flatten = i2.flatten := by
    rw [t2, List.nil_append]; exact flatten_append_nil i2
  have m : ∀ j c, (j, c) ∈ init.flatten ↔ FoldsTo Fn j c :=
    fun j c => ⟨hfolds.mem_FoldsTo j c, hfolds.mem_of_FoldsTo hU hfix j c⟩
  have m1 : ∀ j c, (j, c) ∈ i1.flatten ↔ FoldsTo Fn j c :=
    fun j c => ⟨f1.mem_FoldsTo j c, f1.mem_of_FoldsTo hU x1 j c⟩
  have m2 : ∀ j c, (j, c) ∈ i2.flatten ↔ FoldsTo Fn j c :=
    fun j c => ⟨f2.mem_FoldsTo j c, f2.mem_of_FoldsTo hU x2 j c⟩
  have e12 := (Folds.maximal_unique hU f1 x1 f2 x2).1
  have e1r := (Folds.maximal_unique hU f1 x1 hfolds hfix).1
  have hc : r.changed = true ↔ ∃ j c, FoldsTo Fn j c :=
    changed_iff_exists_FoldsTo Fn r init hne hch m
  have hc1 : r1.changed = true ↔ ∃ j c, FoldsTo Fn j c :=
    changed_iff_exists_FoldsTo Fn r1 i1 n1 (by simpa using c1) m1
  have hc2 : r2.changed = true ↔ ∃ j c, FoldsTo Fn j c :=
    changed_iff_exists_FoldsTo Fn r2 i2 n2 (by simpa using c2) m2
  have bool_eq : ∀ (x y : Bool), (x = true ↔ y = true) → x = y := by
    intro x y h
    cases x <;> cases y <;> simp_all
  obtain ⟨hk, -, -⟩ := hfolds.nodup hU
  refine ⟨r, r1, r2, hr, hr1, hr2, e12, bool_eq _ _ (hc1.trans hc2.symm), e1r,
    bool_eq _ _ (hc1.trans hc.symm), ?_, ?_, ?_, hc, hfolds.length_eq, hfolds.succs_eq, ?_, ?_,
    ?_, ?_⟩
  · rw [hlog]; exact m
  · rw [hlog1]; exact m1
  · rw [hlog2]; exact m2
  · rw [hlog]; exact fun b => hfolds.instructions_filter hU b
  · rw [hlog]
    intro j
    constructor
    · intro hj
      obtain ⟨⟨j', c⟩, hin, rfl⟩ := List.mem_map.mp hj
      exact ⟨c, (m j' c).mp hin⟩
    · rintro ⟨c, hf⟩
      exact List.mem_map.mpr ⟨(j, c), (m j c).mpr hf, rfl⟩
  · rw [hlog]
    intro j c hf
    simp only [Value.subst, lookup_of_mem_of_nodup _ hk _ _ ((m j c).mpr hf)]
  · rw [hlog]
    intro j hnot
    simp only [Value.subst,
      lookup_none_of_not_mem _ j (fun c hin => hnot ⟨c, (m j c).mp hin⟩)]

theorem C19_order_independent_witness :
    ∃ r1 r2, whileLoopWith (fun _ => [0, 1]) (scenarioLater.numInstructions + 1)
        scenarioLater false [] = some r1
      ∧ whileLoopWith (fun _ => [1, 0]) (scenarioLater.numInstructions + 1)
        scenarioLater false [] = some r2
      ∧ r1.Fn = r2.Fn ∧ r1.changed = r2.changed := by
  have hrp : ReversePostOrderTraversal scenarioLater = [0, 1] := by decide
  have ha : ∀ (k : Nat) (b : Nat), b ∈ (fun _ : Nat => [0, 1]) k ↔ Reachable scenarioLater b := by
    intro k b
    rw [← mem_ReversePostOrderTraversal_iff, hrp]
  have hb : ∀ (k : Nat) (b : Nat), b ∈ (fun _ : Nat => [1, 0]) k ↔ Reachable scenarioLater b := by
    intro k b
    rw [← mem_ReversePostOrderTraversal_iff, hrp]
    simp only [List.mem_cons, List.mem_singleton, List.not_mem_nil, or_false]
    exact or_comm
  obtain ⟨r, r1, r2, -, h1, h2, h3, h4, -⟩ :=
    C19_order_independent scenarioLater (by decide) (fun _ => [0, 1]) (fun _ => [1, 0]) ha hb
  exact ⟨r1, r2, h1, h2, h3, h4⟩

/-! ## The walker visits each block once -/

theorem foldl_new_not_mem (f : List Nat → Nat → List Nat) (S : List Nat)
    (hf : ∀ o s x, x ∈ f o s → x ∈ o ∨ x ∉ S) (ss : List Nat) (o : List Nat) :
    ∀ x ∈ ss.foldl f o, x ∈ o ∨ x ∉ S := by
  induction ss generalizing o with
  | nil => intro x hx; exact Or.inl hx
  | cons s rest ihl =>
    intro x hx
    simp only [List.foldl_cons] at hx
    rcases ihl _ x hx with h | h
    · exact hf o s x h
    · exact Or.inr h

theorem postOrder_new_not_mem (Fn : Function) (fuel : Nat) (stack : List Nat) (n : Nat)
    (out : List Nat) : ∀ x ∈ postOrder Fn fuel stack n out, x ∈ out ∨ x ∉ stack := by
  induction fuel generalizing stack n out with
  | zero => intro x hx; exact Or.inl hx
  | succ fuel ih =>
    intro x hx
    simp only [postOrder] at hx
    split at hx
    · exact Or.inl hx
    · rename_i hvis
      rw [not_or] at hvis
      rcases List.mem_cons.mp hx with rfl | hx
      · exact Or.inr hvis.1
      · rcases foldl_new_not_mem _ (x := x) (n :: stack)
          (fun o s x hx => ih (n :: stack) s o x hx) _ out hx with h | h
        · exact Or.inl h
        · exact Or.inr (fun hs => h (List.mem_cons_of_mem _ hs))

theorem foldl_nodup (f : List Nat → Nat → List Nat)
    (hf : ∀ o s, o.Nodup → (f o s).Nodup) (ss : List Nat) (o : List Nat) (ho : o.Nodup) :
    (ss.foldl f o).Nodup := by
  induction ss generalizing o with
  | nil => exact ho
  | cons s rest ihl =>
    simp only [List.foldl_cons]
    exact ihl _ (hf o s ho)

theorem postOrder_nodup (Fn : Function) (fuel : Nat) (stack : List Nat) (n : Nat)
    (out : List Nat) (ho : out.Nodup) : (postOrder Fn fuel stack n out).Nodup := by
  induction fuel generalizing stack n out with
  | zero => exact ho
  | succ fuel ih =>
    simp only [postOrder]
    split
    · exact ho
    · rename_i hvis
      rw [not_or] at hvis
      rw [List.nodup_cons]
      constructor
      · intro hin
        rcases foldl_new_not_mem _ (n :: stack)
          (fun o s x hx => postOrder_new_not_mem Fn fuel (n :: stack) s o x hx) _ out n hin
          with h | h
        · exact hvis.2 h
        · exact h (List.mem_cons_self _ _)
      · exact foldl_nodup _ (fun o s ho => ih (n :: stack) s o ho) _ out ho

theorem ReversePostOrderTraversal_nodup (Fn : Function) :
    (ReversePostOrderTraversal Fn).Nodup := by
  unfold ReversePostOrderTraversal
  split
  · exact List.nodup_nil
  · exact postOrder_nodup Fn _ [] 0 [] List.nodup_nil

theorem flatMap_ids_nodup (Fn : Function) (hU : Fn.UniqueIds) (bs : List Nat) (hn : bs.Nodup) :
    ((bs.flatMap (fun b => Fn.instructions b)).map (fun instr => instr.id)).Nodup := by
  induction bs with
  | nil => exact List.nodup_nil
  | cons b rest ih =>
    rw [List.nodup_cons] at hn
    simp only [List.flatMap_cons, List.map_append]
    rw [List.nodup_append]
    refine ⟨block_ids_nodup Fn hU b, ih hn.2, ?_⟩
    intro j hj1 hj2
    obtain ⟨x, hx, rfl⟩ := List.mem_map.mp hj1
    obtain ⟨y, hy, hxy⟩ := List.mem_map.mp hj2
    obtain ⟨b', hb', hy'⟩ := List.mem_flatMap.mp hy
    have hne : b ≠ b' := fun e => hn.1 (e ▸ hb')
    exact ids_disjoint_of_ne Fn hU b b' hne x y hx hy' hxy.symm

theorem sweepOrder_ids_nodup (Fn : Function) (hU : Fn.UniqueIds) :
    ((sweepOrder Fn).map (fun instr => instr.id)).Nodup :=
  flatMap_ids_nodup Fn hU _ (ReversePostOrderTraversal_nodup Fn)

/-! ## Definitions before uses -/

theorem NoForwardRef_of_definedBeforeUse (seen : List Nat) (L : List Instruction)
    (h : definedBeforeUse seen L = true)
    (hseen : ∀ j ∈ seen, ∀ x ∈ L, x.id ≠ j)
    (hn : (L.map (fun instr => instr.id)).Nodup) : NoForwardRef L := by
  induction L generalizing seen with
  | nil => trivial
  | cons instr rest ih =>
    simp only [definedBeforeUse, Bool.and_eq_true, List.all_eq_true] at h
    simp only [List.map_cons, List.nodup_cons] at hn
    refine ⟨?_, ?_⟩
    · intro j hj x hx
      have := h.1 _ hj
      simp only [decide_eq_true_eq] at this
      exact hseen j this x hx
    · apply ih (instr.id :: seen) h.2 _ hn.2
      intro j hj x hx
      rcases List.mem_cons.mp hj with rfl | hj
      · intro e
        exact hn.1 (List.mem_map.mpr ⟨x, hx, e⟩)
      · exact hseen j hj x (List.mem_cons_of_mem _ hx)

theorem NoForwardRef_tail (x : Instruction) (L : List Instruction)
    (h : NoForwardRef (x :: L)) : NoForwardRef L := h.2

theorem Instruction.replaceUsesOfWith_of_not_mem (j : Nat) (c : Value) (x : Instruction)
    (h : Value.Instruction j ∉ x.Operands) : x.replaceUsesOfWith j c = x := by
  unfold Instruction.replaceUsesOfWith
  have e : x.Operands.map (Value.replaceUsesOfWith j c) = x.Operands.map (fun v => v) := by
    apply List.map_congr_left
    intro v hv
    apply Value.replaceUsesOfWith_of_ne
    intro e
    exact h (e ▸ hv)
  rw [e, List.map_id']

theorem mem_Operands_of_mem_replace (j : Nat) (c : Value) (hc : ∀ k, c ≠ Value.Instruction k)
    (x : Instruction) (j' : Nat)
    (h : Value.Instruction j' ∈ (x.replaceUsesOfWith j c).Operands) :
    Value.Instruction j' ∈ x.Operands := by
  unfold Instruction.replaceUsesOfWith at h
  simp only at h
  obtain ⟨v, hv, e⟩ := List.mem_map.mp h
  unfold Value.replaceUsesOfWith at e
  split at e
  · exact absurd e (hc j')
  · exact e ▸ hv

theorem NoForwardRef_map_replace (j : Nat) (c : Value) (hc : ∀ k, c ≠ Value.Instruction k)
    (L : List Instruction) (h : NoForwardRef L) :
    NoForwardRef (L.map (Instruction.replaceUsesOfWith j c)) := by
  induction L with
  | nil => trivial
  | cons x rest ih =>
    refine ⟨?_, ih h.2⟩
    intro j' hj' y hy
    have hj'' := mem_Operands_of_mem_replace j c hc x j' hj'
    rw [← List.map_cons] at hy
    obtain ⟨y0, hy0, rfl⟩ := List.mem_map.mp hy
    exact h.1 j' hj'' y0 hy0

theorem SweepInv_skip (V U : List Instruction) (x : Instruction) (h : SweepInv V (x :: U))
    (hx : constant x = none) : SweepInv (V ++ [x]) U := by
  obtain ⟨hV, hU⟩ := h
  refine ⟨?_, hU.2⟩
  intro y hy
  rcases List.mem_append.mp hy with hy | hy
  · obtain ⟨h1, h2⟩ := hV y hy
    exact ⟨h1, fun j hj z hz => h2 j hj z (List.mem_cons_of_mem _ hz)⟩
  · simp only [List.mem_singleton] at hy
    subst hy
    exact ⟨hx, fun j hj z hz => hU.1 j hj z (List.mem_cons_of_mem _ hz)⟩

theorem SweepInv_fold (V U : List Instruction) (x : Instruction) (c : Value)
    (hc : ∀ k, c ≠ Value.Instruction k) (h : SweepInv V (x :: U)) :
    SweepInv (V.map (Instruction.replaceUsesOfWith x.id c))
      (U.map (Instruction.replaceUsesOfWith x.id c)) := by
  obtain ⟨hV, hU⟩ := h
  have hid : V.map (Instruction.replaceUsesOfWith x.id c) = V := by
    have e : V.map (Instruction.replaceUsesOfWith x.id c) = V.map (fun y => y) := by
      apply List.map_congr_left
      intro y hy
      apply Instruction.replaceUsesOfWith_of_not_mem
      intro hin
      exact (hV y hy).2 x.id hin x (List.mem_cons_self _ _) rfl
    rw [e, List.map_id']
  rw [hid]
  refine ⟨?_, NoForwardRef_map_replace x.id c hc U hU.2⟩
  intro y hy
  obtain ⟨h1, h2⟩ := hV y hy
  refine ⟨h1, ?_⟩
  intro j hj z hz
  obtain ⟨z0, hz0, rfl⟩ := List.mem_map.mp hz
  exact h2 j hj z0 (List.mem_cons_of_mem _ hz0)

/-! ## One sweep is enough when definitions are visited before uses -/

theorem take_eraseIdx_self {α : Type} (l : List α) (i : Nat) :
    (l.eraseIdx i).take i = l.take i := by
  induction l generalizing i with
  | nil => simp
  | cons hd tl ih =>
    cases i with
    | zero => simp
    | succ i => simp [ih]

theorem drop_eraseIdx_self {α : Type} (l : List α) (i : Nat) :
    (l.eraseIdx i).drop i = l.drop (i + 1) := by
  induction l generalizing i with
  | nil => simp
  | cons hd tl ih =>
    cases i with
    | zero => simp
    | succ i => simp [ih]

theorem take_succ_of_getElem? {α : Type} (l : List α) (i : Nat) (x : α) (h : l[i]? = some x) :
    l.take (i + 1) = l.take i ++ [x] := by
  rw [List.take_succ, h]
  rfl

theorem drop_of_getElem? {α : Type} (l : List α) (i : Nat) (x : α) (h : l[i]? = some x) :
    l.drop i = x :: l.drop (i + 1) := by
  rcases List.getElem?_eq_some_iff.mp h with ⟨hlt, hget⟩
  rw [List.drop_eq_getElem_cons hlt, hget]

theorem flatMap_instructions_fold (F : Function) (b i j : Nat) (c : Value) (bs : List Nat)
    (hb : b ∉ bs) :
    bs.flatMap (fun b' => ((F.replaceAllUsesWith j c).eraseFromParent b i).instructions b')
      = (bs.flatMap (fun b' => F.instructions b')).map (Instruction.replaceUsesOfWith j c) := by
  induction bs with
  | nil => rfl
  | cons b' rest ih =>
    have hne : b ≠ b' := fun e => hb (e ▸ List.mem_cons_self _ _)
    have hrest : b ∉ rest := fun h => hb (List.mem_cons_of_mem _ h)
    simp only [List.flatMap_cons, List.map_append, ih hrest]
    rw [Function.instructions_eraseFromParent, if_neg hne,
      Function.instructions_replaceAllUsesWith]

theorem forInstructions_inv (done rest : List Nat) (b : Nat) (hbd : b ∉ done)
    (hbr : b ∉ rest) (n i : Nat) (st : PassState)
    (hlen : n + i = (st.Fn.instructions b).length)
    (h : SweepInv
      (done.flatMap (fun b' => st.Fn.instructions b') ++ (st.Fn.instructions b).take i)
      ((st.Fn.instructions b).drop i ++ rest.flatMap (fun b' => st.Fn.instructions b'))) :
    SweepInv
      (done.flatMap (fun b' => (forInstructions b n i st).Fn.instructions b')
        ++ (forInstructions b n i st).Fn.instructions b)
      (rest.flatMap (fun b' => (forInstructions b n i st).Fn.instructions b')) := by
  induction n generalizing i st with
  | zero =>
    have hi : (st.Fn.instructions b).length ≤ i := by omega
    rw [List.take_of_length_le hi, List.drop_of_length_le hi, List.nil_append] at h
    exact h
  | succ n ih =>
    have hi : i < (st.Fn.instructions b).length := by omega
    have hget : st.Fn.getInstruction b i = some ((st.Fn.instructions b)[i]) := by
      unfold Function.getInstruction
      exact List.getElem?_eq_getElem hi
    generalize (st.Fn.instructions b)[i] = x at hget
    have hget' : (st.Fn.instructions b)[i]? = some x := hget
    rw [drop_of_getElem? _ i x hget', List.cons_append] at h
    cases hc : constant x with
    | none =>
      rw [forInstructions_skip b n i st x hget hc]
      apply ih (i + 1) st (by omega)
      rw [take_succ_of_getElem? _ i x hget', ← List.append_assoc]
      exact SweepInv_skip _ _ x h hc
    | some c =>
      rw [forInstructions_fold b n i st x c hget hc]
      have hcne : ∀ k, c ≠ Value.Instruction k :=
        fun k => constant_value_ne_Instruction x c k hc
      have hFn : (st.fold b i x c).Fn
          = (st.Fn.replaceAllUsesWith x.id c).eraseFromParent b i := rfl
      have hb : (st.fold b i x c).Fn.instructions b
          = ((st.Fn.instructions b).map (Instruction.replaceUsesOfWith x.id c)).eraseIdx i := by
        rw [hFn, Function.instructions_eraseFromParent, if_pos rfl,
          Function.instructions_replaceAllUsesWith]
      apply ih i (st.fold b i x c)
      · rw [hb, List.length_eraseIdx, List.length_map, if_pos hi]
        omega
      · rw [hb, take_eraseIdx_self, drop_eraseIdx_self, hFn,
          flatMap_instructions_fold st.Fn b i x.id c done hbd,
          flatMap_instructions_fold st.Fn b i x.id c rest hbr, ← List.map_take, ← List.map_drop,
          ← List.map_append, ← List.map_append]
        exact SweepInv_fold _ _ x c hcne h

theorem forBlocks_inv (rest done : List Nat) (st : PassState) (hn : (done ++ rest).Nodup)
    (h : SweepInv (done.flatMap (fun b' => st.Fn.instructions b'))
      (rest.flatMap (fun b' => st.Fn.instructions b'))) :
    SweepInv ((done ++ rest).flatMap (fun b' => (forBlocks rest st).Fn.instructions b')) [] := by
  induction rest generalizing done st with
  | nil =>
    simp only [List.append_nil, List.flatMap_nil] at h ⊢
    exact h
  | cons b rest ih =>
    have e : forBlocks (b :: rest) st = forBlocks rest (forBlock st b) := rfl
    have hn' : ((done ++ [b]) ++ rest).Nodup := by
      rw [List.append_assoc]
      exact hn
    have hbd : b ∉ done := by
      intro hin
      rw [List.nodup_append] at hn
      exact hn.2.2 hin (List.mem_cons_self _ _)
    have hbr : b ∉ rest := by
      rw [List.nodup_append, List.nodup_cons] at hn
      exact hn.2.1.1
    have h0 : SweepInv
        (done.flatMap (fun b' => st.Fn.instructions b') ++ (st.Fn.instructions b).take 0)
        ((st.Fn.instructions b).drop 0 ++ rest.flatMap (fun b' => st.Fn.instructions b')) := by
      simp only [List.take_zero, List.append_nil, List.drop_zero]
      rw [List.flatMap_cons] at h
      exact h
    have h1 := forInstructions_inv done rest b hbd hbr (st.Fn.instructions b).length 0 st rfl h0
    have h2 := ih (done ++ [b]) (forBlock st b) hn' (by
      rw [List.flatMap_append, List.flatMap_cons, List.flatMap_nil, List.append_nil]
      exact h1)
    rw [e]
    rw [List.append_assoc] at h2
    exact h2

/-- When no instruction of the walker's blocks refers to itself or to an
instruction visited later, one sweep leaves nothing to fold. -/
theorem sweep_not_Foldable (Fn : Function) (changed : Bool)
    (h : NoForwardRef (sweepOrder Fn)) : ¬ Foldable (sweep Fn changed).Fn := by
  have hinv := forBlocks_inv (ReversePostOrderTraversal Fn) []
    { Fn := Fn, converged := true, changed := changed, folded := [] }
    (by simpa using ReversePostOrderTraversal_nodup Fn)
    ⟨fun x hx => absurd hx (List.not_mem_nil x), h⟩
  obtain ⟨hf, -, -⟩ := sweep_spec Fn changed
  rintro ⟨b, hb, instr, hmem, hs⟩
  rw [hf.rpot_eq] at hb
  have hin : instr ∈ ([] ++ ReversePostOrderTraversal Fn).flatMap
      (fun b' => (sweep Fn changed).Fn.instructions b') := by
    rw [List.nil_append]
    exact List.mem_flatMap.mpr ⟨b, hb, hmem⟩
  have := (hinv.1 instr hin).1
  rw [this] at hs
  cases hs

theorem sweep_of_not_Foldable (Fn : Function) (changed : Bool) (h : ¬ Foldable Fn) :
    (sweep Fn changed).converged = true ∧ (sweep Fn changed).folded = []
      ∧ (sweep Fn changed).Fn = Fn ∧ (sweep Fn changed).changed = changed := by
  obtain ⟨hf, hconv, hch⟩ := sweep_spec Fn changed
  have hc : (sweep Fn changed).converged = true := (sweep_converged_iff Fn changed).mpr h
  have hnil : (sweep Fn changed).folded = [] := by
    rw [hconv] at hc
    exact List.isEmpty_iff.mp hc
  refine ⟨hc, hnil, ?_, ?_⟩
  · rw [hnil] at hf
    exact hf.nil_eq
  · rw [hch, hnil]
    simp

/-- C17: with distinct identities, when every operand that is an instruction
result refers to an instruction visited earlier in the sweep order than its
user, the first sweep performs every fold of the run: it leaves nothing to fold,
the second sweep folds nothing, and the loop body executes at most twice.  In
`scenarioB` the single block `t1 = Add(2, 2); t2 = Mul(t1, 10)` is folded
completely by the first sweep. -/
theorem C17_single_sweep_suffices (Fn : Function) (hU : Fn.UniqueIds)
    (hd : definedBeforeUse [] (sweepOrder Fn) = true) :
    (∃ r, myConstantPropagation Fn = some r
      ∧ ¬ Foldable (sweep Fn false).Fn
      ∧ r.Fn = (sweep Fn false).Fn
      ∧ r.trace.flatten = (sweep Fn false).folded
      ∧ (r.trace = [[]] ∨ r.trace = [(sweep Fn false).folded, []])
      ∧ r.trace.length ≤ 2
      ∧ (sweep (sweep Fn false).Fn (sweep Fn false).changed).folded = []
      ∧ whileLoop 2 Fn false [] = some r)
    ∧ definedBeforeUse [] (sweepOrder scenarioB) = true
    ∧ myConstantPropagation scenarioB
        = some ⟨true, scenarioBFolded,
            [[(1, Value.ConstantInt ⟨32, 4⟩), (2, Value.ConstantInt ⟨32, 40⟩)], []]⟩ := by
  refine ⟨?_, by decide, by decide⟩
  have hnf : NoForwardRef (sweepOrder Fn) :=
    NoForwardRef_of_definedBeforeUse [] _ hd (fun j hj => absurd hj (List.not_mem_nil j))
      (sweepOrder_ids_nodup Fn hU)
  have hfix := sweep_not_Foldable Fn false hnf
  obtain ⟨hf, hconv, -⟩ := sweep_spec Fn false
  obtain ⟨c2, n2, F2, ch2⟩ :=
    sweep_of_not_Foldable (sweep Fn false).Fn (sweep Fn false).changed hfix
  by_cases hc : (sweep Fn false).converged = true
  · have hnil : (sweep Fn false).folded = [] := by
      rw [hconv] at hc
      exact List.isEmpty_iff.mp hc
    have hFn : (sweep Fn false).Fn = Fn := by
      rw [hnil] at hf
      exact hf.nil_eq
    have hnot : ¬ Foldable Fn := by
      rw [hFn] at hfix
      exact hfix
    obtain ⟨-, -, -, hch⟩ := sweep_of_not_Foldable Fn false hnot
    refine ⟨⟨false, Fn, [[]]⟩, myConstantPropagation_of_not_Foldable Fn hnot, hfix, hFn.symm,
      ?_, Or.inl rfl, by simp, n2, ?_⟩
    · rw [hnil]; rfl
    · simp only [whileLoop, hc, if_true, hnil, hFn, hch, List.nil_append]
  · have hne : (sweep Fn false).folded ≠ [] := by
      intro e
      apply hc
      rw [hconv, e]
      rfl
    have hpos : 0 < Fn.numInstructions := by
      have := hf.numInstructions
      have : 0 < (sweep Fn false).folded.length := List.length_pos.mpr hne
      omega
    have h2 : whileLoop 2 Fn false []
        = some ⟨(sweep Fn false).changed, (sweep Fn false).Fn, [(sweep Fn false).folded, []]⟩ := by
      simp only [whileLoop, hc, if_false, c2, if_true, n2, F2, ch2, List.nil_append,
        List.singleton_append, Bool.false_eq_true]
    have hrun : myConstantPropagation Fn
        = some ⟨(sweep Fn false).changed, (sweep Fn false).Fn, [(sweep Fn false).folded, []]⟩ := by
      have := whileLoop_fuel_mono 2 (Fn.numInstructions - 1) Fn false [] _ h2
      have e : 2 + (Fn.numInstructions - 1) = Fn.numInstructions + 1 := by omega
      rw [e] at this
      exact this
    refine ⟨_, hrun, hfix, rfl, ?_, Or.inr rfl, by simp, n2, h2⟩
    simp

theorem C17_single_sweep_suffices_witness :
    ∃ r, myConstantPropagation scenarioB = some r
      ∧ r.trace.flatten = (sweep scenarioB false).folded
      ∧ r.trace.length ≤ 2 := by
  obtain ⟨r, hr, -, -, h1, -, h2, -, -⟩ :=
    (C17_single_sweep_suffices scenarioB (by decide) (by decide)).1
  exact ⟨r, hr, h1, h2⟩

end CstProp
